import Mathlib

/-!
# COP-SLAM pose chain (`poseChain.cpp`): shallow embedding and verified properties

The embedding idealises `float` as an arbitrary linearly ordered field `K`
(exact arithmetic; the concrete scenarios are evaluated over `ℚ`).

* `Affine3 K` is `Eigen::Affine3f`: a 3×3 linear part and a translation.
* `poseVector` is the flat storage with four slots per pose:
  `4*i` absolute pose, `4*i+1` relative pose, `4*i+2` reserved, `4*i+3` update.
* Vectors are total maps from the index, so an in-range access of the program is
  the same access of the model; indices are natural numbers.
* The library routines that are not rational (`pow`, and the conversion between
  rotation matrices and angle-axis pairs) are parameters, collected in `Numerics`.
-/

namespace CopSlam

/-- A 3-vector (`Eigen::Vector3f`). -/
abbrev Vector3 (K : Type) := Fin 3 → K

/-- A 3×3 matrix (`Eigen::Matrix3f`). -/
abbrev Matrix3 (K : Type) := Matrix (Fin 3) (Fin 3) K

/-- An affine transform (`Eigen::Affine3f`): `x ↦ linear * x + translation`. -/
@[ext]
structure Affine3 (K : Type) where
  linear : Matrix3 K
  translation : Vector3 K

namespace Affine3

variable {K : Type} [LinearOrderedField K]

/-- The identity transform,
`Eigen::Translation<float,3>(0,0,0) * Eigen::Quaternion<float>(1,0,0,0)`. -/
def identity : Affine3 K := ⟨1, 0⟩

/-- Composition `a * b` of two transforms. -/
def comp (a b : Affine3 K) : Affine3 K :=
  ⟨a.linear * b.linear, a.linear.mulVec b.translation + a.translation⟩

/-- Inverse of a 3×3 matrix by cofactors: adjugate divided by determinant. -/
def inverse3 (m : Matrix3 K) : Matrix3 K := (m.det)⁻¹ • m.adjugate

/-- The transform `a.inverse()`: the linear part is inverted, the translation is
`-(linear⁻¹ * translation)`. -/
def inverse (a : Affine3 K) : Affine3 K :=
  ⟨inverse3 a.linear, -((inverse3 a.linear).mulVec a.translation)⟩

/-- The transform applied to a point, `a * v`. -/
def apply (a : Affine3 K) (v : Vector3 K) : Vector3 K :=
  a.linear.mulVec v + a.translation

/-- The pure translation `Eigen::Translation3f(v)` as a transform. -/
def ofTranslation (v : Vector3 K) : Affine3 K := ⟨1, v⟩

/-- The pure rotation with matrix `r` as a transform. -/
def ofLinear (r : Matrix3 K) : Affine3 K := ⟨r, 0⟩

/-- The transform `Eigen::Translation3f(v) * r` for a rotation matrix `r`. -/
def ofTranslationLinear (v : Vector3 K) (r : Matrix3 K) : Affine3 K := ⟨r, v⟩

instance : One (Affine3 K) := ⟨identity⟩

instance : Mul (Affine3 K) := ⟨comp⟩

instance : Monoid (Affine3 K) where
  mul_assoc a b c := by
    apply Affine3.ext
    · exact Matrix.mul_assoc _ _ _
    · show (a.linear * b.linear).mulVec c.translation
        + (a.linear.mulVec b.translation + a.translation)
        = a.linear.mulVec (b.linear.mulVec c.translation + b.translation) + a.translation
      rw [Matrix.mulVec_add, Matrix.mulVec_mulVec, add_assoc]
  one_mul a := by
    apply Affine3.ext
    · exact Matrix.one_mul _
    · show (1 : Matrix3 K).mulVec a.translation + 0 = a.translation
      rw [Matrix.one_mulVec, add_zero]
  mul_one a := by
    apply Affine3.ext
    · exact Matrix.mul_one _
    · show a.linear.mulVec 0 + a.translation = a.translation
      rw [Matrix.mulVec_zero, zero_add]

end Affine3

variable {K : Type} [LinearOrderedField K]

/-- The selector of `cobChain` and `updateChain`. -/
inductive Channel where
  | BOTH
  | ROTATION
  | TRANSLATION
  | SCALE
  deriving DecidableEq, Repr

/-- The global strategy selector `method`. -/
inductive Method where
  | ONEPASS
  | TWOPASS
  deriving DecidableEq, Repr

/-- The `for( int n = start; n <= end; n = n+4 )` loops of the program, with
`start = (astart+1)*4` and `end = aend*4`: the body runs for the pose indices
`i = astart+1, ..., aend` (flat index `n = 4*i`), `count = aend - astart` times
and not at all when `aend <= astart`. The closure loop of `copSLAM`,
`for( int n = 0; n < closeVector.size(); n++ )`, is the same iteration from `0` with
`count = closeVector.size()`. -/
def forPoses {σ : Type} (body : Nat → σ → σ) : Nat → Nat → σ → σ
  | _, 0, s => s
  | i, count + 1, s => forPoses body (i + 1) count (body i s)

/-- The library routines of the program that leave the field operations: `pow`
of the C library and the angle-axis conversions of `Eigen::AngleAxisf`.
`angle m` and `axis m` are `aa.angle()` and `aa.axis()` after
`aa = aupdate.rotation()` for a transform with linear part `m`;
`angleAxis a v` is the rotation matrix of `Eigen::AngleAxisf(a, v)`. -/
structure Numerics (K : Type) where
  pow : K → K → K
  angle : Matrix3 K → K
  axis : Matrix3 K → Vector3 K
  angleAxis : K → Vector3 K → Matrix3 K

/-- The global configuration read by `copSLAM`: the strategy `method` and the two
flags of the test `sim3_solution_space & ~ignore_sim3_solution_space`. -/
structure Globals where
  method : Method
  sim3_solution_space : Bool
  ignore_sim3_solution_space : Bool

/-- Sum of `v.block(i, 0, len, 1)`: the entries `v(i), ..., v(i+len-1)`. The block
lengths of the program, `aend-astart` and `(aend-astart)-1`, are natural numbers here
(truncated subtraction); they are the program's lengths whenever `astart < aend`. -/
def blockSum (v : Nat → K) (i len : Nat) : K :=
  Finset.sum (Finset.range len) (fun j => v (i + j))

/-- The state of a `poseChain` object together with the loop closures it holds.
`naposes` is `poseVector.size()/4` and `nclosures` is `closeVector.size()`
(`syncChain`); the vectors are total maps from the index. -/
structure PoseChain (K : Type) where
  naposes : Nat
  nclosures : Nat
  poseVector : Nat → Affine3 K
  rotInfoVector : Nat → K
  traInfoVector : Nat → K
  scaleInfoVector : Nat → K
  scaleVector : Nat → K
  closeVector : Nat → Affine3 K
  startVector : Nat → Nat
  endVector : Nat → Nat
  rotCloseInfoVector : Nat → K
  traCloseInfoVector : Nat → K
  scaleCloseVector : Nat → K
  scaleCloseFactor : K
  scaleNormalizer : K
  globalNormalizer : K

namespace PoseChain

/-- Cached absolute pose of timestamp `i`, `poseVector[i*4]`. -/
def absolutePose (pc : PoseChain K) (i : Nat) : Affine3 K := pc.poseVector (4 * i)

/-- Relative pose from `i-1` to `i`, `poseVector[i*4+1]`. -/
def relativePose (pc : PoseChain K) (i : Nat) : Affine3 K := pc.poseVector (4 * i + 1)

/-- The reserved slot of pose `i`, `poseVector[i*4+2]`. -/
def reservedSlot (pc : PoseChain K) (i : Nat) : Affine3 K := pc.poseVector (4 * i + 2)

/-- The incremental correction of pose `i`, `poseVector[i*4+3]`. -/
def scratchUpdate (pc : PoseChain K) (i : Nat) : Affine3 K := pc.poseVector (4 * i + 3)

/-- Body of the loop of `integrateChain`:
`poseVector[n] = poseVector[n-4]*poseVector[n+1]` with `n = 4*i`. -/
def integrateBody (i : Nat) (pv : Nat → Affine3 K) : Nat → Affine3 K :=
  Function.update pv (4 * i) (pv (4 * i - 4) * pv (4 * i + 1))

/-- The function `poseChain::integrateChain( astart, aend, aidentity )`. -/
def integrateChain (pc : PoseChain K) (astart aend : Nat) (aidentity : Bool) :
    PoseChain K :=
  let temp := pc.poseVector (astart * 4)
  let pv0 := if aidentity then Function.update pc.poseVector (astart * 4) Affine3.identity
    else pc.poseVector
  let pv1 := forPoses integrateBody (astart + 1) (aend - astart) pv0
  let pv2 := if aidentity then Function.update pv1 (astart * 4) temp else pv1
  { pc with poseVector := pv2 }

/-- Left-to-right composition `relativePose[start+1] * ... * relativePose[i]`
(the identity when `i <= start`). -/
def composeRel (pc : PoseChain K) (start i : Nat) : Affine3 K :=
  ((List.range' (start + 1) (i - start)).map pc.relativePose).prod

/-- The block assignment `v.block(i,0,len,1) = v.block(i,0,len,1) * c`. -/
def blockScale (v : Nat → K) (i len : Nat) (c : K) : Nat → K :=
  fun j => if i ≤ j ∧ j < i + len then v j * c else v j

/-- Body of the loop of `interpolateMotion`; the loop state is `poseVector`,
`trastep` and `rotstep` (`nn` is the pose index `i`, `n = 4*i`). -/
def interpolateMotionBody (nu : Numerics K) (pc : PoseChain K) (tra : Vector3 K)
    (aaAngle : K) (aaAxis : Vector3 K) (adesired adesiredInv : Affine3 K)
    (traNormalizer rotNormalizer : K) (i : Nat)
    (s : (Nat → Affine3 K) × K × K) : (Nat → Affine3 K) × K × K :=
  let pv := s.1
  let trastep := s.2.1
  let rotstep := s.2.2
  let before := Affine3.ofTranslationLinear (trastep • tra)
    (nu.angleAxis (aaAngle * rotstep) aaAxis)
  let trastep1 := trastep + pc.traInfoVector i / traNormalizer
  let rotstep1 := rotstep + pc.rotInfoVector i / rotNormalizer
  let after := Affine3.ofTranslationLinear (trastep1 • tra)
    (nu.angleAxis (aaAngle * rotstep1) aaAxis)
  (Function.update pv (4 * i + 3) (adesired * ((before.inverse * after) * adesiredInv)),
    trastep1, rotstep1)

/-- The function `poseChain::interpolateMotion( aupdate, adesired, aclosure, astart,
aend )`: the new chain and the returned vector `normalizers`. -/
def interpolateMotion (nu : Numerics K) (pc : PoseChain K) (aupdate adesired : Affine3 K)
    (aclosure astart aend : Nat) : PoseChain K × Vector3 K :=
  let adesiredInv := adesired.inverse
  let tra := aupdate.translation
  let aaAngle := nu.angle aupdate.linear
  let aaAxis := nu.axis aupdate.linear
  let sv := blockSum pc.traInfoVector (astart + 1) ((aend - astart) - 1)
  let normalizers0 := 1 / (1 + sv / pc.traCloseInfoVector aclosure)
  let traNormalizer := pc.globalNormalizer * (sv + pc.traCloseInfoVector aclosure)
  let sv1 := blockSum pc.rotInfoVector (astart + 1) ((aend - astart) - 1)
  let normalizers1 := 1 / (1 + sv1 / pc.rotCloseInfoVector aclosure)
  let rotNormalizer := pc.globalNormalizer * (sv1 + pc.rotCloseInfoVector aclosure)
  let s := forPoses
    (interpolateMotionBody nu pc tra aaAngle aaAxis adesired adesiredInv
      traNormalizer rotNormalizer)
    (astart + 1) (aend - astart) (pc.poseVector, 0, 0)
  ({ pc with poseVector := s.1 }, ![normalizers0, normalizers1, 0])

/-- Body of the loop of `interpolateTra`. -/
def interpolateTraBody (pc : PoseChain K) (tra : Vector3 K)
    (adesired adesiredInv : Affine3 K) (traNormalizer : K) (i : Nat)
    (pv : Nat → Affine3 K) : Nat → Affine3 K :=
  let motion := Affine3.ofTranslation ((pc.traInfoVector i / traNormalizer) • tra)
  Function.update pv (4 * i + 3) (adesired * motion * adesiredInv)

/-- The function `poseChain::interpolateTra( aupdate, adesired, aclosure, astart,
aend )`. -/
def interpolateTra (pc : PoseChain K) (aupdate adesired : Affine3 K)
    (aclosure astart aend : Nat) : PoseChain K × Vector3 K :=
  let adesiredInv := adesired.inverse
  let tra := aupdate.translation
  let sv := blockSum pc.traInfoVector (astart + 1) (aend - astart)
  let normalizers0 := 1 / (1 + sv / pc.traCloseInfoVector aclosure)
  let traNormalizer := pc.globalNormalizer * (sv + pc.traCloseInfoVector aclosure)
  let pv := forPoses (interpolateTraBody pc tra adesired adesiredInv traNormalizer)
    (astart + 1) (aend - astart) pc.poseVector
  ({ pc with poseVector := pv }, ![normalizers0, 0, 0])

/-- Body of the loop of `interpolateRot`. -/
def interpolateRotBody (nu : Numerics K) (pc : PoseChain K) (aaAngle : K)
    (aaAxis : Vector3 K) (adesired adesiredInv : Affine3 K) (rotNormalizer : K) (i : Nat)
    (pv : Nat → Affine3 K) : Nat → Affine3 K :=
  let motion := Affine3.ofLinear
    (nu.angleAxis (aaAngle * (pc.rotInfoVector i / rotNormalizer)) aaAxis)
  Function.update pv (4 * i + 3) (adesired * motion * adesiredInv)

/-- The function `poseChain::interpolateRot( aupdate, adesired, aclosure, astart,
aend )`. -/
def interpolateRot (nu : Numerics K) (pc : PoseChain K) (aupdate adesired : Affine3 K)
    (aclosure astart aend : Nat) : PoseChain K × Vector3 K :=
  let adesiredInv := adesired.inverse
  let aaAngle := nu.angle aupdate.linear
  let aaAxis := nu.axis aupdate.linear
  let sv := blockSum pc.rotInfoVector (astart + 1) (aend - astart)
  let normalizers1 := 1 / (1 + sv / pc.rotCloseInfoVector aclosure)
  let rotNormalizer := pc.globalNormalizer * (sv + pc.rotCloseInfoVector aclosure)
  let pv := forPoses (interpolateRotBody nu pc aaAngle aaAxis adesired adesiredInv rotNormalizer)
    (astart + 1) (aend - astart) pc.poseVector
  ({ pc with poseVector := pv }, ![0, normalizers1, 0])

/-- Body of the loops of `cobChain`, by selector. -/
def cobBody (amethod : Channel) (i : Nat) (pv : Nat → Affine3 K) : Nat → Affine3 K :=
  match amethod with
  | Channel.BOTH =>
      let tmp := (pv (4 * i)).inverse * (pv (4 * i + 3) * pv (4 * i))
      Function.update pv (4 * i + 3) tmp
  | Channel.ROTATION =>
      let tmp := (pv (4 * i)).inverse
      Function.update pv (4 * i + 3)
        ⟨tmp.linear * (pv (4 * i + 3)).linear * (pv (4 * i)).linear,
          (pv (4 * i + 3)).translation⟩
  | Channel.TRANSLATION =>
      let tmp := (Affine3.mk (pv (4 * i)).linear 0).inverse
      Function.update pv (4 * i + 3)
        ⟨(pv (4 * i + 3)).linear, tmp.apply (pv (4 * i + 3)).translation⟩
  | Channel.SCALE => pv

/-- The function `poseChain::cobChain( astart, aend, amethod )`. -/
def cobChain (pc : PoseChain K) (astart aend : Nat) (amethod : Channel) : PoseChain K :=
  { pc with
    poseVector := forPoses (cobBody amethod) (astart + 1) (aend - astart) pc.poseVector }

/-- Body of the loops of `updateChain` for the selectors `BOTH`, `ROTATION` and
`TRANSLATION`. -/
def updateBody (amethod : Channel) (i : Nat) (pv : Nat → Affine3 K) : Nat → Affine3 K :=
  match amethod with
  | Channel.BOTH => Function.update pv (4 * i + 1) (pv (4 * i + 1) * pv (4 * i + 3))
  | Channel.ROTATION =>
      Function.update pv (4 * i + 1)
        ⟨(pv (4 * i + 1)).linear * (pv (4 * i + 3)).linear, (pv (4 * i + 1)).translation⟩
  | Channel.TRANSLATION =>
      Function.update pv (4 * i + 1)
        ⟨(pv (4 * i + 1)).linear,
          (pv (4 * i + 1)).translation + (pv (4 * i + 3)).translation⟩
  | Channel.SCALE => pv

/-- Body of the `SCALE` loop of `updateChain`; the loop state is `poseVector`,
`scaleVector` and `scaleCorrection` (`astart+1+nn` and `n/4` are the pose index `i`). -/
def updateScaleBody (nu : Numerics K) (pc : PoseChain K) (i : Nat)
    (s : (Nat → Affine3 K) × (Nat → K) × K) : (Nat → Affine3 K) × (Nat → K) × K :=
  let pv := s.1
  let sc := s.2.1
  let scaleCorrection := s.2.2 *
    nu.pow pc.scaleCloseFactor (pc.scaleInfoVector i / pc.scaleNormalizer)
  (Function.update pv (4 * i + 1)
      ⟨(pv (4 * i + 1)).linear, scaleCorrection • (pv (4 * i + 1)).translation⟩,
    Function.update sc i scaleCorrection, scaleCorrection)

/-- The function `poseChain::updateChain( astart, aend, amethod )`. -/
def updateChain (nu : Numerics K) (pc : PoseChain K) (astart aend : Nat)
    (amethod : Channel) : PoseChain K :=
  match amethod with
  | Channel.SCALE =>
      let s := forPoses (updateScaleBody nu pc) (astart + 1) (aend - astart)
        (pc.poseVector, pc.scaleVector, 1)
      { pc with poseVector := s.1, scaleVector := s.2.1 }
  | m =>
      { pc with
        poseVector := forPoses (updateBody m) (astart + 1) (aend - astart) pc.poseVector }

/-- The threshold of the orientation-only test, `4.5e9`. -/
def orientationOnlyThreshold : K := 4500000000

/-- The test `!(traCloseInfoVector(n) < 4.5e9)` of `copSLAM`. -/
def orientationOnly (pc : PoseChain K) (n : Nat) : Bool :=
  !(decide (pc.traCloseInfoVector n < orientationOnlyThreshold))

/-- The scale-correction block of `copSLAM` (two-pass, `sim3` enabled). -/
def scaleCorrect (nu : Numerics K) (pc : PoseChain K) (n start end_ : Nat) : PoseChain K :=
  let pc1 := { pc with
    scaleCloseFactor := pc.scaleCloseVector n,
    scaleNormalizer := pc.globalNormalizer *
      (blockSum pc.scaleInfoVector (start + 1) (end_ - start) + 1) }
  let pc2 := updateChain nu pc1 start end_ Channel.SCALE
  { pc2 with
    scaleInfoVector :=
      blockScale pc2.scaleInfoVector (start + 1) (end_ - start) (1 / pc2.scaleNormalizer) }

/-- The one-pass branch of `copSLAM`: `interpolateMotion`, then `cobChain` and
`updateChain` with `BOTH`; the chain and the returned `normalizers`. -/
def onePassBlock (nu : Numerics K) (pc : PoseChain K) (lcupdate : Affine3 K)
    (n start end_ : Nat) : PoseChain K × Vector3 K :=
  let r := interpolateMotion nu pc lcupdate (pc.closeVector n) n start end_
  (updateChain nu (cobChain r.1 start end_ Channel.BOTH) start end_ Channel.BOTH, r.2)

/-- The rotation pass of the other branch of `copSLAM`: `interpolateRot`, then
`cobChain` and `updateChain` with `ROTATION`. -/
def rotationPassBlock (nu : Numerics K) (pc : PoseChain K) (lcupdate : Affine3 K)
    (n start end_ : Nat) : PoseChain K × Vector3 K :=
  let r := interpolateRot nu pc lcupdate (pc.closeVector n) n start end_
  (updateChain nu (cobChain r.1 start end_ Channel.ROTATION) start end_ Channel.ROTATION,
    r.2)

/-- The translation pass of `copSLAM`: the segment is integrated again from the
identity, the update keeps only its translation (`lcupdate.linear()` is set to the
identity), then `interpolateTra`, `cobChain` and `updateChain` with `TRANSLATION`. -/
def translationPassBlock (nu : Numerics K) (pc : PoseChain K) (n start end_ : Nat) :
    PoseChain K × Vector3 K :=
  let pc6 := integrateChain pc start end_ true
  let lcupdate : Affine3 K :=
    ⟨1, ((pc6.poseVector (end_ * 4)).inverse * pc6.closeVector n).translation⟩
  let r := interpolateTra pc6 lcupdate (pc6.closeVector n) n start end_
  (updateChain nu (cobChain r.1 start end_ Channel.TRANSLATION) start end_
    Channel.TRANSLATION, r.2)

/-- The weight deflation at the end of a closure: `rotInfoVector` always,
`traInfoVector` unless the closure is orientation-only. -/
def deflateWeights (pc : PoseChain K) (start end_ : Nat) (normalizers : Vector3 K)
    (orientation_only : Bool) : PoseChain K :=
  let pc9 := { pc with
    rotInfoVector :=
      blockScale pc.rotInfoVector (start + 1) (end_ - start) (normalizers 1) }
  if orientation_only = false then
    { pc9 with
      traInfoVector :=
        blockScale pc9.traInfoVector (start + 1) (end_ - start) (normalizers 0) }
  else pc9

/-- The relative-pose correction of one closure (the part of the loop body of
`copSLAM` between the computation of `lcupdate` and the last `integrateChain`). -/
def correctionBlock (nu : Numerics K) (g : Globals) (pc : PoseChain K)
    (lcupdate : Affine3 K) (n start end_ : Nat) (orientation_only : Bool) :
    PoseChain K × Vector3 K :=
  if g.method = Method.ONEPASS ∧ orientation_only = false
  then onePassBlock nu pc lcupdate n start end_
  else
    let r4 := rotationPassBlock nu pc lcupdate n start end_
    if orientation_only = false then
      let pc5 :=
        if (g.sim3_solution_space && !g.ignore_sim3_solution_space) = true
        then scaleCorrect nu r4.1 n start end_ else r4.1
      let r7 := translationPassBlock nu pc5 n start end_
      (r7.1, r4.2 + r7.2)
    else r4

/-- Body of the closure loop of `copSLAM` for the closure index `n`; the loop state
is the chain and `prev_end`. -/
def closureBody (nu : Numerics K) (g : Globals) (n : Nat) (s : PoseChain K × Nat) :
    PoseChain K × Nat :=
  let pc := s.1
  let prev_end := s.2
  let start := pc.startVector n
  let end_ := pc.endVector n
  let pc1 := if prev_end < start then integrateChain pc prev_end start false else pc
  let orientation_only := orientationOnly pc1 n
  let pc2 := integrateChain pc1 start end_ true
  let lcupdate0 := (pc2.poseVector (end_ * 4)).inverse * pc2.closeVector n
  let lcupdate : Affine3 K :=
    if g.method = Method.TWOPASS ∨ orientation_only = true
    then ⟨lcupdate0.linear, 0⟩ else lcupdate0
  let r := correctionBlock nu g pc2 lcupdate n start end_ orientation_only
  let pc8 := integrateChain r.1 start end_ false
  (deflateWeights pc8 start end_ r.2 orientation_only, end_)

/-- The function `poseChain::copSLAM()`. -/
def copSLAM (nu : Numerics K) (g : Globals) (pc : PoseChain K) : PoseChain K :=
  let s := forPoses (closureBody nu g) 0 pc.nclosures (pc, 0)
  integrateChain s.1 s.2 (pc.naposes - 1) false

/-- The cached absolute poses agree with the relative poses up to pose `m`:
`absolutePose[i] = absolutePose[i-1] * relativePose[i]` for `1 <= i <= m`. -/
def Consistent (pc : PoseChain K) (m : Nat) : Prop :=
  ∀ i, 1 ≤ i → i ≤ m → pc.absolutePose i = pc.absolutePose (i - 1) * pc.relativePose i

/-- The chain `pc1` differs from `pc` at most in cached absolute poses. -/
structure SameButAbsolute (pc1 pc : PoseChain K) : Prop where
  slots : ∀ x, x % 4 ≠ 0 → pc1.poseVector x = pc.poseVector x
  rotInfo : pc1.rotInfoVector = pc.rotInfoVector
  traInfo : pc1.traInfoVector = pc.traInfoVector
  scaleInfo : pc1.scaleInfoVector = pc.scaleInfoVector
  scale : pc1.scaleVector = pc.scaleVector
  close : pc1.closeVector = pc.closeVector
  rotClose : pc1.rotCloseInfoVector = pc.rotCloseInfoVector
  traClose : pc1.traCloseInfoVector = pc.traCloseInfoVector
  scaleClose : pc1.scaleCloseVector = pc.scaleCloseVector
  normalizer : pc1.globalNormalizer = pc.globalNormalizer

/-- The translation normalizer `traNormalizer` of `interpolateMotion`. -/
def motionTraNormalizer (pc : PoseChain K) (n s e : Nat) : K :=
  pc.globalNormalizer *
    (blockSum pc.traInfoVector (s + 1) ((e - s) - 1) + pc.traCloseInfoVector n)

/-- The rotation normalizer `rotNormalizer` of `interpolateMotion`. -/
def motionRotNormalizer (pc : PoseChain K) (n s e : Nat) : K :=
  pc.globalNormalizer *
    (blockSum pc.rotInfoVector (s + 1) ((e - s) - 1) + pc.rotCloseInfoVector n)

/-- The cumulative partial transform of `interpolateMotion` after `m` poses of the
segment (`before` of iteration `m`, `after` of iteration `m-1`): the translation of
`u` scaled by `trastep` and the rotation of `u` scaled by `rotstep` about its axis. -/
def partialUpdate (nu : Numerics K) (pc : PoseChain K) (u : Affine3 K) (n s e m : Nat) :
    Affine3 K :=
  Affine3.ofTranslationLinear
    (blockSum (fun j => pc.traInfoVector j / motionTraNormalizer pc n s e) (s + 1) m
      • u.translation)
    (nu.angleAxis
      (nu.angle u.linear *
        blockSum (fun j => pc.rotInfoVector j / motionRotNormalizer pc n s e) (s + 1) m)
      (nu.axis u.linear))

/-- The cumulative scale correction of pose `start+k` under the `SCALE` update: the
product of the terms `pow(scaleCloseFactor, scaleInfoVector(start+j)/scaleNormalizer)`
for `j = 1..k`. -/
def scaleProduct (nu : Numerics K) (pc : PoseChain K) (start k : Nat) : K :=
  Finset.prod (Finset.range k) (fun j =>
    nu.pow pc.scaleCloseFactor (pc.scaleInfoVector (start + 1 + j) / pc.scaleNormalizer))

/-- The translation normalizer `traNormalizer` of `interpolateTra`. -/
def singleTraNormalizer (pc : PoseChain K) (n s e : Nat) : K :=
  pc.globalNormalizer * (blockSum pc.traInfoVector (s + 1) (e - s) + pc.traCloseInfoVector n)

/-- The rotation normalizer `rotNormalizer` of `interpolateRot`. -/
def singleRotNormalizer (pc : PoseChain K) (n s e : Nat) : K :=
  pc.globalNormalizer * (blockSum pc.rotInfoVector (s + 1) (e - s) + pc.rotCloseInfoVector n)

/-- The row count `(aend-astart)-1` that `interpolateMotion` passes to
`traInfoVector.block` and `rotInfoVector.block`, as the `int` of the program. -/
def motionBlockRows (astart aend : Nat) : Int := ((aend : Int) - (astart : Int)) - 1

/-! ## Concrete chains -/

/-- A rational stand-in for the library routines, exact on rotation-free data, where
the only rotation is the identity and the only angle is `0`: the identity matrix has
angle `0` and axis `(1,0,0)`, and the angle `0` gives the identity matrix. `pow` is
exact on integer exponents. -/
def rationalNumerics : Numerics ℚ where
  pow := fun x y => x ^ y.floor
  angle := fun _ => 0
  axis := fun _ => ![1, 0, 0]
  angleAxis := fun _ _ => 1

/-- A chain of `n` poses along the x axis: every relative pose is the translation
`(1,0,0)`, every pose weight is `w`, the anchor and all cached absolute poses are
`anchor`; one closure `(0, n-1)` with measured transform the translation `(d,0,0)`,
closure weights `c` and global normalizer `g`. -/
def lineChain (n : Nat) (w c d g : K) (anchor : Affine3 K) : PoseChain K where
  naposes := n
  nclosures := 1
  poseVector := fun x =>
    if x % 4 = 1 then Affine3.ofTranslation ![1, 0, 0]
    else if x % 4 = 0 then anchor else 1
  rotInfoVector := fun _ => w
  traInfoVector := fun _ => w
  scaleInfoVector := fun _ => w
  scaleVector := fun _ => 1
  closeVector := fun _ => Affine3.ofTranslation ![d, 0, 0]
  startVector := fun _ => 0
  endVector := fun _ => n - 1
  rotCloseInfoVector := fun _ => c
  traCloseInfoVector := fun _ => c
  scaleCloseVector := fun _ => 1
  scaleCloseFactor := 0
  scaleNormalizer := 1
  globalNormalizer := g

/-- The scenario of the specification: 5 poses with unit x-translations, every
weight `1`, one closure `(0,4)` measuring the translation `(4.5,0,0)`. -/
def scenarioChain : PoseChain ℚ := lineChain 5 1 1 (9 / 2) 1 1

/-- A chain of 3 poses with scale weights `1`, measured scale factor `2` and
`scaleNormalizer = 2`, the sum of the scale weights of the segment `[0,2]`. -/
def scaleChain (K : Type) [LinearOrderedField K] : PoseChain K :=
  { lineChain 3 1 1 2 1 1 with scaleCloseFactor := 2, scaleNormalizer := 2 }

/-- The scenario chain with a closure without usable translation
(`translationInfo = 5e9`, above the threshold `4.5e9`). -/
def orientationOnlyChain : PoseChain ℚ := lineChain 5 1 5000000000 (9 / 2) 1 1

/-- A chain of 2 poses with every weight `1/2`, one closure `(0,1)` and
`globalNormalizer = 1/2`. -/
def halfNormalizerChain : PoseChain ℚ := lineChain 2 (1 / 2) 1 2 (1 / 2) 1

/-- A chain of 2 poses with pose weights `1` and one closure `(0,1)` of weight `3`
measuring the translation `(2,0,0)`. -/
def heavyClosureChain : PoseChain ℚ := lineChain 2 1 3 2 1 1

/-- A chain of 2 poses with every weight `1` and one closure `(0,1)` measuring the
translation `(2,0,0)`. -/
def shortChain : PoseChain ℚ := lineChain 2 1 1 2 1 1

/-- The scenario chain with every pose weight `0` (closure weights `1`). -/
def zeroWeightChain : PoseChain ℚ := lineChain 5 0 1 (9 / 2) 1 1

/-- The scenario chain with another cached `absolutePose[1]`. -/
def shiftedScenarioChain : PoseChain ℚ :=
  { scenarioChain with
    poseVector := Function.update scenarioChain.poseVector (4 * 1)
      (Affine3.ofTranslation ![7, 0, 0]) }

end PoseChain

/-! ## Algebra of transforms -/

namespace Affine3

variable {K : Type} [LinearOrderedField K]

theorem one_linear : (1 : Affine3 K).linear = 1 := rfl

theorem one_translation : (1 : Affine3 K).translation = 0 := rfl

theorem mul_linear (a b : Affine3 K) : (a * b).linear = a.linear * b.linear := rfl

theorem mul_translation (a b : Affine3 K) :
    (a * b).translation = a.linear.mulVec b.translation + a.translation := rfl

theorem inverse3_mul (m : Matrix3 K) (h : m.det ≠ 0) : inverse3 m * m = 1 := by
  unfold inverse3
  rw [Matrix.smul_mul, Matrix.adjugate_mul, smul_smul, inv_mul_cancel₀ h, one_smul]

theorem mul_inverse3 (m : Matrix3 K) (h : m.det ≠ 0) : m * inverse3 m = 1 := by
  unfold inverse3
  rw [Matrix.mul_smul, Matrix.mul_adjugate, smul_smul, inv_mul_cancel₀ h, one_smul]

theorem inverse3_one : inverse3 (1 : Matrix3 K) = 1 := by
  simp [inverse3]

theorem inverse_mul_self (a : Affine3 K) (h : a.linear.det ≠ 0) : a.inverse * a = 1 := by
  apply Affine3.ext
  · exact inverse3_mul a.linear h
  · show (inverse3 a.linear).mulVec a.translation
      + -((inverse3 a.linear).mulVec a.translation) = 0
    exact add_neg_cancel _

theorem mul_inverse_self (a : Affine3 K) (h : a.linear.det ≠ 0) : a * a.inverse = 1 := by
  apply Affine3.ext
  · exact mul_inverse3 a.linear h
  · show a.linear.mulVec (-((inverse3 a.linear).mulVec a.translation)) + a.translation = 0
    rw [Matrix.mulVec_neg, Matrix.mulVec_mulVec, mul_inverse3 a.linear h, Matrix.one_mulVec]
    exact neg_add_cancel _

theorem det_mul_ne_zero (a b : Affine3 K) (ha : a.linear.det ≠ 0) (hb : b.linear.det ≠ 0) :
    (a * b).linear.det ≠ 0 := by
  rw [mul_linear, Matrix.det_mul]
  exact mul_ne_zero ha hb

theorem det_one_ne_zero : (1 : Affine3 K).linear.det ≠ 0 := by
  rw [one_linear, Matrix.det_one]
  exact one_ne_zero

theorem ofTranslation_mul (v w : Vector3 K) :
    ofTranslation v * ofTranslation w = ofTranslation (w + v) := by
  apply Affine3.ext
  · exact Matrix.one_mul _
  · show (1 : Matrix3 K).mulVec w + v = w + v
    rw [Matrix.one_mulVec]

theorem ofTranslation_inverse (v : Vector3 K) :
    (ofTranslation v).inverse = ofTranslation (-v) := by
  apply Affine3.ext
  · exact inverse3_one
  · show -((inverse3 (1 : Matrix3 K)).mulVec v) = -v
    rw [inverse3_one, Matrix.one_mulVec]

theorem ofTranslation_zero : ofTranslation (0 : Vector3 K) = 1 := rfl

theorem ofTranslation_linear (v : Vector3 K) : (ofTranslation v).linear = 1 := rfl

theorem ofTranslation_translation (v : Vector3 K) : (ofTranslation v).translation = v := rfl

theorem eq_ofTranslation (a : Affine3 K) (h : a.linear = 1) :
    a = ofTranslation a.translation := by
  apply Affine3.ext
  · exact h
  · rfl

theorem inverse_apply_linear_one (v : Vector3 K) :
    (Affine3.mk 1 0 : Affine3 K).inverse.apply v = v := by
  show (inverse3 (1 : Matrix3 K)).mulVec v + -((inverse3 (1 : Matrix3 K)).mulVec 0) = v
  rw [inverse3_one, Matrix.one_mulVec, Matrix.mulVec_zero, neg_zero, add_zero]

theorem ofTranslation_det_ne_zero (v : Vector3 K) : (ofTranslation v).linear.det ≠ 0 := by
  rw [ofTranslation_linear, Matrix.det_one]
  exact one_ne_zero

/-- A conjugate of translations: `A⁻¹ * ((D * ((a⁻¹ * b) * D⁻¹)) * A)` is the
translation by the difference. -/
theorem translation_conj (p d a b : Vector3 K) :
    (ofTranslation p).inverse *
        ((ofTranslation d * (((ofTranslation a).inverse * ofTranslation b)
          * (ofTranslation d).inverse)) * ofTranslation p)
      = ofTranslation (b - a) := by
  simp only [ofTranslation_inverse, ofTranslation_mul]
  congr 1
  abel

end Affine3

/-! ## Loops -/

theorem forPoses_succ {σ : Type} (body : Nat → σ → σ) (i count : Nat) (s : σ) :
    forPoses body i (count + 1) s = body (i + count) (forPoses body i count s) := by
  induction count generalizing i s with
  | zero => rfl
  | succ c ih =>
    show forPoses body (i + 1) (c + 1) (body i s) = _
    rw [ih (i + 1) (body i s)]
    have e : i + 1 + c = i + (c + 1) := by omega
    rw [e]
    rfl

/-- A loop over a map leaves an index alone when no iteration writes it. -/
theorem forPoses_frame {α : Type} (body : Nat → (Nat → α) → Nat → α) (x : Nat)
    (i count : Nat) (pv : Nat → α)
    (h : ∀ j q, i ≤ j → j < i + count → body j q x = q x) :
    forPoses body i count pv x = pv x := by
  induction count with
  | zero => rfl
  | succ c ih =>
    rw [forPoses_succ, h (i + c) _ (by omega) (by omega)]
    exact ih (fun j q h1 h2 => h j q h1 (by omega))

/-- A loop whose iteration `j` writes the one index `slot j` with a value that does
not depend on what the other iterations write: every written index holds the value
computed from the initial map. -/
theorem forPoses_update_spec {α : Type} (slot : Nat → Nat) (val : Nat → (Nat → α) → α)
    (i count : Nat) (pv : Nat → α)
    (hslot : ∀ j k, j ≠ k → slot j ≠ slot k)
    (hval : ∀ j q, (∀ x, (∀ k, k ≠ j → x ≠ slot k) → q x = pv x) → val j q = val j pv)
    (j : Nat) (h1 : i ≤ j) (h2 : j < i + count) :
    forPoses (fun j q => Function.update q (slot j) (val j q)) i count pv (slot j)
      = val j pv := by
  induction count with
  | zero => omega
  | succ c ih =>
    rw [forPoses_succ]
    by_cases hj : j = i + c
    · subst hj
      simp only [Function.update_same]
      apply hval
      intro x hx
      apply forPoses_frame
      intro k q hk1 hk2
      rw [Function.update_noteq (hx k (by omega))]
    · rw [Function.update_noteq (hslot _ _ hj)]
      exact ih (by omega)

/-- The same loop leaves every index that is no `slot j` of the range alone. -/
theorem forPoses_update_frame {α : Type} (slot : Nat → Nat) (val : Nat → (Nat → α) → α)
    (i count : Nat) (pv : Nat → α) (x : Nat)
    (hx : ∀ j, i ≤ j → j < i + count → x ≠ slot j) :
    forPoses (fun j q => Function.update q (slot j) (val j q)) i count pv x = pv x := by
  apply forPoses_frame
  intro j q h1 h2
  rw [Function.update_noteq (hx j h1 h2)]

/-- The loop lemma for the flat storage: iteration `j` writes the slot `4*j + r`. -/
theorem forPoses_slot_spec {α : Type} (r : Nat) (val : Nat → (Nat → α) → α)
    (i count : Nat) (pv : Nat → α)
    (hval : ∀ j q, (∀ x, (∀ k, k ≠ j → x ≠ 4 * k + r) → q x = pv x) → val j q = val j pv)
    (j : Nat) (h1 : i ≤ j) (h2 : j < i + count) :
    forPoses (fun j q => Function.update q (4 * j + r) (val j q)) i count pv (4 * j + r)
      = val j pv :=
  forPoses_update_spec (fun j => 4 * j + r) val i count pv
    (fun j k hjk => by
      show 4 * j + r ≠ 4 * k + r
      omega)
    hval j h1 h2

namespace PoseChain

/-! ## Integration -/

theorem composeRel_self (pc : PoseChain K) (start : Nat) : composeRel pc start start = 1 := by
  simp [composeRel]

theorem composeRel_succ (pc : PoseChain K) (start i : Nat) (h : start ≤ i) :
    composeRel pc start (i + 1) = composeRel pc start i * pc.relativePose (i + 1) := by
  unfold composeRel
  have e : i + 1 - start = (i - start) + 1 := by omega
  rw [e, List.range'_concat, List.map_append, List.prod_append]
  have e2 : start + 1 + (i - start) = i + 1 := by omega
  simp [e2]

theorem integrateBody_other (i x : Nat) (pv : Nat → Affine3 K) (h : x ≠ 4 * i) :
    integrateBody i pv x = pv x := by
  simp [integrateBody, Function.update, h]

theorem integrateBody_same (i : Nat) (pv : Nat → Affine3 K) :
    integrateBody i pv (4 * i) = pv (4 * i - 4) * pv (4 * i + 1) := by
  simp [integrateBody]

theorem integrateLoop_frame (a c x : Nat) (pv : Nat → Affine3 K)
    (h : x % 4 ≠ 0 ∨ x < 4 * (a + 1) ∨ 4 * (a + c) < x) :
    forPoses integrateBody (a + 1) c pv x = pv x := by
  apply forPoses_frame
  intro j q h1 h2
  apply integrateBody_other
  omega

/-- After `c` iterations from pose `a+1`, the absolute pose `a+k` is the absolute pose
`a` composed with the relative poses `a+1 .. a+k`. -/
theorem integrateLoop_spec (a c : Nat) (pv : Nat → Affine3 K) (k : Nat) (hk : k ≤ c) :
    forPoses integrateBody (a + 1) c pv (4 * (a + k))
      = pv (4 * a) * ((List.range' (a + 1) k).map (fun j => pv (4 * j + 1))).prod := by
  induction c generalizing k with
  | zero =>
    have : k = 0 := by omega
    subst this
    simp [forPoses]
  | succ c ih =>
    rw [forPoses_succ]
    by_cases hkc : k ≤ c
    · rw [integrateBody_other _ _ _ (by omega)]
      exact ih k hkc
    · have : k = c + 1 := by omega
      subst this
      have e1 : 4 * (a + (c + 1)) = 4 * (a + 1 + c) := by omega
      rw [e1, integrateBody_same]
      have e2 : 4 * (a + 1 + c) - 4 = 4 * (a + c) := by omega
      rw [e2, ih c (le_refl c), integrateLoop_frame a c _ pv (by omega)]
      rw [List.range'_concat, List.map_append, List.prod_append, mul_assoc]
      have e3 : a + 1 + 1 * c = a + 1 + c := by omega
      simp [e3]

theorem integrateChain_relativePose (pc : PoseChain K) (s e : Nat) (b : Bool) (i : Nat) :
    (integrateChain pc s e b).relativePose i = pc.relativePose i := by
  unfold integrateChain relativePose
  cases b
  · simp only [Bool.false_eq_true, if_false]
    exact integrateLoop_frame s (e - s) _ _ (by omega)
  · simp only [if_true]
    rw [Function.update_noteq (by omega), integrateLoop_frame s (e - s) _ _ (by omega),
      Function.update_noteq (by omega)]

theorem integrateChain_false_absolutePose (pc : PoseChain K) (s e i : Nat)
    (h1 : s < i) (h2 : i ≤ e) :
    (integrateChain pc s e false).absolutePose i
      = pc.absolutePose s * composeRel pc s i := by
  obtain ⟨k, rfl⟩ : ∃ k, i = s + k := ⟨i - s, by omega⟩
  unfold integrateChain absolutePose composeRel
  simp only [Bool.false_eq_true, if_false]
  rw [integrateLoop_spec s (e - s) _ k (by omega)]
  have e1 : s + k - s = k := by omega
  rw [e1]
  rfl

theorem integrateChain_true_absolutePose (pc : PoseChain K) (s e i : Nat)
    (h1 : s < i) (h2 : i ≤ e) :
    (integrateChain pc s e true).absolutePose i = composeRel pc s i := by
  obtain ⟨k, rfl⟩ : ∃ k, i = s + k := ⟨i - s, by omega⟩
  unfold integrateChain absolutePose composeRel
  simp only [if_true]
  rw [Function.update_noteq (by omega), integrateLoop_spec s (e - s) _ k (by omega)]
  have e1 : s + k - s = k := by omega
  have e2 : 4 * s = s * 4 := by omega
  rw [e1, e2, Function.update_same]
  have e3 : (Affine3.identity : Affine3 K) = 1 := rfl
  rw [e3, one_mul]
  congr 1
  apply List.map_congr_left
  intro j hj
  rw [Function.update_noteq (by omega)]
  rfl

theorem integrateChain_true_start (pc : PoseChain K) (s e : Nat) :
    (integrateChain pc s e true).absolutePose s = pc.absolutePose s := by
  unfold integrateChain absolutePose
  have e2 : 4 * s = s * 4 := by omega
  simp only [if_true]
  rw [e2, Function.update_same]

/-- C1: after `integrateChain(start, end, false)` every absolute pose `i` with
`start < i <= end` is the pre-call absolute pose `start` composed from left to right
with the relative poses `start+1 .. i`, the relative poses being untouched; with the
anchor `absolutePose[0]` the identity, `start = 0` and `end = N-1`, every absolute pose
`i <= N-1` is the left-to-right composition of the relative poses `1 .. i`. -/
theorem integrateChain_forward_composition (pc : PoseChain K) (start end_ : Nat) :
    (∀ i, start < i → i ≤ end_ →
      (integrateChain pc start end_ false).absolutePose i
        = pc.absolutePose start * composeRel pc start i) ∧
    (∀ i, (integrateChain pc start end_ false).relativePose i = pc.relativePose i) ∧
    (pc.absolutePose 0 = 1 → ∀ i, i ≤ pc.naposes - 1 →
      (integrateChain pc 0 (pc.naposes - 1) false).absolutePose i = composeRel pc 0 i) := by
  refine ⟨fun i h1 h2 => integrateChain_false_absolutePose pc start end_ i h1 h2,
    fun i => integrateChain_relativePose pc start end_ false i, ?_⟩
  intro h0 i hi
  rcases Nat.eq_zero_or_pos i with h | h
  · subst h
    rw [composeRel_self, ← h0]
    unfold integrateChain absolutePose
    simp only [Bool.false_eq_true, if_false]
    exact integrateLoop_frame 0 _ _ _ (by omega)
  · rw [integrateChain_false_absolutePose pc 0 _ i h hi, h0, one_mul]

/-- Witness of C1 on the scenario chain: poses `2..4` after integrating `[1,4]`, and
the whole chain from the identity anchor. -/
theorem integrateChain_forward_composition_witness :
    (∀ i, 1 < i → i ≤ 4 →
      (integrateChain scenarioChain 1 4 false).absolutePose i
        = scenarioChain.absolutePose 1 * composeRel scenarioChain 1 i) ∧
    (∀ i, (integrateChain scenarioChain 1 4 false).relativePose i
        = scenarioChain.relativePose i) ∧
    (scenarioChain.absolutePose 0 = 1 → ∀ i, i ≤ scenarioChain.naposes - 1 →
      (integrateChain scenarioChain 0 (scenarioChain.naposes - 1) false).absolutePose i
        = composeRel scenarioChain 0 i) :=
  integrateChain_forward_composition scenarioChain 1 4

/-- C2: `integrateChain(s, e, true)` leaves `absolutePose[s]` at its pre-call value,
computes `absolutePose[i] = relativePose[s+1] * ... * relativePose[i]` for
`s < i <= e`, and two chains that agree everywhere except in `absolutePose[s]` get the
same `absolutePose[s+1..e]`. -/
theorem integrateChain_identity_isolation (pc pc2 : PoseChain K) (s e : Nat) :
    (integrateChain pc s e true).absolutePose s = pc.absolutePose s ∧
    (∀ i, s < i → i ≤ e → (integrateChain pc s e true).absolutePose i = composeRel pc s i) ∧
    ((∀ x, x ≠ 4 * s → pc2.poseVector x = pc.poseVector x) →
      ∀ i, s < i → i ≤ e →
        (integrateChain pc2 s e true).absolutePose i
          = (integrateChain pc s e true).absolutePose i) := by
  refine ⟨integrateChain_true_start pc s e,
    fun i h1 h2 => integrateChain_true_absolutePose pc s e i h1 h2, ?_⟩
  intro hsame i h1 h2
  rw [integrateChain_true_absolutePose pc2 s e i h1 h2,
    integrateChain_true_absolutePose pc s e i h1 h2]
  unfold composeRel relativePose
  congr 1
  apply List.map_congr_left
  intro j hj
  exact hsame _ (by omega)

/-- Witness of C2: the scenario chain and the same chain with another cached
`absolutePose[1]` get the same `absolutePose[3]` from `integrateChain(1, 4, true)`. -/
theorem integrateChain_identity_isolation_witness :
    (integrateChain shiftedScenarioChain 1 4 true).absolutePose 3
      = (integrateChain scenarioChain 1 4 true).absolutePose 3 :=
  (integrateChain_identity_isolation scenarioChain shiftedScenarioChain 1 4).2.2
    (fun x hx => by
      show Function.update scenarioChain.poseVector (4 * 1) _ x = scenarioChain.poseVector x
      exact Function.update_noteq hx _ _)
    3 (by decide) (by decide)

/-! ## Change of basis, update and the single-channel interpolations -/

theorem cobLoop_frame (m : Channel) (a c x : Nat) (pv : Nat → Affine3 K)
    (h : x % 4 ≠ 3 ∨ x < 4 * (a + 1) ∨ 4 * (a + c) + 3 < x) :
    forPoses (cobBody m) (a + 1) c pv x = pv x := by
  apply forPoses_frame
  intro j q h1 h2
  cases m <;> simp only [cobBody] <;> first
    | rfl
    | exact Function.update_noteq (by omega) _ _

theorem updateLoop_frame (m : Channel) (a c x : Nat) (pv : Nat → Affine3 K)
    (h : x % 4 ≠ 1 ∨ x < 4 * (a + 1) ∨ 4 * (a + c) + 1 < x) :
    forPoses (updateBody m) (a + 1) c pv x = pv x := by
  apply forPoses_frame
  intro j q h1 h2
  cases m <;> simp only [updateBody] <;> first
    | rfl
    | exact Function.update_noteq (by omega) _ _

theorem cobChain_frame (pc : PoseChain K) (s e : Nat) (m : Channel) (x : Nat)
    (h : x % 4 ≠ 3 ∨ x < 4 * (s + 1) ∨ 4 * e + 3 < x) :
    (cobChain pc s e m).poseVector x = pc.poseVector x := by
  apply cobLoop_frame
  omega

theorem cobChain_both_scratch (pc : PoseChain K) (s e i : Nat) (h1 : s < i) (h2 : i ≤ e) :
    (cobChain pc s e Channel.BOTH).scratchUpdate i
      = (pc.absolutePose i).inverse * (pc.scratchUpdate i * pc.absolutePose i) :=
  forPoses_slot_spec 3
    (fun j (q : Nat → Affine3 K) => (q (4 * j)).inverse * (q (4 * j + 3) * q (4 * j)))
    (s + 1) (e - s) pc.poseVector
    (fun j q hq => by
      beta_reduce
      rw [hq (4 * j) (by intro k hk; omega), hq (4 * j + 3) (by intro k hk; omega)])
    i (by omega) (by omega)

theorem cobChain_rotation_scratch (pc : PoseChain K) (s e i : Nat) (h1 : s < i)
    (h2 : i ≤ e) :
    (cobChain pc s e Channel.ROTATION).scratchUpdate i
      = ⟨(pc.absolutePose i).inverse.linear * (pc.scratchUpdate i).linear
            * (pc.absolutePose i).linear, (pc.scratchUpdate i).translation⟩ :=
  forPoses_slot_spec 3
    (fun j (q : Nat → Affine3 K) => ⟨(q (4 * j)).inverse.linear * (q (4 * j + 3)).linear * (q (4 * j)).linear,
      (q (4 * j + 3)).translation⟩)
    (s + 1) (e - s) pc.poseVector
    (fun j q hq => by
      beta_reduce
      rw [hq (4 * j) (by intro k hk; omega), hq (4 * j + 3) (by intro k hk; omega)])
    i (by omega) (by omega)

theorem cobChain_translation_scratch (pc : PoseChain K) (s e i : Nat) (h1 : s < i)
    (h2 : i ≤ e) :
    (cobChain pc s e Channel.TRANSLATION).scratchUpdate i
      = ⟨(pc.scratchUpdate i).linear,
          (Affine3.mk (pc.absolutePose i).linear 0).inverse.apply
            (pc.scratchUpdate i).translation⟩ :=
  forPoses_slot_spec 3
    (fun j (q : Nat → Affine3 K) => ⟨(q (4 * j + 3)).linear,
      (Affine3.mk (q (4 * j)).linear 0).inverse.apply (q (4 * j + 3)).translation⟩)
    (s + 1) (e - s) pc.poseVector
    (fun j q hq => by
      beta_reduce
      rw [hq (4 * j) (by intro k hk; omega), hq (4 * j + 3) (by intro k hk; omega)])
    i (by omega) (by omega)

theorem updateChain_frame (nu : Numerics K) (pc : PoseChain K) (s e : Nat) (m : Channel)
    (hm : m ≠ Channel.SCALE) (x : Nat)
    (h : x % 4 ≠ 1 ∨ x < 4 * (s + 1) ∨ 4 * e + 1 < x) :
    (updateChain nu pc s e m).poseVector x = pc.poseVector x := by
  cases m
  · exact updateLoop_frame _ s (e - s) x _ (by omega)
  · exact updateLoop_frame _ s (e - s) x _ (by omega)
  · exact updateLoop_frame _ s (e - s) x _ (by omega)
  · exact absurd rfl hm

theorem updateChain_both_relativePose (nu : Numerics K) (pc : PoseChain K) (s e i : Nat)
    (h1 : s < i) (h2 : i ≤ e) :
    (updateChain nu pc s e Channel.BOTH).relativePose i
      = pc.relativePose i * pc.scratchUpdate i :=
  forPoses_slot_spec 1 (fun j (q : Nat → Affine3 K) => q (4 * j + 1) * q (4 * j + 3))
    (s + 1) (e - s) pc.poseVector
    (fun j q hq => by
      beta_reduce
      rw [hq (4 * j + 1) (by intro k hk; omega), hq (4 * j + 3) (by intro k hk; omega)])
    i (by omega) (by omega)

theorem updateChain_rotation_relativePose (nu : Numerics K) (pc : PoseChain K)
    (s e i : Nat) (h1 : s < i) (h2 : i ≤ e) :
    (updateChain nu pc s e Channel.ROTATION).relativePose i
      = ⟨(pc.relativePose i).linear * (pc.scratchUpdate i).linear,
          (pc.relativePose i).translation⟩ :=
  forPoses_slot_spec 1
    (fun j (q : Nat → Affine3 K) => ⟨(q (4 * j + 1)).linear * (q (4 * j + 3)).linear, (q (4 * j + 1)).translation⟩)
    (s + 1) (e - s) pc.poseVector
    (fun j q hq => by
      beta_reduce
      rw [hq (4 * j + 1) (by intro k hk; omega), hq (4 * j + 3) (by intro k hk; omega)])
    i (by omega) (by omega)

theorem updateChain_translation_relativePose (nu : Numerics K) (pc : PoseChain K)
    (s e i : Nat) (h1 : s < i) (h2 : i ≤ e) :
    (updateChain nu pc s e Channel.TRANSLATION).relativePose i
      = ⟨(pc.relativePose i).linear,
          (pc.relativePose i).translation + (pc.scratchUpdate i).translation⟩ :=
  forPoses_slot_spec 1
    (fun j (q : Nat → Affine3 K) => ⟨(q (4 * j + 1)).linear,
      (q (4 * j + 1)).translation + (q (4 * j + 3)).translation⟩)
    (s + 1) (e - s) pc.poseVector
    (fun j q hq => by
      beta_reduce
      rw [hq (4 * j + 1) (by intro k hk; omega), hq (4 * j + 3) (by intro k hk; omega)])
    i (by omega) (by omega)

theorem interpolateTra_frame (pc : PoseChain K) (u d : Affine3 K) (n s e x : Nat)
    (h : x % 4 ≠ 3 ∨ x < 4 * (s + 1) ∨ 4 * e + 3 < x) :
    (interpolateTra pc u d n s e).1.poseVector x = pc.poseVector x := by
  apply forPoses_frame
  intro j q h1 h2
  exact Function.update_noteq (by omega) _ _

theorem interpolateRot_frame (nu : Numerics K) (pc : PoseChain K) (u d : Affine3 K)
    (n s e x : Nat) (h : x % 4 ≠ 3 ∨ x < 4 * (s + 1) ∨ 4 * e + 3 < x) :
    (interpolateRot nu pc u d n s e).1.poseVector x = pc.poseVector x := by
  apply forPoses_frame
  intro j q h1 h2
  exact Function.update_noteq (by omega) _ _

theorem interpolateTra_scratch (pc : PoseChain K) (u d : Affine3 K) (n s e i : Nat)
    (h1 : s < i) (h2 : i ≤ e) :
    (interpolateTra pc u d n s e).1.scratchUpdate i
      = d * Affine3.ofTranslation
          ((pc.traInfoVector i / (pc.globalNormalizer *
            (blockSum pc.traInfoVector (s + 1) (e - s) + pc.traCloseInfoVector n)))
            • u.translation) * d.inverse :=
  forPoses_slot_spec 3
    (fun j (_ : Nat → Affine3 K) => d * Affine3.ofTranslation
          ((pc.traInfoVector j / (pc.globalNormalizer *
            (blockSum pc.traInfoVector (s + 1) (e - s) + pc.traCloseInfoVector n)))
            • u.translation) * d.inverse)
    (s + 1) (e - s) pc.poseVector (fun j q hq => rfl)
    i (by omega) (by omega)

theorem interpolateRot_scratch (nu : Numerics K) (pc : PoseChain K) (u d : Affine3 K)
    (n s e i : Nat) (h1 : s < i) (h2 : i ≤ e) :
    (interpolateRot nu pc u d n s e).1.scratchUpdate i
      = d * Affine3.ofLinear
          (nu.angleAxis (nu.angle u.linear * (pc.rotInfoVector i / (pc.globalNormalizer *
            (blockSum pc.rotInfoVector (s + 1) (e - s) + pc.rotCloseInfoVector n))))
            (nu.axis u.linear)) * d.inverse :=
  forPoses_slot_spec 3
    (fun j (_ : Nat → Affine3 K) => d * Affine3.ofLinear
          (nu.angleAxis (nu.angle u.linear * (pc.rotInfoVector j / (pc.globalNormalizer *
            (blockSum pc.rotInfoVector (s + 1) (e - s) + pc.rotCloseInfoVector n))))
            (nu.axis u.linear)) * d.inverse)
    (s + 1) (e - s) pc.poseVector (fun j q hq => rfl)
    i (by omega) (by omega)

/-! ## The joint interpolation -/

theorem blockSum_succ (v : Nat → K) (i len : Nat) :
    blockSum v i (len + 1) = blockSum v i len + v (i + len) := by
  unfold blockSum
  rw [Finset.sum_range_succ]

theorem blockSum_zero (v : Nat → K) (i : Nat) : blockSum v i 0 = 0 := by
  simp [blockSum]

theorem blockSum_nonneg (v : Nat → K) (i len : Nat) (h : ∀ j, 0 ≤ v j) :
    0 ≤ blockSum v i len := by
  unfold blockSum
  exact Finset.sum_nonneg (fun j _ => h (i + j))

theorem blockSum_div (v : Nat → K) (z : K) (i len : Nat) :
    blockSum (fun j => v j / z) i len = blockSum v i len / z := by
  unfold blockSum
  rw [Finset.sum_div]

theorem interpolateMotionBody_fst (nu : Numerics K) (pc : PoseChain K) (tra : Vector3 K)
    (ang : K) (ax : Vector3 K) (d dinv : Affine3 K) (zt zr : K) (i : Nat)
    (s : (Nat → Affine3 K) × K × K) :
    (interpolateMotionBody nu pc tra ang ax d dinv zt zr i s).1
      = Function.update s.1 (4 * i + 3)
          (d * (((Affine3.ofTranslationLinear (s.2.1 • tra)
              (nu.angleAxis (ang * s.2.2) ax)).inverse
            * Affine3.ofTranslationLinear ((s.2.1 + pc.traInfoVector i / zt) • tra)
              (nu.angleAxis (ang * (s.2.2 + pc.rotInfoVector i / zr)) ax)) * dinv)) := rfl

theorem interpolateMotionBody_snd (nu : Numerics K) (pc : PoseChain K) (tra : Vector3 K)
    (ang : K) (ax : Vector3 K) (d dinv : Affine3 K) (zt zr : K) (i : Nat)
    (s : (Nat → Affine3 K) × K × K) :
    (interpolateMotionBody nu pc tra ang ax d dinv zt zr i s).2
      = (s.2.1 + pc.traInfoVector i / zt, s.2.2 + pc.rotInfoVector i / zr) := rfl

/-- The accumulators of the loop of `interpolateMotion` after `c` iterations. -/
theorem interpolateMotionLoop_steps (nu : Numerics K) (pc : PoseChain K) (tra : Vector3 K)
    (ang : K) (ax : Vector3 K) (d dinv : Affine3 K) (zt zr : K) (a c : Nat)
    (pv : Nat → Affine3 K) :
    (forPoses (interpolateMotionBody nu pc tra ang ax d dinv zt zr) (a + 1) c (pv, 0, 0)).2
      = (blockSum (fun j => pc.traInfoVector j / zt) (a + 1) c,
         blockSum (fun j => pc.rotInfoVector j / zr) (a + 1) c) := by
  induction c with
  | zero => simp [forPoses, blockSum_zero]
  | succ c ih =>
    rw [forPoses_succ, interpolateMotionBody_snd, ih, blockSum_succ, blockSum_succ]

theorem interpolateMotionLoop_frame (nu : Numerics K) (pc : PoseChain K) (tra : Vector3 K)
    (ang : K) (ax : Vector3 K) (d dinv : Affine3 K) (zt zr : K) (a c : Nat)
    (s : (Nat → Affine3 K) × K × K) (x : Nat)
    (h : x % 4 ≠ 3 ∨ x < 4 * (a + 1) ∨ 4 * (a + c) + 3 < x) :
    (forPoses (interpolateMotionBody nu pc tra ang ax d dinv zt zr) (a + 1) c s).1 x
      = s.1 x := by
  induction c with
  | zero => rfl
  | succ c ih =>
    rw [forPoses_succ, interpolateMotionBody_fst, Function.update_noteq (by omega)]
    exact ih (by omega)

/-- The update written by iteration `k` of the loop of `interpolateMotion`. -/
theorem interpolateMotionLoop_scratch (nu : Numerics K) (pc : PoseChain K)
    (tra : Vector3 K) (ang : K) (ax : Vector3 K) (d dinv : Affine3 K) (zt zr : K)
    (a c : Nat) (pv : Nat → Affine3 K) (k : Nat) (hk : k < c) :
    (forPoses (interpolateMotionBody nu pc tra ang ax d dinv zt zr) (a + 1) c (pv, 0, 0)).1
        (4 * (a + 1 + k) + 3)
      = d * (((Affine3.ofTranslationLinear
            (blockSum (fun j => pc.traInfoVector j / zt) (a + 1) k • tra)
            (nu.angleAxis (ang * blockSum (fun j => pc.rotInfoVector j / zr) (a + 1) k)
              ax)).inverse
          * Affine3.ofTranslationLinear
            (blockSum (fun j => pc.traInfoVector j / zt) (a + 1) (k + 1) • tra)
            (nu.angleAxis (ang * blockSum (fun j => pc.rotInfoVector j / zr) (a + 1) (k + 1))
              ax)) * dinv) := by
  induction c with
  | zero => omega
  | succ c ih =>
    rw [forPoses_succ]
    have hs := interpolateMotionLoop_steps nu pc tra ang ax d dinv zt zr a c pv
    rw [interpolateMotionBody_fst]
    by_cases hkc : k = c
    · subst hkc
      rw [Function.update_same, hs, blockSum_succ, blockSum_succ]
    · rw [Function.update_noteq (by omega)]
      exact ih (by omega)

theorem interpolateMotion_frame (nu : Numerics K) (pc : PoseChain K) (u d : Affine3 K)
    (n s e x : Nat) (h : x % 4 ≠ 3 ∨ x < 4 * (s + 1) ∨ 4 * e + 3 < x) :
    (interpolateMotion nu pc u d n s e).1.poseVector x = pc.poseVector x := by
  unfold interpolateMotion
  exact interpolateMotionLoop_frame nu pc _ _ _ _ _ _ _ s (e - s) _ x (by omega)

/-! ## The scale update -/

theorem scaleProduct_succ (nu : Numerics K) (pc : PoseChain K) (a k : Nat) :
    scaleProduct nu pc a (k + 1) = scaleProduct nu pc a k *
      nu.pow pc.scaleCloseFactor (pc.scaleInfoVector (a + 1 + k) / pc.scaleNormalizer) := by
  unfold scaleProduct
  rw [Finset.prod_range_succ]

theorem updateScaleBody_eq (nu : Numerics K) (pc : PoseChain K) (i : Nat)
    (s : (Nat → Affine3 K) × (Nat → K) × K) :
    updateScaleBody nu pc i s
      = (Function.update s.1 (4 * i + 1)
          ⟨(s.1 (4 * i + 1)).linear,
            (s.2.2 * nu.pow pc.scaleCloseFactor (pc.scaleInfoVector i / pc.scaleNormalizer))
              • (s.1 (4 * i + 1)).translation⟩,
        Function.update s.2.1 i
          (s.2.2 * nu.pow pc.scaleCloseFactor (pc.scaleInfoVector i / pc.scaleNormalizer)),
        s.2.2 * nu.pow pc.scaleCloseFactor (pc.scaleInfoVector i / pc.scaleNormalizer)) :=
  rfl

theorem updateScaleLoop_correction (nu : Numerics K) (pc : PoseChain K) (a c : Nat)
    (pv : Nat → Affine3 K) (sc : Nat → K) :
    (forPoses (updateScaleBody nu pc) (a + 1) c (pv, sc, 1)).2.2 = scaleProduct nu pc a c := by
  induction c with
  | zero => simp [forPoses, scaleProduct]
  | succ c ih => rw [forPoses_succ, updateScaleBody_eq, ih, scaleProduct_succ]

theorem updateScaleLoop_poses_frame (nu : Numerics K) (pc : PoseChain K) (a c : Nat)
    (s : (Nat → Affine3 K) × (Nat → K) × K) (x : Nat)
    (h : x % 4 ≠ 1 ∨ x < 4 * (a + 1) ∨ 4 * (a + c) + 1 < x) :
    (forPoses (updateScaleBody nu pc) (a + 1) c s).1 x = s.1 x := by
  induction c with
  | zero => rfl
  | succ c ih =>
    rw [forPoses_succ, updateScaleBody_eq]
    dsimp only
    rw [Function.update_noteq (by omega)]
    exact ih (by omega)

theorem updateScaleLoop_scale_frame (nu : Numerics K) (pc : PoseChain K) (a c : Nat)
    (s : (Nat → Affine3 K) × (Nat → K) × K) (x : Nat) (h : x < a + 1 ∨ a + c < x) :
    (forPoses (updateScaleBody nu pc) (a + 1) c s).2.1 x = s.2.1 x := by
  induction c with
  | zero => rfl
  | succ c ih =>
    rw [forPoses_succ, updateScaleBody_eq]
    dsimp only
    rw [Function.update_noteq (by omega)]
    exact ih (by omega)

theorem updateScaleLoop_scale (nu : Numerics K) (pc : PoseChain K) (a c : Nat)
    (pv : Nat → Affine3 K) (sc : Nat → K) (k : Nat) (hk : k < c) :
    (forPoses (updateScaleBody nu pc) (a + 1) c (pv, sc, 1)).2.1 (a + 1 + k)
      = scaleProduct nu pc a (k + 1) := by
  induction c with
  | zero => omega
  | succ c ih =>
    rw [forPoses_succ, updateScaleBody_eq]
    dsimp only
    by_cases hkc : k = c
    · subst hkc
      rw [Function.update_same, updateScaleLoop_correction, scaleProduct_succ]
    · rw [Function.update_noteq (by omega)]
      exact ih (by omega)

theorem updateScaleLoop_poses (nu : Numerics K) (pc : PoseChain K) (a c : Nat)
    (pv : Nat → Affine3 K) (sc : Nat → K) (k : Nat) (hk : k < c) :
    (forPoses (updateScaleBody nu pc) (a + 1) c (pv, sc, 1)).1 (4 * (a + 1 + k) + 1)
      = ⟨(pv (4 * (a + 1 + k) + 1)).linear,
          scaleProduct nu pc a (k + 1) • (pv (4 * (a + 1 + k) + 1)).translation⟩ := by
  induction c with
  | zero => omega
  | succ c ih =>
    rw [forPoses_succ, updateScaleBody_eq]
    dsimp only
    by_cases hkc : k = c
    · subst hkc
      rw [Function.update_same, updateScaleLoop_correction, scaleProduct_succ,
        updateScaleLoop_poses_frame nu pc a k _ _ (by omega)]
    · rw [Function.update_noteq (by omega)]
      exact ih (by omega)

/-- A product of powers with additive exponents is the power of the sum. -/
theorem scaleProduct_eq_pow (nu : Numerics K) (pc : PoseChain K) (a k : Nat) (hk : 1 ≤ k)
    (hadd : ∀ x y, nu.pow pc.scaleCloseFactor (x + y)
      = nu.pow pc.scaleCloseFactor x * nu.pow pc.scaleCloseFactor y) :
    scaleProduct nu pc a k
      = nu.pow pc.scaleCloseFactor (blockSum pc.scaleInfoVector (a + 1) k / pc.scaleNormalizer) := by
  induction k, hk using Nat.le_induction with
  | base => simp [scaleProduct, blockSum]
  | succ k _ ih => rw [scaleProduct_succ, ih, blockSum_succ, add_div, hadd]

/-- C9: `updateChain(start, end, SCALE)` sets, for `k = 1 .. end-start`,
`scaleFactor[start+k]` to the product of the per-pose terms
`pow(scaleCloseFactor, scaleInfo[start+j]/scaleNormalizer)`, `j = 1..k`, which is
`pow(scaleCloseFactor, (scaleInfo[start+1]+...+scaleInfo[start+k])/scaleNormalizer)`
when `pow` is additive in the exponent; it multiplies the translation of
`relativePose[start+k]` by that factor and keeps its rotation; when the weights of the
segment sum to the nonzero `scaleNormalizer` and `pow(c, 1) = c`, the final
`scaleFactor[end]` is `scaleCloseFactor`. -/
theorem updateChain_scale_composition (nu : Numerics K) (pc : PoseChain K)
    (start end_ : Nat) (hse : start < end_)
    (hadd : ∀ x y, nu.pow pc.scaleCloseFactor (x + y)
      = nu.pow pc.scaleCloseFactor x * nu.pow pc.scaleCloseFactor y)
    (hone : nu.pow pc.scaleCloseFactor 1 = pc.scaleCloseFactor)
    (hz : pc.scaleNormalizer ≠ 0) :
    (∀ k, 1 ≤ k → k ≤ end_ - start →
      (updateChain nu pc start end_ Channel.SCALE).scaleVector (start + k)
          = scaleProduct nu pc start k ∧
      scaleProduct nu pc start k
          = nu.pow pc.scaleCloseFactor
              (blockSum pc.scaleInfoVector (start + 1) k / pc.scaleNormalizer) ∧
      (updateChain nu pc start end_ Channel.SCALE).relativePose (start + k)
          = ⟨(pc.relativePose (start + k)).linear,
              scaleProduct nu pc start k • (pc.relativePose (start + k)).translation⟩) ∧
    (blockSum pc.scaleInfoVector (start + 1) (end_ - start) = pc.scaleNormalizer →
      (updateChain nu pc start end_ Channel.SCALE).scaleVector end_ = pc.scaleCloseFactor) := by
  have key : ∀ k, 1 ≤ k → k ≤ end_ - start →
      (updateChain nu pc start end_ Channel.SCALE).scaleVector (start + k)
          = scaleProduct nu pc start k := by
    intro k h1 h2
    obtain ⟨m, rfl⟩ : ∃ m, k = m + 1 := ⟨k - 1, by omega⟩
    have e : start + (m + 1) = start + 1 + m := by omega
    rw [e]
    exact updateScaleLoop_scale nu pc start (end_ - start) _ _ m (by omega)
  refine ⟨fun k h1 h2 => ⟨key k h1 h2, scaleProduct_eq_pow nu pc start k h1 hadd, ?_⟩, ?_⟩
  · obtain ⟨m, rfl⟩ : ∃ m, k = m + 1 := ⟨k - 1, by omega⟩
    have e : start + (m + 1) = start + 1 + m := by omega
    rw [e]
    exact updateScaleLoop_poses nu pc start (end_ - start) _ _ m (by omega)
  · intro hsum
    have e : start + (end_ - start) = end_ := by omega
    have h := key (end_ - start) (by omega) (le_refl _)
    rw [e] at h
    rw [h, scaleProduct_eq_pow nu pc start _ (by omega) hadd, hsum, div_self hz, hone]

/-- Witness of C9 over the reals with the real power function: on the segment `[0,2]`
of `scaleChain` the two terms `2^(1/2)` multiply to the final `scaleFactor[2] = 2`. -/
theorem updateChain_scale_composition_witness :
    (updateChain (Numerics.mk (fun x y : ℝ => x ^ y) (fun _ => 0) (fun _ => 0) (fun _ _ => 1))
      (scaleChain ℝ) 0 2 Channel.SCALE).scaleVector 2 = 2 :=
  (updateChain_scale_composition
    (Numerics.mk (fun x y : ℝ => x ^ y) (fun _ => 0) (fun _ => 0) (fun _ _ => 1))
    (scaleChain ℝ) 0 2 (by decide)
    (fun x y => Real.rpow_add (by norm_num [scaleChain]) x y)
    (Real.rpow_one _)
    (by norm_num [scaleChain])).2
    (by norm_num [scaleChain, lineChain, blockSum, Finset.sum_range_succ])

/-! ## Frame of the blocks of `copSLAM` -/

theorem integrateChain_frame (pc : PoseChain K) (s e : Nat) (b : Bool) (x : Nat)
    (h : x % 4 ≠ 0 ∨ x < 4 * (s + 1) ∨ 4 * e < x) :
    (integrateChain pc s e b).poseVector x = pc.poseVector x := by
  unfold integrateChain
  cases b
  · simp only [Bool.false_eq_true, if_false]
    exact integrateLoop_frame s (e - s) x _ (by omega)
  · simp only [if_true]
    by_cases hx : x = s * 4
    · subst hx
      rw [Function.update_same]
    · rw [Function.update_noteq hx, integrateLoop_frame s (e - s) x _ (by omega),
        Function.update_noteq hx]

theorem updateChain_scale_frame (nu : Numerics K) (pc : PoseChain K) (s e x : Nat)
    (h : x % 4 ≠ 1 ∨ x < 4 * (s + 1) ∨ 4 * e + 1 < x) :
    (updateChain nu pc s e Channel.SCALE).poseVector x = pc.poseVector x :=
  updateScaleLoop_poses_frame nu pc s (e - s) _ x (by omega)

theorem updateChain_any_frame (nu : Numerics K) (pc : PoseChain K) (s e : Nat) (m : Channel)
    (x : Nat) (h : x % 4 ≠ 1 ∨ x < 4 * (s + 1) ∨ 4 * e + 1 < x) :
    (updateChain nu pc s e m).poseVector x = pc.poseVector x := by
  cases m
  · exact updateChain_frame nu pc s e _ (by decide) x h
  · exact updateChain_frame nu pc s e _ (by decide) x h
  · exact updateChain_frame nu pc s e _ (by decide) x h
  · exact updateChain_scale_frame nu pc s e x h

theorem scaleCorrect_frame (nu : Numerics K) (pc : PoseChain K) (n s e x : Nat)
    (h : x % 4 ≠ 1 ∨ x < 4 * (s + 1) ∨ 4 * e + 1 < x) :
    (scaleCorrect nu pc n s e).poseVector x = pc.poseVector x :=
  updateChain_scale_frame nu _ s e x h

theorem onePassBlock_frame (nu : Numerics K) (pc : PoseChain K) (u : Affine3 K)
    (n s e x : Nat) (h : x < 4 * (s + 1) ∨ 4 * e + 3 < x ∨ x % 4 = 0 ∨ x % 4 = 2) :
    (onePassBlock nu pc u n s e).1.poseVector x = pc.poseVector x := by
  unfold onePassBlock
  rw [updateChain_any_frame nu _ s e _ x (by omega), cobChain_frame _ s e _ x (by omega),
    interpolateMotion_frame nu pc _ _ n s e x (by omega)]

theorem rotationPassBlock_frame (nu : Numerics K) (pc : PoseChain K) (u : Affine3 K)
    (n s e x : Nat) (h : x < 4 * (s + 1) ∨ 4 * e + 3 < x ∨ x % 4 = 0 ∨ x % 4 = 2) :
    (rotationPassBlock nu pc u n s e).1.poseVector x = pc.poseVector x := by
  unfold rotationPassBlock
  rw [updateChain_any_frame nu _ s e _ x (by omega), cobChain_frame _ s e _ x (by omega),
    interpolateRot_frame nu pc _ _ n s e x (by omega)]

theorem translationPassBlock_frame (nu : Numerics K) (pc : PoseChain K)
    (n s e x : Nat) (h : x < 4 * (s + 1) ∨ 4 * e + 3 < x ∨ x % 4 = 2) :
    (translationPassBlock nu pc n s e).1.poseVector x = pc.poseVector x := by
  unfold translationPassBlock
  rw [updateChain_any_frame nu _ s e _ x (by omega), cobChain_frame _ s e _ x (by omega),
    interpolateTra_frame _ _ _ n s e x (by omega), integrateChain_frame pc s e true x (by omega)]

/-- The correction of a closure `(s, e)` writes no slot before pose `s+1`, none after
pose `e` and no reserved slot. -/
theorem correctionBlock_frame (nu : Numerics K) (g : Globals) (pc : PoseChain K)
    (u : Affine3 K) (n s e : Nat) (oo : Bool) (x : Nat)
    (h : x < 4 * (s + 1) ∨ 4 * e + 3 < x ∨ x % 4 = 2) :
    (correctionBlock nu g pc u n s e oo).1.poseVector x = pc.poseVector x := by
  unfold correctionBlock
  split_ifs
  · exact onePassBlock_frame nu pc u n s e x (by omega)
  · dsimp only
    rw [translationPassBlock_frame nu _ n s e x h, scaleCorrect_frame nu _ n s e x (by omega),
      rotationPassBlock_frame nu pc u n s e x (by omega)]
  · dsimp only
    rw [translationPassBlock_frame nu _ n s e x h,
      rotationPassBlock_frame nu pc u n s e x (by omega)]
  · exact rotationPassBlock_frame nu pc u n s e x (by omega)

/-! ## Consistency of the cached absolute poses -/

theorem deflateWeights_poseVector (pc : PoseChain K) (s e : Nat) (v : Vector3 K) (oo : Bool) :
    (deflateWeights pc s e v oo).poseVector = pc.poseVector := by
  unfold deflateWeights
  split_ifs <;> rfl

theorem integrateChain_false_consistent (pc : PoseChain K) (s e : Nat)
    (h : Consistent pc s) : Consistent (integrateChain pc s e false) (max s e) := by
  intro i h1 h2
  by_cases hi : i ≤ s
  · unfold absolutePose relativePose
    rw [integrateChain_frame pc s e false _ (by omega),
      integrateChain_frame pc s e false _ (by omega),
      integrateChain_frame pc s e false _ (by omega)]
    exact h i h1 hi
  · have hie : i ≤ e := by
      rcases le_max_iff.mp h2 with h3 | h3
      · omega
      · exact h3
    obtain ⟨j, rfl⟩ : ∃ j, i = j + 1 := ⟨i - 1, by omega⟩
    rw [integrateChain_false_absolutePose pc s e (j + 1) (by omega) hie,
      integrateChain_relativePose, composeRel_succ pc s j (by omega), ← mul_assoc]
    congr 1
    show _ = (integrateChain pc s e false).absolutePose j
    by_cases hj : j = s
    · subst hj
      rw [composeRel_self, mul_one]
      unfold absolutePose
      rw [integrateChain_frame pc j e false _ (by omega)]
    · rw [integrateChain_false_absolutePose pc s e j (by omega) (by omega)]

theorem Consistent.mono {pc : PoseChain K} {m k : Nat} (h : Consistent pc m) (hk : k ≤ m) :
    Consistent pc k :=
  fun i h1 h2 => h i h1 (le_trans h2 hk)

theorem Consistent.of_agree {pc pc2 : PoseChain K} {m : Nat} (h : Consistent pc m)
    (hx : ∀ x, x < 4 * (m + 1) → pc2.poseVector x = pc.poseVector x) : Consistent pc2 m := by
  intro i h1 h2
  unfold absolutePose relativePose
  rw [hx _ (by omega), hx _ (by omega), hx _ (by omega)]
  exact h i h1 h2

/-- One closure keeps the cached poses consistent up to the new `prev_end` and does
not write `absolutePose[0]`. -/
theorem closureBody_consistent (nu : Numerics K) (g : Globals) (n : Nat)
    (s : PoseChain K × Nat) (h : Consistent s.1 s.2) :
    Consistent (closureBody nu g n s).1 (closureBody nu g n s).2 ∧
    (closureBody nu g n s).1.absolutePose 0 = s.1.absolutePose 0 := by
  obtain ⟨pc, prev⟩ := s
  have h1 : Consistent
      (if prev < pc.startVector n then integrateChain pc prev (pc.startVector n) false else pc)
      (pc.startVector n) := by
    split_ifs with hp
    · exact (integrateChain_false_consistent pc prev _ h).mono (le_max_right _ _)
    · exact Consistent.mono h (by simpa using hp)
  have h0 : (if prev < pc.startVector n then integrateChain pc prev (pc.startVector n) false
      else pc).absolutePose 0 = pc.absolutePose 0 := by
    split_ifs with hp
    · exact integrateChain_frame pc prev _ false 0 (by omega)
    · rfl
  unfold closureBody
  dsimp only
  generalize (if prev < pc.startVector n then integrateChain pc prev (pc.startVector n) false
      else pc) = pc1 at h1 h0 ⊢
  constructor
  · apply Consistent.of_agree _ (fun x _ => congrFun (deflateWeights_poseVector _ _ _ _ _) x)
    refine (integrateChain_false_consistent _ (pc.startVector n) (pc.endVector n) ?_).mono
      (le_max_right _ _)
    apply Consistent.of_agree h1
    intro x hx
    rw [correctionBlock_frame nu g _ _ n _ _ _ x (Or.inl hx),
      integrateChain_frame pc1 _ _ true x (by omega)]
  · unfold absolutePose
    rw [deflateWeights_poseVector, integrateChain_frame _ _ _ false _ (by omega),
      correctionBlock_frame nu g _ _ n _ _ _ _ (by omega),
      integrateChain_frame pc1 _ _ true _ (by omega)]
    exact h0

theorem closureLoop_consistent (nu : Numerics K) (g : Globals) (pc : PoseChain K) (m : Nat) :
    Consistent (forPoses (closureBody nu g) 0 m (pc, 0)).1
      (forPoses (closureBody nu g) 0 m (pc, 0)).2 ∧
    (forPoses (closureBody nu g) 0 m (pc, 0)).1.absolutePose 0 = pc.absolutePose 0 := by
  induction m with
  | zero =>
    refine ⟨?_, rfl⟩
    intro i h1 h2
    have : i ≤ 0 := h2
    omega
  | succ m ih =>
    rw [forPoses_succ]
    have h := closureBody_consistent nu g (0 + m) _ ih.1
    exact ⟨h.1, h.2.trans ih.2⟩

/-- C10: after `copSLAM` the anchor `absolutePose[0]` has its initial value and the
cached absolute poses agree with the final relative poses along the whole chain:
`absolutePose[i] = absolutePose[i-1] * relativePose[i]` for `1 <= i <= N-1`, for every
closure list (overlapping and nested closures included) and both methods. -/
theorem copSLAM_absolute_poses_consistent (nu : Numerics K) (g : Globals)
    (pc : PoseChain K) :
    (copSLAM nu g pc).absolutePose 0 = pc.absolutePose 0 ∧
    ∀ i, 1 ≤ i → i ≤ pc.naposes - 1 →
      (copSLAM nu g pc).absolutePose i
        = (copSLAM nu g pc).absolutePose (i - 1) * (copSLAM nu g pc).relativePose i := by
  have h := closureLoop_consistent nu g pc pc.nclosures
  unfold copSLAM
  dsimp only
  constructor
  · unfold absolutePose
    rw [integrateChain_frame _ _ _ false _ (by omega)]
    exact h.2
  · exact (integrateChain_false_consistent _ _ (pc.naposes - 1) h.1).mono (le_max_right _ _)

/-! ## Precision weights -/

theorem blend_bounds (sv c : K) (hsv : 0 ≤ sv) (hc : 0 < c) :
    0 ≤ 1 / (1 + sv / c) ∧ 1 / (1 + sv / c) ≤ 1 := by
  have h1 : 0 ≤ sv / c := div_nonneg hsv (le_of_lt hc)
  have h2 : (1 : K) ≤ 1 + sv / c := by linarith
  have h3 : (0 : K) < 1 + sv / c := by linarith
  constructor
  · exact div_nonneg zero_le_one (le_of_lt h3)
  · rw [div_le_one h3]
    exact h2

theorem blockScale_inside (v : Nat → K) (i len : Nat) (c : K) (j : Nat)
    (h1 : i ≤ j) (h2 : j < i + len) : blockScale v i len c j = v j * c := by
  simp [blockScale, h1, h2]

theorem blockScale_outside (v : Nat → K) (i len : Nat) (c : K) (j : Nat)
    (h : j < i ∨ i + len ≤ j) : blockScale v i len c j = v j := by
  unfold blockScale
  rw [if_neg]
  omega

theorem blockScale_le (v : Nat → K) (i len : Nat) (c : K) (j : Nat) (hv : 0 ≤ v j)
    (hc : c ≤ 1) : blockScale v i len c j ≤ v j := by
  unfold blockScale
  split_ifs
  · exact mul_le_of_le_one_right hv hc
  · exact le_refl _

theorem blockScale_nonneg (v : Nat → K) (i len : Nat) (c : K) (j : Nat) (hv : 0 ≤ v j)
    (hc : 0 ≤ c) : 0 ≤ blockScale v i len c j := by
  unfold blockScale
  split_ifs
  · exact mul_nonneg hv hc
  · exact hv

theorem correctionBlock_rotInfoVector (nu : Numerics K) (g : Globals) (pc : PoseChain K)
    (u : Affine3 K) (n s e : Nat) (oo : Bool) :
    (correctionBlock nu g pc u n s e oo).1.rotInfoVector = pc.rotInfoVector := by
  unfold correctionBlock
  split_ifs <;> rfl

theorem correctionBlock_traInfoVector (nu : Numerics K) (g : Globals) (pc : PoseChain K)
    (u : Affine3 K) (n s e : Nat) (oo : Bool) :
    (correctionBlock nu g pc u n s e oo).1.traInfoVector = pc.traInfoVector := by
  unfold correctionBlock
  split_ifs <;> rfl

/-- The rotation normalizer returned by the correction of a closure lies in `[0,1]`. -/
theorem correctionBlock_rot_normalizer_bounds (nu : Numerics K) (g : Globals)
    (pc : PoseChain K) (u : Affine3 K) (n s e : Nat) (oo : Bool)
    (hrot : ∀ i, 0 ≤ pc.rotInfoVector i) (hcr : 0 < pc.rotCloseInfoVector n) :
    0 ≤ (correctionBlock nu g pc u n s e oo).2 1 ∧
      (correctionBlock nu g pc u n s e oo).2 1 ≤ 1 := by
  unfold correctionBlock
  split_ifs
  · exact blend_bounds _ _ (blockSum_nonneg _ _ _ hrot) hcr
  · have h := blend_bounds _ _ (blockSum_nonneg pc.rotInfoVector (s + 1) (e - s) hrot) hcr
    simpa [rotationPassBlock, translationPassBlock, interpolateRot, interpolateTra] using h
  · have h := blend_bounds _ _ (blockSum_nonneg pc.rotInfoVector (s + 1) (e - s) hrot) hcr
    simpa [rotationPassBlock, translationPassBlock, interpolateRot, interpolateTra] using h
  · exact blend_bounds _ _ (blockSum_nonneg _ _ _ hrot) hcr

/-- The translation normalizer returned by the correction of a closure that is not
orientation-only lies in `[0,1]`. -/
theorem correctionBlock_tra_normalizer_bounds (nu : Numerics K) (g : Globals)
    (pc : PoseChain K) (u : Affine3 K) (n s e : Nat)
    (htra : ∀ i, 0 ≤ pc.traInfoVector i) (hct : 0 < pc.traCloseInfoVector n) :
    0 ≤ (correctionBlock nu g pc u n s e false).2 0 ∧
      (correctionBlock nu g pc u n s e false).2 0 ≤ 1 := by
  unfold correctionBlock
  split_ifs with h1 h2 h3
  · exact blend_bounds _ _ (blockSum_nonneg _ _ _ htra) hct
  · have h := blend_bounds _ _ (blockSum_nonneg pc.traInfoVector (s + 1) (e - s) htra) hct
    simpa [rotationPassBlock, translationPassBlock, interpolateRot, interpolateTra,
      scaleCorrect, updateChain, integrateChain] using h
  · have h := blend_bounds _ _ (blockSum_nonneg pc.traInfoVector (s + 1) (e - s) htra) hct
    simpa [rotationPassBlock, translationPassBlock, interpolateRot, interpolateTra,
      updateChain, integrateChain] using h
  · exact absurd rfl h2

theorem integrateChain_sameButAbsolute (pc : PoseChain K) (s e : Nat) (b : Bool) :
    SameButAbsolute (integrateChain pc s e b) pc where
  slots := fun x hx => integrateChain_frame pc s e b x (Or.inl hx)
  rotInfo := rfl
  traInfo := rfl
  scaleInfo := rfl
  scale := rfl
  close := rfl
  rotClose := rfl
  traClose := rfl
  scaleClose := rfl
  normalizer := rfl

omit [LinearOrderedField K] in
theorem SameButAbsolute.refl (pc : PoseChain K) : SameButAbsolute pc pc where
  slots := fun _ _ => rfl
  rotInfo := rfl
  traInfo := rfl
  scaleInfo := rfl
  scale := rfl
  close := rfl
  rotClose := rfl
  traClose := rfl
  scaleClose := rfl
  normalizer := rfl

/-- The chain that enters the correction of a closure: the prefix integration
changes cached absolute poses only. -/
theorem prefix_sameButAbsolute (pc : PoseChain K) (prev start : Nat) :
    SameButAbsolute (if prev < start then integrateChain pc prev start false else pc) pc := by
  split_ifs
  · exact integrateChain_sameButAbsolute pc prev start false
  · exact SameButAbsolute.refl pc

/-- The weights after one closure, with the chain after the prefix integration and
the update `lcupdate` abstracted. -/
theorem closureBody_weights (nu : Numerics K) (g : Globals) (n : Nat) (pc : PoseChain K)
    (prev : Nat) :
    ∃ (pc2 : PoseChain K) (u : Affine3 K),
      pc2.rotInfoVector = pc.rotInfoVector ∧ pc2.traInfoVector = pc.traInfoVector ∧
      pc2.rotCloseInfoVector = pc.rotCloseInfoVector ∧
      pc2.traCloseInfoVector = pc.traCloseInfoVector ∧
      (closureBody nu g n (pc, prev)).1.rotInfoVector
        = blockScale pc.rotInfoVector (pc.startVector n + 1)
            (pc.endVector n - pc.startVector n)
            ((correctionBlock nu g pc2 u n (pc.startVector n) (pc.endVector n)
              (orientationOnly pc n)).2 1) ∧
      (closureBody nu g n (pc, prev)).1.traInfoVector
        = (if orientationOnly pc n = false then
            blockScale pc.traInfoVector (pc.startVector n + 1)
              (pc.endVector n - pc.startVector n)
              ((correctionBlock nu g pc2 u n (pc.startVector n) (pc.endVector n)
                (orientationOnly pc n)).2 0)
          else pc.traInfoVector) := by
  have h1 := prefix_sameButAbsolute pc prev (pc.startVector n)
  unfold closureBody
  dsimp only
  generalize (if prev < pc.startVector n then integrateChain pc prev (pc.startVector n) false
      else pc) = pc1 at h1 ⊢
  have ho : orientationOnly pc1 n = orientationOnly pc n := by
    unfold orientationOnly
    rw [h1.traClose]
  rw [ho]
  generalize (ite (g.method = Method.TWOPASS ∨ orientationOnly pc n = true) _ _ :
    Affine3 K) = u
  refine ⟨integrateChain pc1 (pc.startVector n) (pc.endVector n) true, u, h1.rotInfo,
    h1.traInfo, h1.rotClose, h1.traClose, ?_, ?_⟩
  · unfold deflateWeights
    dsimp only
    split_ifs <;>
    · show blockScale (correctionBlock nu g _ _ n _ _ _).1.rotInfoVector _ _ _ = _
      rw [correctionBlock_rotInfoVector]
      show blockScale pc1.rotInfoVector _ _ _ = _
      rw [h1.rotInfo]
  · unfold deflateWeights
    dsimp only
    split_ifs
    · show blockScale (correctionBlock nu g _ _ n _ _ _).1.traInfoVector _ _ _ = _
      rw [correctionBlock_traInfoVector]
      show blockScale pc1.traInfoVector _ _ _ = _
      rw [h1.traInfo]
    · show (correctionBlock nu g _ _ n _ _ _).1.traInfoVector = _
      rw [correctionBlock_traInfoVector]
      exact h1.traInfo

/-- C6: one closure of `copSLAM`, under either method, on a chain with nonnegative
rotation and translation weights and positive closure weights: `rotationInfo[i]` and
`translationInfo[i]` of every pose `i` of the segment `start+1 .. end` are at most their
values before the closure, those of every pose outside the segment are unchanged, and
all of them stay nonnegative (so the same holds for the next closure). -/
theorem closure_weights_nonincreasing (nu : Numerics K) (g : Globals) (n : Nat)
    (pc : PoseChain K) (prev_end : Nat)
    (hrot : ∀ i, 0 ≤ pc.rotInfoVector i) (htra : ∀ i, 0 ≤ pc.traInfoVector i)
    (hcr : 0 < pc.rotCloseInfoVector n) (hct : 0 < pc.traCloseInfoVector n) :
    (∀ i, pc.startVector n < i → i ≤ pc.endVector n →
      (closureBody nu g n (pc, prev_end)).1.rotInfoVector i ≤ pc.rotInfoVector i ∧
      (closureBody nu g n (pc, prev_end)).1.traInfoVector i ≤ pc.traInfoVector i) ∧
    (∀ i, i ≤ pc.startVector n ∨ pc.endVector n < i →
      (closureBody nu g n (pc, prev_end)).1.rotInfoVector i = pc.rotInfoVector i ∧
      (closureBody nu g n (pc, prev_end)).1.traInfoVector i = pc.traInfoVector i) ∧
    (∀ i, 0 ≤ (closureBody nu g n (pc, prev_end)).1.rotInfoVector i ∧
      0 ≤ (closureBody nu g n (pc, prev_end)).1.traInfoVector i) := by
  obtain ⟨pc2, u, e1, e2, e3, e4, hr, ht⟩ := closureBody_weights nu g n pc prev_end
  have br := correctionBlock_rot_normalizer_bounds nu g pc2 u n (pc.startVector n)
    (pc.endVector n) (orientationOnly pc n) (by rw [e1]; exact hrot) (by rw [e3]; exact hcr)
  have bt := correctionBlock_tra_normalizer_bounds nu g pc2 u n (pc.startVector n)
    (pc.endVector n) (by rw [e2]; exact htra) (by rw [e4]; exact hct)
  rw [hr, ht]
  refine ⟨fun i _ _ => ⟨blockScale_le _ _ _ _ i (hrot i) br.2, ?_⟩,
    fun i hi => ⟨blockScale_outside _ _ _ _ i (by omega), ?_⟩,
    fun i => ⟨blockScale_nonneg _ _ _ _ i (hrot i) br.1, ?_⟩⟩
  · split_ifs with ho
    · rw [ho]
      exact blockScale_le _ _ _ _ i (htra i) bt.2
    · exact le_refl _
  · split_ifs with ho
    · exact blockScale_outside _ _ _ _ i (by omega)
    · rfl
  · split_ifs with ho
    · rw [ho]
      exact blockScale_nonneg _ _ _ _ i (htra i) bt.1
    · exact htra i

/-- Witness of C6 on the scenario chain (one-pass): the translation weight of pose 2
does not grow. -/
theorem closure_weights_nonincreasing_witness :
    (closureBody rationalNumerics ⟨Method.ONEPASS, false, false⟩ 0
        (scenarioChain, 0)).1.traInfoVector 2 ≤ scenarioChain.traInfoVector 2 :=
  ((closure_weights_nonincreasing rationalNumerics ⟨Method.ONEPASS, false, false⟩ 0
    scenarioChain 0 (fun _ => zero_le_one) (fun _ => zero_le_one) zero_lt_one
    zero_lt_one).1 2 (by decide) (by decide)).2

omit [LinearOrderedField K] in
theorem SameButAbsolute.trans {a b c : PoseChain K} (h1 : SameButAbsolute a b)
    (h2 : SameButAbsolute b c) : SameButAbsolute a c where
  slots := fun x hx => (h1.slots x hx).trans (h2.slots x hx)
  rotInfo := h1.rotInfo.trans h2.rotInfo
  traInfo := h1.traInfo.trans h2.traInfo
  scaleInfo := h1.scaleInfo.trans h2.scaleInfo
  scale := h1.scale.trans h2.scale
  close := h1.close.trans h2.close
  rotClose := h1.rotClose.trans h2.rotClose
  traClose := h1.traClose.trans h2.traClose
  scaleClose := h1.scaleClose.trans h2.scaleClose
  normalizer := h1.normalizer.trans h2.normalizer

/-- The chain after one closure: the correction of a chain `pc2` that differs from the
initial chain at most in cached absolute poses, then the last integration and the
deflation of the weights. -/
theorem closureBody_shape (nu : Numerics K) (g : Globals) (n : Nat) (pc : PoseChain K)
    (prev : Nat) :
    ∃ (pc2 : PoseChain K) (u : Affine3 K), SameButAbsolute pc2 pc ∧
      (closureBody nu g n (pc, prev)).1
        = deflateWeights
            (integrateChain
              (correctionBlock nu g pc2 u n (pc.startVector n) (pc.endVector n)
                (orientationOnly pc n)).1 (pc.startVector n) (pc.endVector n) false)
            (pc.startVector n) (pc.endVector n)
            (correctionBlock nu g pc2 u n (pc.startVector n) (pc.endVector n)
                (orientationOnly pc n)).2 (orientationOnly pc n) := by
  have h1 := prefix_sameButAbsolute pc prev (pc.startVector n)
  unfold closureBody
  dsimp only
  generalize (if prev < pc.startVector n then integrateChain pc prev (pc.startVector n) false
      else pc) = pc1 at h1 ⊢
  have ho : orientationOnly pc1 n = orientationOnly pc n := by
    unfold orientationOnly
    rw [h1.traClose]
  rw [ho]
  exact ⟨integrateChain pc1 (pc.startVector n) (pc.endVector n) true, _,
    (integrateChain_sameButAbsolute pc1 _ _ true).trans h1, rfl⟩

theorem deflateWeights_scaleInfoVector (pc : PoseChain K) (s e : Nat) (v : Vector3 K)
    (oo : Bool) : (deflateWeights pc s e v oo).scaleInfoVector = pc.scaleInfoVector := by
  unfold deflateWeights
  split_ifs <;> rfl

theorem orientationOnly_eq_true (pc : PoseChain K) (n : Nat)
    (h : orientationOnlyThreshold ≤ pc.traCloseInfoVector n) : orientationOnly pc n = true := by
  simp [orientationOnly, not_lt.mpr h]

theorem orientationOnly_eq_false (pc : PoseChain K) (n : Nat)
    (h : pc.traCloseInfoVector n < orientationOnlyThreshold) :
    orientationOnly pc n = false := by
  simp [orientationOnly, h]

/-! ## Orientation-only closures -/

theorem rotationPassBlock_translation (nu : Numerics K) (pc : PoseChain K) (u : Affine3 K)
    (n s e i : Nat) :
    ((rotationPassBlock nu pc u n s e).1.relativePose i).translation
      = (pc.relativePose i).translation := by
  by_cases hi : s < i ∧ i ≤ e
  · unfold rotationPassBlock
    dsimp only
    rw [updateChain_rotation_relativePose nu _ s e i hi.1 hi.2]
    show ((cobChain _ s e Channel.ROTATION).poseVector (4 * i + 1)).translation = _
    rw [cobChain_frame _ s e _ _ (by omega), interpolateRot_frame nu pc _ _ n s e _ (by omega)]
    rfl
  · unfold relativePose
    rw [rotationPassBlock_frame nu pc u n s e _ (by omega)]

/-- C8: a closure whose `translationInfo` is at least `4.5e9` (orientation-only), under
either method, leaves `translationInfo[i]` and the translation of `relativePose[i]`
unchanged for every pose `i` (those of the segment `start+1 .. end` included). -/
theorem orientation_only_keeps_translation (nu : Numerics K) (g : Globals) (n : Nat)
    (pc : PoseChain K) (prev_end : Nat)
    (ho : orientationOnlyThreshold ≤ pc.traCloseInfoVector n) (i : Nat) :
    (closureBody nu g n (pc, prev_end)).1.traInfoVector i = pc.traInfoVector i ∧
    ((closureBody nu g n (pc, prev_end)).1.relativePose i).translation
      = (pc.relativePose i).translation := by
  have hoo := orientationOnly_eq_true pc n ho
  obtain ⟨pc2, u, hs, hshape⟩ := closureBody_shape nu g n pc prev_end
  rw [hshape, hoo]
  have hcb : correctionBlock nu g pc2 u n (pc.startVector n) (pc.endVector n) true
      = rotationPassBlock nu pc2 u n (pc.startVector n) (pc.endVector n) := by
    simp [correctionBlock]
  rw [hcb]
  constructor
  · show pc2.traInfoVector i = _
    rw [hs.traInfo]
  · unfold relativePose
    rw [deflateWeights_poseVector, integrateChain_frame _ _ _ false _ (by omega)]
    have h := rotationPassBlock_translation nu pc2 u n (pc.startVector n) (pc.endVector n) i
    unfold relativePose at h
    rw [h, hs.slots _ (by omega)]

/-- Witness of C8: the closure of `orientationOnlyChain` (translation weight `5e9`),
two-pass, keeps the translation weight and the relative translation of pose 3. -/
theorem orientation_only_keeps_translation_witness :
    (closureBody rationalNumerics ⟨Method.TWOPASS, true, false⟩ 0
        (orientationOnlyChain, 0)).1.traInfoVector 3 = orientationOnlyChain.traInfoVector 3 ∧
    ((closureBody rationalNumerics ⟨Method.TWOPASS, true, false⟩ 0
        (orientationOnlyChain, 0)).1.relativePose 3).translation
      = (orientationOnlyChain.relativePose 3).translation :=
  orientation_only_keeps_translation rationalNumerics ⟨Method.TWOPASS, true, false⟩ 0
    orientationOnlyChain 0
    (by norm_num [orientationOnlyThreshold, orientationOnlyChain, lineChain]) 3

/-! ## Scale weights -/

/-- The scale weights after the correction of a closure that is not orientation-only,
two-pass with scale correction enabled: the segment is multiplied by
`1/scaleNormalizer`, `scaleNormalizer = globalNormalizer * (segment sum + 1)`. -/
theorem correctionBlock_scaleInfoVector (nu : Numerics K) (g : Globals) (pc : PoseChain K)
    (u : Affine3 K) (n s e : Nat) (hm : g.method = Method.TWOPASS)
    (h1 : g.sim3_solution_space = true) (h2 : g.ignore_sim3_solution_space = false) :
    (correctionBlock nu g pc u n s e false).1.scaleInfoVector
      = blockScale pc.scaleInfoVector (s + 1) (e - s)
          (1 / (pc.globalNormalizer * (blockSum pc.scaleInfoVector (s + 1) (e - s) + 1))) := by
  unfold correctionBlock
  simp only [hm, h1, h2]
  rfl

/-- The scale weights after one closure in the same case. -/
theorem closureBody_scaleInfoVector (nu : Numerics K) (g : Globals) (n : Nat)
    (pc : PoseChain K) (prev : Nat) (hm : g.method = Method.TWOPASS)
    (h1 : g.sim3_solution_space = true) (h2 : g.ignore_sim3_solution_space = false)
    (ho : pc.traCloseInfoVector n < orientationOnlyThreshold) :
    (closureBody nu g n (pc, prev)).1.scaleInfoVector
      = blockScale pc.scaleInfoVector (pc.startVector n + 1)
          (pc.endVector n - pc.startVector n)
          (1 / (pc.globalNormalizer *
            (blockSum pc.scaleInfoVector (pc.startVector n + 1)
              (pc.endVector n - pc.startVector n) + 1))) := by
  obtain ⟨pc2, u, hs, hshape⟩ := closureBody_shape nu g n pc prev
  rw [hshape, orientationOnly_eq_false pc n ho, deflateWeights_scaleInfoVector]
  show (correctionBlock nu g pc2 u n _ _ false).1.scaleInfoVector = _
  rw [correctionBlock_scaleInfoVector nu g pc2 u n _ _ hm h1 h2, hs.scaleInfo, hs.normalizer]

/-- With `globalNormalizer >= 1` the scale-correction pass never grows a scale weight of
a chain with nonnegative scale weights, and leaves those outside the segment alone. -/
theorem scale_weights_nonincreasing_of_one_le (nu : Numerics K) (g : Globals) (n : Nat)
    (pc : PoseChain K) (prev : Nat) (hm : g.method = Method.TWOPASS)
    (h1 : g.sim3_solution_space = true) (h2 : g.ignore_sim3_solution_space = false)
    (ho : pc.traCloseInfoVector n < orientationOnlyThreshold)
    (hw : ∀ i, 0 ≤ pc.scaleInfoVector i) (hg : 1 ≤ pc.globalNormalizer) :
    (∀ i, (closureBody nu g n (pc, prev)).1.scaleInfoVector i ≤ pc.scaleInfoVector i) ∧
    (∀ i, i ≤ pc.startVector n ∨ pc.endVector n < i →
      (closureBody nu g n (pc, prev)).1.scaleInfoVector i = pc.scaleInfoVector i) := by
  rw [closureBody_scaleInfoVector nu g n pc prev hm h1 h2 ho]
  refine ⟨fun i => blockScale_le _ _ _ _ i (hw i) ?_,
    fun i hi => blockScale_outside _ _ _ _ i (by omega)⟩
  have hS := blockSum_nonneg pc.scaleInfoVector (pc.startVector n + 1)
    (pc.endVector n - pc.startVector n) hw
  have hz : 1 ≤ pc.globalNormalizer *
      (blockSum pc.scaleInfoVector (pc.startVector n + 1)
        (pc.endVector n - pc.startVector n) + 1) := by nlinarith
  rw [div_le_one (by linarith)]
  exact hz

/-- C7 (the code at the failing input): with `globalNormalizer = 1/2` and the scale
weight `1/2` on the segment `[0,1]`, `scaleNormalizer = 1/2 * (1/2 + 1) = 3/4` and the
scale-correction pass of a two-pass closure turns the scale weight `1/2` of pose 1 into
`2/3`: the weight grows. -/
theorem scale_weight_grows_small_normalizer :
    halfNormalizerChain.scaleInfoVector 1 = 1 / 2 ∧
    (closureBody rationalNumerics ⟨Method.TWOPASS, true, false⟩ 0
        (halfNormalizerChain, 0)).1.scaleInfoVector 1 = 2 / 3 ∧
    ¬ ((closureBody rationalNumerics ⟨Method.TWOPASS, true, false⟩ 0
        (halfNormalizerChain, 0)).1.scaleInfoVector 1 ≤ halfNormalizerChain.scaleInfoVector 1) := by
  have h := closureBody_scaleInfoVector rationalNumerics ⟨Method.TWOPASS, true, false⟩ 0
    halfNormalizerChain 0 rfl rfl rfl
    (by norm_num [orientationOnlyThreshold, halfNormalizerChain, lineChain])
  rw [h]
  norm_num [halfNormalizerChain, lineChain, blockScale, blockSum]

/-! ## The one-pass correction -/

theorem interpolateMotion_scratch (nu : Numerics K) (pc : PoseChain K) (u d : Affine3 K)
    (n s e m : Nat) (hm : m < e - s) :
    (interpolateMotion nu pc u d n s e).1.scratchUpdate (s + 1 + m)
      = d * (((partialUpdate nu pc u n s e m).inverse * partialUpdate nu pc u n s e (m + 1))
          * d.inverse) :=
  interpolateMotionLoop_scratch nu pc _ _ _ d d.inverse _ _ s (e - s) pc.poseVector m hm

/-- The relative pose written by the one-pass branch. -/
theorem onePassBlock_relativePose (nu : Numerics K) (pc : PoseChain K) (u : Affine3 K)
    (n s e m : Nat) (hm : m < e - s) :
    (onePassBlock nu pc u n s e).1.relativePose (s + 1 + m)
      = pc.relativePose (s + 1 + m) *
          ((pc.absolutePose (s + 1 + m)).inverse *
            ((pc.closeVector n *
              (((partialUpdate nu pc u n s e m).inverse * partialUpdate nu pc u n s e (m + 1))
                * (pc.closeVector n).inverse)) * pc.absolutePose (s + 1 + m))) := by
  unfold onePassBlock
  dsimp only
  rw [updateChain_both_relativePose nu _ s e _ (by omega) (by omega),
    cobChain_both_scratch _ s e _ (by omega) (by omega),
    interpolateMotion_scratch nu pc u _ n s e m hm]
  unfold relativePose absolutePose
  rw [cobChain_frame _ s e _ _ (by omega), interpolateMotion_frame nu pc _ _ n s e _ (by omega),
    interpolateMotion_frame nu pc _ _ n s e _ (by omega)]

theorem onePassBlock_relativePose_outside (nu : Numerics K) (pc : PoseChain K)
    (u : Affine3 K) (n s e i : Nat) (h : i ≤ s ∨ e < i) :
    (onePassBlock nu pc u n s e).1.relativePose i = pc.relativePose i :=
  onePassBlock_frame nu pc u n s e _ (by omega)

/-- The step of the conjugation law in a monoid. -/
theorem conj_step {M : Type} [Monoid M] (d di a ai a2 am r ab abi : M)
    (hA : am * r = ab) (hAi : ab * abi = 1) (hD : di * d = 1) (ha : a * ai = 1) :
    (d * a * di * am) * (r * (abi * ((d * ((ai * a2) * di)) * ab))) = d * a2 * di * ab := by
  have hA2 : ∀ z, am * (r * z) = ab * z := fun z => by rw [← mul_assoc, hA]
  have hAi2 : ∀ z, ab * (abi * z) = z := fun z => by rw [← mul_assoc, hAi, one_mul]
  have hD2 : ∀ z, di * (d * z) = z := fun z => by rw [← mul_assoc, hD, one_mul]
  have ha2 : ∀ z, a * (ai * z) = z := fun z => by rw [← mul_assoc, ha, one_mul]
  simp only [mul_assoc, hA2, hAi2, hD2, ha2]

/-- The end of the conjugation law: `D * (A⁻¹ * D) * D⁻¹ * A = D`. -/
theorem conj_final {M : Type} [Monoid M] (d di abi ab : M) (hD : d * di = 1)
    (hA : abi * ab = 1) : d * (abi * d) * di * ab = d := by
  have hD2 : ∀ z, d * (di * z) = z := fun z => by rw [← mul_assoc, hD, one_mul]
  simp only [mul_assoc, hD2, hA, mul_one]

theorem composeRel_det_ne_zero (pc : PoseChain K) (s m : Nat)
    (h : ∀ i, s < i → i ≤ s + m → (pc.relativePose i).linear.det ≠ 0) :
    (composeRel pc s (s + m)).linear.det ≠ 0 := by
  induction m with
  | zero =>
    rw [Nat.add_zero, composeRel_self]
    exact Affine3.det_one_ne_zero
  | succ m ih =>
    rw [← Nat.add_assoc, composeRel_succ pc s (s + m) (by omega)]
    exact Affine3.det_mul_ne_zero _ _ (ih (fun i h1 h2 => h i h1 (by omega)))
      (h _ (by omega) (by omega))

/-- The conjugation law of the one-pass correction: on a chain whose absolute poses
of the segment are the identity-mode integration of its relative poses, the
composition of the corrected relative poses `s+1 .. s+m` is
`D * a_m * D⁻¹ * A_m`, with `D` the measured closure, `a_m` the cumulative partial
update and `A_m` the composition of the relative poses before the correction. -/
theorem onePassBlock_composeRel (nu : Numerics K) (pc : PoseChain K) (u : Affine3 K)
    (n s e : Nat)
    (habs : ∀ i, s < i → i ≤ e → pc.absolutePose i = composeRel pc s i)
    (hrel : ∀ i, s < i → i ≤ e → (pc.relativePose i).linear.det ≠ 0)
    (hD : (pc.closeVector n).linear.det ≠ 0)
    (ha : ∀ m, m ≤ e - s → (partialUpdate nu pc u n s e m).linear.det ≠ 0)
    (h0 : partialUpdate nu pc u n s e 0 = 1) (m : Nat) (hm : m ≤ e - s) :
    composeRel (onePassBlock nu pc u n s e).1 s (s + m)
      = pc.closeVector n * partialUpdate nu pc u n s e m * (pc.closeVector n).inverse
          * composeRel pc s (s + m) := by
  induction m with
  | zero =>
    rw [Nat.add_zero, composeRel_self, composeRel_self, h0, mul_one, mul_one,
      Affine3.mul_inverse_self _ hD]
  | succ m ih =>
    have e1 : s + (m + 1) = s + m + 1 := by omega
    have e2 : s + m + 1 = s + 1 + m := by omega
    rw [e1, composeRel_succ _ s (s + m) (by omega), ih (by omega), e2,
      onePassBlock_relativePose nu pc u n s e m (by omega),
      habs (s + 1 + m) (by omega) (by omega)]
    have hstep : composeRel pc s (s + m) * pc.relativePose (s + 1 + m)
        = composeRel pc s (s + 1 + m) := by
      rw [← e2, composeRel_succ pc s (s + m) (by omega)]
    have hdet : (composeRel pc s (s + 1 + m)).linear.det ≠ 0 := by
      have e3 : s + 1 + m = s + (m + 1) := by omega
      rw [e3]
      exact composeRel_det_ne_zero pc s (m + 1) (fun i h1 h2 => hrel i h1 (by omega))
    exact conj_step _ _ _ _ _ _ _ _ _ hstep (Affine3.mul_inverse_self _ hdet)
      (Affine3.inverse_mul_self _ hD) (Affine3.mul_inverse_self _ (ha m (by omega)))

theorem composeRel_congr (pc pc2 : PoseChain K) (s e : Nat)
    (h : ∀ i, s < i → i ≤ e → pc2.relativePose i = pc.relativePose i) :
    composeRel pc2 s e = composeRel pc s e := by
  unfold composeRel
  congr 1
  apply List.map_congr_left
  intro j hj
  rw [List.mem_range'_1] at hj
  exact h j (by omega) (by omega)

theorem partialUpdate_zero (nu : Numerics K) (pc : PoseChain K) (u : Affine3 K) (n s e : Nat)
    (hzero : ∀ v, nu.angleAxis 0 v = 1) : partialUpdate nu pc u n s e 0 = 1 := by
  unfold partialUpdate
  rw [blockSum_zero, blockSum_zero, mul_zero, hzero, zero_smul]
  rfl

theorem partialUpdate_full (nu : Numerics K) (pc : PoseChain K) (u : Affine3 K) (n s e : Nat)
    (hround : nu.angleAxis (nu.angle u.linear) (nu.axis u.linear) = u.linear)
    (htra : blockSum pc.traInfoVector (s + 1) (e - s) = motionTraNormalizer pc n s e)
    (htra0 : motionTraNormalizer pc n s e ≠ 0)
    (hrot : blockSum pc.rotInfoVector (s + 1) (e - s) = motionRotNormalizer pc n s e)
    (hrot0 : motionRotNormalizer pc n s e ≠ 0) :
    partialUpdate nu pc u n s e (e - s) = u := by
  unfold partialUpdate
  rw [blockSum_div, blockSum_div, htra, hrot, div_self htra0, div_self hrot0, mul_one,
    hround, one_smul]
  rfl

/-- The one-pass correction meets the closure: on a chain whose absolute poses of the
segment are the identity-mode integration, with invertible poses, when the cumulative
partial update starts at the identity and ends at the discrepancy
`absolutePose[e]⁻¹ * D`, the corrected relative poses compose to the measured closure
`D`. -/
theorem onePassBlock_meets_closure_of (nu : Numerics K) (pc : PoseChain K) (n s e : Nat)
    (hse : s < e)
    (habs : ∀ i, s < i → i ≤ e → pc.absolutePose i = composeRel pc s i)
    (hrel : ∀ i, s < i → i ≤ e → (pc.relativePose i).linear.det ≠ 0)
    (hD : (pc.closeVector n).linear.det ≠ 0)
    (ha : ∀ m, m ≤ e - s → (partialUpdate nu pc
      ((pc.absolutePose e).inverse * pc.closeVector n) n s e m).linear.det ≠ 0)
    (h0 : partialUpdate nu pc ((pc.absolutePose e).inverse * pc.closeVector n) n s e 0 = 1)
    (hfull : partialUpdate nu pc ((pc.absolutePose e).inverse * pc.closeVector n) n s e (e - s)
      = (pc.absolutePose e).inverse * pc.closeVector n) :
    composeRel
      (onePassBlock nu pc ((pc.absolutePose e).inverse * pc.closeVector n) n s e).1 s e
      = pc.closeVector n := by
  have hlaw := onePassBlock_composeRel nu pc
    ((pc.absolutePose e).inverse * pc.closeVector n) n s e habs hrel hD ha h0 (e - s)
    (le_refl _)
  have e1 : s + (e - s) = e := by omega
  rw [e1, hfull, ← habs e hse (le_refl _)] at hlaw
  rw [hlaw]
  have hA : (pc.absolutePose e).linear.det ≠ 0 := by
    rw [habs e hse (le_refl _), ← e1]
    exact composeRel_det_ne_zero pc s (e - s) (fun i h1 h2 => hrel i h1 (by omega))
  exact conj_final _ _ _ _ (Affine3.mul_inverse_self _ hD) (Affine3.inverse_mul_self _ hA)

/-- The same with the laws of the angle-axis conversion and the weight sums. -/
theorem onePassBlock_meets_closure (nu : Numerics K) (pc : PoseChain K) (n s e : Nat)
    (hse : s < e)
    (habs : ∀ i, s < i → i ≤ e → pc.absolutePose i = composeRel pc s i)
    (hrel : ∀ i, s < i → i ≤ e → (pc.relativePose i).linear.det ≠ 0)
    (hD : (pc.closeVector n).linear.det ≠ 0)
    (hzero : ∀ v, nu.angleAxis 0 v = 1)
    (hdet : ∀ x, (nu.angleAxis x
      (nu.axis ((pc.absolutePose e).inverse * pc.closeVector n).linear)).det ≠ 0)
    (hround : nu.angleAxis (nu.angle ((pc.absolutePose e).inverse * pc.closeVector n).linear)
        (nu.axis ((pc.absolutePose e).inverse * pc.closeVector n).linear)
      = ((pc.absolutePose e).inverse * pc.closeVector n).linear)
    (htra : blockSum pc.traInfoVector (s + 1) (e - s) = motionTraNormalizer pc n s e)
    (htra0 : motionTraNormalizer pc n s e ≠ 0)
    (hrot : blockSum pc.rotInfoVector (s + 1) (e - s) = motionRotNormalizer pc n s e)
    (hrot0 : motionRotNormalizer pc n s e ≠ 0) :
    composeRel
      (onePassBlock nu pc ((pc.absolutePose e).inverse * pc.closeVector n) n s e).1 s e
      = pc.closeVector n :=
  onePassBlock_meets_closure_of nu pc n s e hse habs hrel hD (fun _ _ => hdet _)
    (partialUpdate_zero nu pc _ n s e hzero)
    (partialUpdate_full nu pc _ n s e hround htra htra0 hrot hrot0)

/-! ## Rotation-free chains -/

theorem composeRel_linear_one (pc : PoseChain K) (s m : Nat)
    (h : ∀ i, s < i → i ≤ s + m → (pc.relativePose i).linear = 1) :
    (composeRel pc s (s + m)).linear = 1 := by
  induction m with
  | zero =>
    rw [Nat.add_zero, composeRel_self]
    rfl
  | succ m ih =>
    rw [← Nat.add_assoc, composeRel_succ pc s (s + m) (by omega), Affine3.mul_linear,
      ih (fun i h1 h2 => h i h1 (by omega)), h _ (by omega) (by omega), mul_one]

theorem partialUpdate_translation (nu : Numerics K) (pc : PoseChain K) (t : Vector3 K)
    (n s e m : Nat) (hang : nu.angle 1 = 0) (hzero : ∀ v, nu.angleAxis 0 v = 1) :
    partialUpdate nu pc (Affine3.ofTranslation t) n s e m
      = Affine3.ofTranslation
          (blockSum (fun j => pc.traInfoVector j / motionTraNormalizer pc n s e) (s + 1) m
            • t) := by
  unfold partialUpdate
  rw [Affine3.ofTranslation_linear, hang, zero_mul, hzero]
  rfl

/-- The one-pass branch on a rotation-free segment with a pure-translation closure:
pose `i` of the segment gets the share `traInfo[i]/traNormalizer` of the translation
discrepancy added to its relative translation. -/
theorem onePassBlock_relativePose_translation (nu : Numerics K) (pc : PoseChain K)
    (n s e : Nat) (d : Vector3 K)
    (habs : ∀ i, s < i → i ≤ e → pc.absolutePose i = composeRel pc s i)
    (hlin : ∀ i, s < i → i ≤ e → (pc.relativePose i).linear = 1)
    (hD : pc.closeVector n = Affine3.ofTranslation d)
    (hang : nu.angle 1 = 0) (hzero : ∀ v, nu.angleAxis 0 v = 1)
    (i : Nat) (h1 : s < i) (h2 : i ≤ e) :
    (onePassBlock nu pc ((pc.absolutePose e).inverse * pc.closeVector n) n s e).1.relativePose i
      = Affine3.ofTranslation ((pc.relativePose i).translation
          + (pc.traInfoVector i / motionTraNormalizer pc n s e)
            • ((pc.absolutePose e).inverse * pc.closeVector n).translation) := by
  obtain ⟨m, rfl⟩ : ∃ m, i = s + 1 + m := ⟨i - (s + 1), by omega⟩
  have hAe : pc.absolutePose e = Affine3.ofTranslation (pc.absolutePose e).translation := by
    apply Affine3.eq_ofTranslation
    rw [habs e (by omega) (le_refl _)]
    have e1 : e = s + (e - s) := by omega
    rw [e1]
    exact composeRel_linear_one pc s _ (fun j hj1 hj2 => hlin j hj1 (by omega))
  have hA : pc.absolutePose (s + 1 + m)
      = Affine3.ofTranslation (pc.absolutePose (s + 1 + m)).translation := by
    apply Affine3.eq_ofTranslation
    rw [habs _ (by omega) h2]
    have e1 : s + 1 + m = s + (m + 1) := by omega
    rw [e1]
    exact composeRel_linear_one pc s _ (fun j hj1 hj2 => hlin j hj1 (by omega))
  have hu : (pc.absolutePose e).inverse * pc.closeVector n
      = Affine3.ofTranslation ((pc.absolutePose e).inverse * pc.closeVector n).translation := by
    apply Affine3.eq_ofTranslation
    rw [hAe, hD, Affine3.ofTranslation_inverse, Affine3.ofTranslation_mul]
    rfl
  rw [onePassBlock_relativePose nu pc _ n s e m (by omega)]
  generalize (pc.absolutePose e).inverse * pc.closeVector n = u at hu ⊢
  rw [hu, partialUpdate_translation nu pc _ n s e m hang hzero,
    partialUpdate_translation nu pc _ n s e (m + 1) hang hzero, hD, hA,
    Affine3.translation_conj, Affine3.eq_ofTranslation _ (hlin _ h1 h2),
    Affine3.ofTranslation_mul, blockSum_succ, Affine3.ofTranslation_translation,
    Affine3.ofTranslation_translation]
  congr 1
  rw [add_smul]
  abel

theorem blockSum_const (v : Nat → K) (i len : Nat) (c : K)
    (h : ∀ j, i ≤ j → j < i + len → v j = c) : blockSum v i len = (len : K) * c := by
  unfold blockSum
  rw [Finset.sum_congr rfl (fun j hj => h (i + j) (by omega)
    (by have := Finset.mem_range.mp hj; omega)), Finset.sum_const, Finset.card_range,
    nsmul_eq_mul]

/-- On a rotation-free segment with a pure-translation closure whose translation
weights sum to the normalizer, the one-pass correction meets the closure. -/
theorem onePassBlock_meets_closure_translation (nu : Numerics K) (pc : PoseChain K)
    (n s e : Nat) (d : Vector3 K) (hse : s < e)
    (habs : ∀ i, s < i → i ≤ e → pc.absolutePose i = composeRel pc s i)
    (hlin : ∀ i, s < i → i ≤ e → (pc.relativePose i).linear = 1)
    (hD : pc.closeVector n = Affine3.ofTranslation d)
    (hang : nu.angle 1 = 0) (hzero : ∀ v, nu.angleAxis 0 v = 1)
    (htra : blockSum pc.traInfoVector (s + 1) (e - s) = motionTraNormalizer pc n s e)
    (htra0 : motionTraNormalizer pc n s e ≠ 0) :
    composeRel
      (onePassBlock nu pc ((pc.absolutePose e).inverse * pc.closeVector n) n s e).1 s e
      = pc.closeVector n := by
  have hAe : pc.absolutePose e = Affine3.ofTranslation (pc.absolutePose e).translation := by
    apply Affine3.eq_ofTranslation
    rw [habs e (by omega) (le_refl _)]
    have e1 : e = s + (e - s) := by omega
    rw [e1]
    exact composeRel_linear_one pc s _ (fun j hj1 hj2 => hlin j hj1 (by omega))
  have hu : (pc.absolutePose e).inverse * pc.closeVector n
      = Affine3.ofTranslation ((pc.absolutePose e).inverse * pc.closeVector n).translation := by
    apply Affine3.eq_ofTranslation
    rw [hAe, hD, Affine3.ofTranslation_inverse, Affine3.ofTranslation_mul]
    rfl
  apply onePassBlock_meets_closure_of nu pc n s e hse habs
  · intro i h1 h2
    rw [hlin i h1 h2, Matrix.det_one]
    exact one_ne_zero
  · rw [hD]
    exact Affine3.ofTranslation_det_ne_zero d
  · intro m _
    rw [hu, partialUpdate_translation nu pc _ n s e m hang hzero]
    exact Affine3.ofTranslation_det_ne_zero _
  · exact partialUpdate_zero nu pc _ n s e hzero
  · generalize (pc.absolutePose e).inverse * pc.closeVector n = u at hu ⊢
    rw [hu, partialUpdate_translation nu pc _ n s e _ hang hzero, blockSum_div, htra,
      div_self htra0, one_smul]

theorem integrateChain_self_false (pc : PoseChain K) (a : Nat) :
    integrateChain pc a a false = pc := by
  unfold integrateChain
  simp [forPoses]

/-- The chain after a one-pass closure that is not orientation-only. -/
theorem closureBody_onepass (nu : Numerics K) (g : Globals) (n : Nat) (pc : PoseChain K)
    (prev : Nat) (hm : g.method = Method.ONEPASS)
    (ho : pc.traCloseInfoVector n < orientationOnlyThreshold) :
    ∃ pc2 : PoseChain K, SameButAbsolute pc2 pc ∧
      pc2.absolutePose 0 = pc.absolutePose 0 ∧
      (∀ i, pc.startVector n < i → i ≤ pc.endVector n →
        pc2.absolutePose i = composeRel pc (pc.startVector n) i) ∧
      (closureBody nu g n (pc, prev)).1
        = deflateWeights
            (integrateChain
              (onePassBlock nu pc2
                ((pc2.absolutePose (pc.endVector n)).inverse * pc2.closeVector n) n
                (pc.startVector n) (pc.endVector n)).1
              (pc.startVector n) (pc.endVector n) false)
            (pc.startVector n) (pc.endVector n)
            (onePassBlock nu pc2
                ((pc2.absolutePose (pc.endVector n)).inverse * pc2.closeVector n) n
                (pc.startVector n) (pc.endVector n)).2 false := by
  have h1 := prefix_sameButAbsolute pc prev (pc.startVector n)
  have h0 : (if prev < pc.startVector n then integrateChain pc prev (pc.startVector n) false
      else pc).absolutePose 0 = pc.absolutePose 0 := by
    split_ifs with hp
    · exact integrateChain_frame pc prev _ false 0 (by omega)
    · rfl
  unfold closureBody
  dsimp only
  generalize (if prev < pc.startVector n then integrateChain pc prev (pc.startVector n) false
      else pc) = pc1 at h1 h0 ⊢
  have ho1 : orientationOnly pc1 n = false := by
    unfold orientationOnly
    rw [h1.traClose]
    simp [ho]
  refine ⟨integrateChain pc1 (pc.startVector n) (pc.endVector n) true,
    (integrateChain_sameButAbsolute pc1 _ _ true).trans h1, ?_, ?_, ?_⟩
  · exact (integrateChain_frame pc1 _ _ true 0 (by omega)).trans h0
  · intro i hi1 hi2
    rw [integrateChain_true_absolutePose pc1 _ _ i hi1 hi2]
    exact composeRel_congr pc pc1 _ _ (fun j _ _ => h1.slots _ (by omega))
  · rw [ho1]
    have e1 : pc.endVector n * 4 = 4 * pc.endVector n := by omega
    simp only [correctionBlock, hm, e1, true_and, if_true, absolutePose]
    simp

theorem SameButAbsolute.motionTraNormalizer_eq {pc2 pc : PoseChain K}
    (h : SameButAbsolute pc2 pc) (n s e : Nat) :
    motionTraNormalizer pc2 n s e = motionTraNormalizer pc n s e := by
  unfold motionTraNormalizer
  rw [h.normalizer, h.traInfo, h.traClose]

theorem SameButAbsolute.motionRotNormalizer_eq {pc2 pc : PoseChain K}
    (h : SameButAbsolute pc2 pc) (n s e : Nat) :
    motionRotNormalizer pc2 n s e = motionRotNormalizer pc n s e := by
  unfold motionRotNormalizer
  rw [h.normalizer, h.rotInfo, h.rotClose]

omit [LinearOrderedField K] in
theorem SameButAbsolute.relativePose_eq {pc2 pc : PoseChain K} (h : SameButAbsolute pc2 pc)
    (i : Nat) : pc2.relativePose i = pc.relativePose i :=
  h.slots _ (by omega)

/-- C3 (amended): one closure with `start < end`, one-pass and not orientation-only, on
a chain with invertible relative poses and an invertible measured closure, with the
angle-axis conversion exact on the discrepancy rotation, and with the weights of the
segment summing in both channels to the normalizer
`globalNormalizer * (sum of the weights of start+1 .. end-1 + closure weight)`:
after the closure, integrating `[start, end]` from the identity and composing
`absolutePose[end]⁻¹ * measuredClosure` gives the identity transform. -/
theorem onepass_closure_absorbed (nu : Numerics K) (g : Globals) (n : Nat)
    (pc : PoseChain K) (prev_end : Nat)
    (hm : g.method = Method.ONEPASS)
    (ho : pc.traCloseInfoVector n < orientationOnlyThreshold)
    (hse : pc.startVector n < pc.endVector n)
    (hrel : ∀ i, pc.startVector n < i → i ≤ pc.endVector n →
      (pc.relativePose i).linear.det ≠ 0)
    (hD : (pc.closeVector n).linear.det ≠ 0)
    (hzero : ∀ v, nu.angleAxis 0 v = 1)
    (hdet : ∀ x, (nu.angleAxis x (nu.axis
      ((composeRel pc (pc.startVector n) (pc.endVector n)).inverse
        * pc.closeVector n).linear)).det ≠ 0)
    (hround : nu.angleAxis
        (nu.angle ((composeRel pc (pc.startVector n) (pc.endVector n)).inverse
          * pc.closeVector n).linear)
        (nu.axis ((composeRel pc (pc.startVector n) (pc.endVector n)).inverse
          * pc.closeVector n).linear)
      = ((composeRel pc (pc.startVector n) (pc.endVector n)).inverse
          * pc.closeVector n).linear)
    (htra : blockSum pc.traInfoVector (pc.startVector n + 1)
        (pc.endVector n - pc.startVector n)
      = motionTraNormalizer pc n (pc.startVector n) (pc.endVector n))
    (htra0 : motionTraNormalizer pc n (pc.startVector n) (pc.endVector n) ≠ 0)
    (hrot : blockSum pc.rotInfoVector (pc.startVector n + 1)
        (pc.endVector n - pc.startVector n)
      = motionRotNormalizer pc n (pc.startVector n) (pc.endVector n))
    (hrot0 : motionRotNormalizer pc n (pc.startVector n) (pc.endVector n) ≠ 0) :
    ((integrateChain (closureBody nu g n (pc, prev_end)).1 (pc.startVector n)
        (pc.endVector n) true).absolutePose (pc.endVector n)).inverse * pc.closeVector n
      = 1 := by
  obtain ⟨pc2, hs, _, habs, hshape⟩ := closureBody_onepass nu g n pc prev_end hm ho
  have hrel2 : ∀ i, pc.startVector n < i → i ≤ pc.endVector n →
      pc2.relativePose i = pc.relativePose i := fun i _ _ => hs.relativePose_eq i
  have hcomp : ∀ i, composeRel pc2 (pc.startVector n) i = composeRel pc (pc.startVector n) i :=
    fun i => composeRel_congr pc pc2 _ _ (fun j _ _ => hs.relativePose_eq j)
  have hmeet := onePassBlock_meets_closure nu pc2 n (pc.startVector n) (pc.endVector n) hse
    (fun i h1 h2 => by rw [habs i h1 h2, hcomp])
    (fun i h1 h2 => by rw [hrel2 i h1 h2]; exact hrel i h1 h2)
    (by rw [hs.close]; exact hD) hzero
    (by rw [habs _ hse (le_refl _), hs.close]; exact hdet)
    (by rw [habs _ hse (le_refl _), hs.close]; exact hround)
    (by rw [hs.traInfo, hs.motionTraNormalizer_eq]; exact htra)
    (by rw [hs.motionTraNormalizer_eq]; exact htra0)
    (by rw [hs.rotInfo, hs.motionRotNormalizer_eq]; exact hrot)
    (by rw [hs.motionRotNormalizer_eq]; exact hrot0)
  rw [integrateChain_true_absolutePose _ _ _ _ hse (le_refl _), hshape]
  have hfinal : composeRel
      (deflateWeights
        (integrateChain
          (onePassBlock nu pc2
            ((pc2.absolutePose (pc.endVector n)).inverse * pc2.closeVector n) n
            (pc.startVector n) (pc.endVector n)).1
          (pc.startVector n) (pc.endVector n) false)
        (pc.startVector n) (pc.endVector n)
        (onePassBlock nu pc2
            ((pc2.absolutePose (pc.endVector n)).inverse * pc2.closeVector n) n
            (pc.startVector n) (pc.endVector n)).2 false)
      (pc.startVector n) (pc.endVector n) = pc.closeVector n := by
    refine Eq.trans ?_ (hmeet.trans (congrFun hs.close n))
    apply composeRel_congr
    intro i _ _
    unfold relativePose
    rw [deflateWeights_poseVector, integrateChain_frame _ _ _ false _ (by omega)]
  rw [hfinal]
  exact Affine3.inverse_mul_self _ hD

/-- One one-pass closure on a rotation-free segment with a pure-translation measured
transform: every relative pose of the segment stays a pure translation and gets its
share `traInfo[i]/traNormalizer` of the translation discrepancy. -/
theorem closureBody_onepass_translation (nu : Numerics K) (g : Globals) (n : Nat)
    (pc : PoseChain K) (prev : Nat) (d : Vector3 K)
    (hm : g.method = Method.ONEPASS)
    (ho : pc.traCloseInfoVector n < orientationOnlyThreshold)
    (hlin : ∀ i, pc.startVector n < i → i ≤ pc.endVector n → (pc.relativePose i).linear = 1)
    (hD : pc.closeVector n = Affine3.ofTranslation d)
    (hang : nu.angle 1 = 0) (hzero : ∀ v, nu.angleAxis 0 v = 1)
    (i : Nat) (h1 : pc.startVector n < i) (h2 : i ≤ pc.endVector n) :
    (closureBody nu g n (pc, prev)).1.relativePose i
      = Affine3.ofTranslation ((pc.relativePose i).translation
          + (pc.traInfoVector i / motionTraNormalizer pc n (pc.startVector n) (pc.endVector n))
            • ((composeRel pc (pc.startVector n) (pc.endVector n)).inverse
                * pc.closeVector n).translation) := by
  obtain ⟨pc2, hs, _, habs, hshape⟩ := closureBody_onepass nu g n pc prev hm ho
  have hcomp : ∀ j, composeRel pc2 (pc.startVector n) j = composeRel pc (pc.startVector n) j :=
    fun j => composeRel_congr pc pc2 _ _ (fun k _ _ => hs.relativePose_eq k)
  have h := onePassBlock_relativePose_translation nu pc2 n (pc.startVector n)
    (pc.endVector n) d (fun j hj1 hj2 => by rw [habs j hj1 hj2, hcomp])
    (fun j hj1 hj2 => by rw [hs.relativePose_eq]; exact hlin j hj1 hj2)
    (by rw [hs.close]; exact hD) hang hzero i h1 h2
  rw [hs.relativePose_eq, hs.traInfo, hs.motionTraNormalizer_eq,
    habs _ (by omega) (le_refl _), hs.close] at h
  rw [hshape, ← h]
  unfold relativePose
  rw [deflateWeights_poseVector, integrateChain_frame _ _ _ false _ (by omega),
    habs _ (by omega) (le_refl _), hs.close]

/-- One one-pass closure starting at pose 0 on a rotation-free segment, with a
pure-translation measured transform and translation weights that sum to the
normalizer: the absolute pose of the end of the segment becomes the anchor composed
with the measured transform. -/
theorem closureBody_onepass_translation_end (nu : Numerics K) (g : Globals) (n : Nat)
    (pc : PoseChain K) (prev : Nat) (d : Vector3 K)
    (hm : g.method = Method.ONEPASS)
    (ho : pc.traCloseInfoVector n < orientationOnlyThreshold)
    (hs0 : pc.startVector n = 0) (hse : 0 < pc.endVector n)
    (hlin : ∀ i, 0 < i → i ≤ pc.endVector n → (pc.relativePose i).linear = 1)
    (hD : pc.closeVector n = Affine3.ofTranslation d)
    (hang : nu.angle 1 = 0) (hzero : ∀ v, nu.angleAxis 0 v = 1)
    (htra : blockSum pc.traInfoVector 1 (pc.endVector n)
      = motionTraNormalizer pc n 0 (pc.endVector n))
    (htra0 : motionTraNormalizer pc n 0 (pc.endVector n) ≠ 0) :
    (closureBody nu g n (pc, prev)).1.absolutePose (pc.endVector n)
      = pc.absolutePose 0 * pc.closeVector n := by
  obtain ⟨pc2, hs, h0, habs, hshape⟩ := closureBody_onepass nu g n pc prev hm ho
  rw [hs0] at habs hshape
  have hcomp : ∀ j, composeRel pc2 0 j = composeRel pc 0 j :=
    fun j => composeRel_congr pc pc2 _ _ (fun k _ _ => hs.relativePose_eq k)
  have hmeet := onePassBlock_meets_closure_translation nu pc2 n 0 (pc.endVector n) d hse
    (fun j hj1 hj2 => by rw [habs j hj1 hj2, hcomp])
    (fun j hj1 hj2 => by rw [hs.relativePose_eq]; exact hlin j hj1 hj2)
    (by rw [hs.close]; exact hD) hang hzero
    (by rw [hs.traInfo, hs.motionTraNormalizer_eq]; exact htra)
    (by rw [hs.motionTraNormalizer_eq]; exact htra0)
  rw [hshape]
  show (integrateChain _ 0 (pc.endVector n) false).absolutePose (pc.endVector n) = _
  rw [integrateChain_false_absolutePose _ 0 _ _ hse (le_refl _), hmeet, hs.close]
  congr 1
  unfold absolutePose
  rw [onePassBlock_frame nu pc2 _ n 0 _ _ (by omega)]
  exact h0

/-- The closure loop of a chain with one closure is one run of the body. -/
theorem copSLAM_one_closure (nu : Numerics K) (g : Globals) (pc : PoseChain K)
    (hc : pc.nclosures = 1) (hn : pc.naposes - 1 = pc.endVector 0) :
    copSLAM nu g pc = (closureBody nu g 0 (pc, 0)).1 := by
  unfold copSLAM
  dsimp only
  rw [hc, hn]
  exact integrateChain_self_false _ _

/-- C4: for every `k >= 1`, on a chain of `k+1` poses whose relative poses have identity
rotation, with every translation weight `1`, `globalNormalizer = 1`, method one-pass
and the single closure `(0, k)` with a pure-translation measured transform and closure
translation weight `1` (the rotation weights play no role on such a chain, so weights
`1` are a special case): `copSLAM` adds `1/k` of the translation discrepancy (the
translation of `predictedEnd⁻¹ * measured`) to each of the `k` relative translations,
and `absolutePose[k]` becomes the anchor `absolutePose[0]` composed with the measured
transform, which is the measured transform for the identity anchor. The angle-axis
conversion is assumed exact at the identity rotation. -/
theorem onepass_uniform_translation (nu : Numerics K) (g : Globals) (pc : PoseChain K)
    (k : Nat) (d : Vector3 K) (hk : 1 ≤ k)
    (hm : g.method = Method.ONEPASS)
    (hn : pc.naposes = k + 1) (hc : pc.nclosures = 1)
    (hs : pc.startVector 0 = 0) (he : pc.endVector 0 = k)
    (hD : pc.closeVector 0 = Affine3.ofTranslation d)
    (hlin : ∀ i, 1 ≤ i → i ≤ k → (pc.relativePose i).linear = 1)
    (hwt : ∀ i, 1 ≤ i → i ≤ k → pc.traInfoVector i = 1)
    (hct : pc.traCloseInfoVector 0 = 1) (hg : pc.globalNormalizer = 1)
    (hang : nu.angle 1 = 0) (hzero : ∀ v, nu.angleAxis 0 v = 1) :
    (∀ i, 1 ≤ i → i ≤ k →
      (copSLAM nu g pc).relativePose i
        = Affine3.ofTranslation ((pc.relativePose i).translation
            + (1 / (k : K)) • ((composeRel pc 0 k).inverse * pc.closeVector 0).translation)) ∧
    (copSLAM nu g pc).absolutePose k = pc.absolutePose 0 * pc.closeVector 0 ∧
    (pc.absolutePose 0 = 1 → (copSLAM nu g pc).absolutePose k = pc.closeVector 0) := by
  have hcop := copSLAM_one_closure nu g pc hc (by rw [hn, he]; omega)
  have ho : pc.traCloseInfoVector 0 < orientationOnlyThreshold := by
    rw [hct]
    unfold orientationOnlyThreshold
    norm_num
  have hk0 : (k : K) ≠ 0 := Nat.cast_ne_zero.mpr (by omega)
  have hz : motionTraNormalizer pc 0 0 k = (k : K) := by
    unfold motionTraNormalizer
    rw [hg, hct, blockSum_const pc.traInfoVector 1 (k - 0 - 1) 1
      (fun j h1 h2 => hwt j (by omega) (by omega))]
    have e1 : k - 0 - 1 = k - 1 := by omega
    rw [e1, Nat.cast_sub hk]
    simp
  have hsum : blockSum pc.traInfoVector 1 k = (k : K) := by
    rw [blockSum_const pc.traInfoVector 1 k 1 (fun j h1 h2 => hwt j (by omega) (by omega)),
      mul_one]
  have hend : (copSLAM nu g pc).absolutePose k = pc.absolutePose 0 * pc.closeVector 0 := by
    have h := closureBody_onepass_translation_end nu g 0 pc 0 d hm ho hs (by rw [he]; omega)
      (fun i h1 h2 => hlin i h1 (by rw [he] at h2; exact h2)) hD hang hzero
      (by rw [he, hsum, hz]) (by rw [he, hz]; exact hk0)
    rw [he] at h
    rw [hcop, h]
  refine ⟨?_, hend, fun h0 => by rw [hend, h0, one_mul]⟩
  intro i h1 h2
  have h := closureBody_onepass_translation nu g 0 pc 0 d hm ho
    (fun j hj1 hj2 => hlin j (by omega) (by rw [he] at hj2; exact hj2)) hD hang hzero i
    (by rw [hs]; omega) (by rw [he]; exact h2)
  rw [hs, he, hz, hwt i h1 h2] at h
  rw [hcop, h]

/-! ## The line chains -/

theorem lineChain_relativePose (n : Nat) (w c d g : K) (anchor : Affine3 K) (i : Nat) :
    (lineChain n w c d g anchor).relativePose i = Affine3.ofTranslation ![1, 0, 0] := by
  have h : (4 * i + 1) % 4 = 1 := by omega
  simp [relativePose, lineChain, h]

theorem lineChain_composeRel (n : Nat) (w c d g : K) (anchor : Affine3 K) (m : Nat) :
    composeRel (lineChain n w c d g anchor) 0 m = Affine3.ofTranslation ![(m : K), 0, 0] := by
  induction m with
  | zero =>
    rw [composeRel_self]
    apply Affine3.ext
    · rfl
    · funext j
      fin_cases j <;> simp [Affine3.ofTranslation, Affine3.one_translation]
  | succ m ih =>
    rw [composeRel_succ _ 0 m (by omega), ih, lineChain_relativePose, Affine3.ofTranslation_mul]
    congr 1
    funext j
    fin_cases j <;> simp
    ring

/-- Witness of C4, the scenario of the specification: each relative translation
becomes `(1.125, 0, 0)` (here pose 2) and `absolutePose[4]` is the translation
`(4.5, 0, 0)`. -/
theorem onepass_uniform_translation_witness :
    (copSLAM rationalNumerics ⟨Method.ONEPASS, false, false⟩ scenarioChain).relativePose 2
      = Affine3.ofTranslation ![9 / 8, 0, 0] ∧
    (copSLAM rationalNumerics ⟨Method.ONEPASS, false, false⟩ scenarioChain).absolutePose 4
      = Affine3.ofTranslation ![9 / 2, 0, 0] := by
  have h := onepass_uniform_translation rationalNumerics ⟨Method.ONEPASS, false, false⟩
    scenarioChain 4 ![9 / 2, 0, 0] (by decide) rfl rfl rfl rfl rfl rfl
    (fun i _ _ => by rw [scenarioChain, lineChain_relativePose]; rfl)
    (fun _ _ _ => rfl) rfl rfl rfl (fun _ => rfl)
  constructor
  · rw [h.1 2 (by decide) (by decide)]
    rw [scenarioChain, lineChain_relativePose, lineChain_composeRel]
    show Affine3.ofTranslation (_ + _ • ((Affine3.ofTranslation _ : Affine3 ℚ).inverse
      * Affine3.ofTranslation ![9 / 2, 0, 0]).translation) = _
    rw [Affine3.ofTranslation_inverse, Affine3.ofTranslation_mul,
      Affine3.ofTranslation_translation]
    congr 1
    funext j
    fin_cases j <;> norm_num [Affine3.ofTranslation_translation]
  · rw [h.2.2 rfl]
    rfl

/-! ## The weight deflation of the one-pass branch -/

/-- The translation weights after a one-pass closure that is not orientation-only: the
segment is multiplied by `1/(1 + sv/c)`, with `sv` the sum of the translation weights
of the poses `start+1 .. end-1` and `c` the translation weight of the closure. -/
theorem closureBody_onepass_traInfoVector (nu : Numerics K) (g : Globals) (n : Nat)
    (pc : PoseChain K) (prev : Nat) (hm : g.method = Method.ONEPASS)
    (ho : pc.traCloseInfoVector n < orientationOnlyThreshold) :
    (closureBody nu g n (pc, prev)).1.traInfoVector
      = blockScale pc.traInfoVector (pc.startVector n + 1)
          (pc.endVector n - pc.startVector n)
          (1 / (1 + blockSum pc.traInfoVector (pc.startVector n + 1)
            ((pc.endVector n - pc.startVector n) - 1) / pc.traCloseInfoVector n)) := by
  obtain ⟨pc2, hs, _, _, hshape⟩ := closureBody_onepass nu g n pc prev hm ho
  rw [hshape, ← hs.traInfo, ← hs.traClose]
  rfl

/-- C5 (counterexample): in the scenario of the specification, after `copSLAM` the
translation weight of pose 1 is `1/4`, not `1/5`. -/
theorem scenario_translation_weight_quarter :
    (copSLAM rationalNumerics ⟨Method.ONEPASS, false, false⟩ scenarioChain).traInfoVector 1
      = 1 / 4 ∧
    (copSLAM rationalNumerics ⟨Method.ONEPASS, false, false⟩ scenarioChain).traInfoVector 1
      ≠ 1 / 5 := by
  have h : (copSLAM rationalNumerics ⟨Method.ONEPASS, false, false⟩
      scenarioChain).traInfoVector 1 = 1 / 4 := by
    rw [copSLAM_one_closure _ _ _ rfl rfl,
      closureBody_onepass_traInfoVector _ _ _ _ _ rfl
        (by norm_num [orientationOnlyThreshold, scenarioChain, lineChain])]
    norm_num [scenarioChain, lineChain, blockScale, blockSum, Finset.sum_range_succ]
  rw [h]
  norm_num

/-- C5 (amended): the translation blend normalizer returned by `interpolateMotion` is
`1/(1 + S/c)` with `S` the sum of the translation weights of the poses
`start+1 .. end-1` (the last pose of the segment is left out of the sum) and `c` the
translation weight of the closure; in the scenario of the specification `S = 3`, and
after `copSLAM` each of the four translation weights is `1/(1+3/1) = 1/4`. -/
theorem motion_translation_normalizer (nu : Numerics K) (pc : PoseChain K)
    (aupdate adesired : Affine3 K) (aclosure astart aend : Nat) :
    (interpolateMotion nu pc aupdate adesired aclosure astart aend).2 0
      = 1 / (1 + blockSum pc.traInfoVector (astart + 1) ((aend - astart) - 1)
          / pc.traCloseInfoVector aclosure) ∧
    (copSLAM rationalNumerics ⟨Method.ONEPASS, false, false⟩ scenarioChain).traInfoVector 1
      = 1 / 4 ∧
    (copSLAM rationalNumerics ⟨Method.ONEPASS, false, false⟩ scenarioChain).traInfoVector 2
      = 1 / 4 ∧
    (copSLAM rationalNumerics ⟨Method.ONEPASS, false, false⟩ scenarioChain).traInfoVector 3
      = 1 / 4 ∧
    (copSLAM rationalNumerics ⟨Method.ONEPASS, false, false⟩ scenarioChain).traInfoVector 4
      = 1 / 4 := by
  refine ⟨rfl, ?_⟩
  rw [copSLAM_one_closure _ _ _ rfl rfl,
    closureBody_onepass_traInfoVector _ _ _ _ _ rfl
      (by norm_num [orientationOnlyThreshold, scenarioChain, lineChain])]
  norm_num [scenarioChain, lineChain, blockScale, blockSum, Finset.sum_range_succ]

/-! ## The two-pass correction of a rotation-free chain -/

/-- The rotation pass leaves a rotation-free segment alone when the closure is a pure
translation and the update has identity rotation. -/
theorem rotationPassBlock_translation_chain (nu : Numerics K) (pc : PoseChain K)
    (n s e : Nat) (d t : Vector3 K)
    (hA : ∀ i, s < i → i ≤ e → (pc.absolutePose i).linear = 1)
    (hD : pc.closeVector n = Affine3.ofTranslation d)
    (hang : nu.angle 1 = 0) (hzero : ∀ v, nu.angleAxis 0 v = 1) (i : Nat) :
    (rotationPassBlock nu pc ⟨1, t⟩ n s e).1.relativePose i = pc.relativePose i := by
  by_cases hi : s < i ∧ i ≤ e
  · unfold rotationPassBlock
    dsimp only
    rw [updateChain_rotation_relativePose nu _ s e i hi.1 hi.2,
      cobChain_rotation_scratch _ s e i hi.1 hi.2,
      interpolateRot_scratch nu pc _ _ n s e i hi.1 hi.2]
    have h1 : (cobChain (interpolateRot nu pc ⟨1, t⟩ (pc.closeVector n) n s e).1 s e
        Channel.ROTATION).relativePose i = pc.relativePose i := by
      unfold relativePose
      rw [cobChain_frame _ s e _ _ (by omega), interpolateRot_frame nu pc _ _ n s e _ (by omega)]
    have h2 : (interpolateRot nu pc ⟨1, t⟩ (pc.closeVector n) n s e).1.absolutePose i
        = pc.absolutePose i := interpolateRot_frame nu pc _ _ n s e _ (by omega)
    rw [h1, h2, hang, zero_mul, hzero, hD, Affine3.ofTranslation_inverse]
    apply Affine3.ext
    · show (pc.relativePose i).linear *
        (Affine3.inverse3 (pc.absolutePose i).linear * ((1 * 1) * 1) * (pc.absolutePose i).linear)
        = (pc.relativePose i).linear
      rw [hA i hi.1 hi.2, Affine3.inverse3_one]
      simp
    · rfl
  · unfold relativePose
    rw [rotationPassBlock_frame nu pc _ n s e _ (by omega)]

/-- The translation pass on a rotation-free segment with a pure-translation closure:
pose `i` gets the share `traInfo[i]/traNormalizer` of the translation discrepancy,
with `traNormalizer = globalNormalizer * (sum of the weights of start+1 .. end +
closure weight)`. -/
theorem translationPassBlock_translation_chain (nu : Numerics K) (pc : PoseChain K)
    (n s e : Nat) (d : Vector3 K)
    (hlin : ∀ i, s < i → i ≤ e → (pc.relativePose i).linear = 1)
    (hD : pc.closeVector n = Affine3.ofTranslation d)
    (i : Nat) (h1 : s < i) (h2 : i ≤ e) :
    (translationPassBlock nu pc n s e).1.relativePose i
      = Affine3.ofTranslation ((pc.relativePose i).translation
          + (pc.traInfoVector i / (pc.globalNormalizer *
              (blockSum pc.traInfoVector (s + 1) (e - s) + pc.traCloseInfoVector n)))
            • ((composeRel pc s e).inverse * pc.closeVector n).translation) := by
  have hAlin : (composeRel pc s i).linear = 1 := by
    have e1 : i = s + (i - s) := by omega
    rw [e1]
    exact composeRel_linear_one pc s _ (fun j hj1 hj2 => hlin j hj1 (by omega))
  unfold translationPassBlock
  dsimp only
  rw [updateChain_translation_relativePose nu _ s e i h1 h2,
    cobChain_translation_scratch _ s e i h1 h2,
    interpolateTra_scratch _ _ _ n s e i h1 h2]
  have hr : (cobChain (interpolateTra (integrateChain pc s e true)
      ⟨1, (((integrateChain pc s e true).poseVector (e * 4)).inverse
        * (integrateChain pc s e true).closeVector n).translation⟩
      ((integrateChain pc s e true).closeVector n) n s e).1 s e
        Channel.TRANSLATION).relativePose i = pc.relativePose i := by
    unfold relativePose
    rw [cobChain_frame _ s e _ _ (by omega), interpolateTra_frame _ _ _ n s e _ (by omega),
      integrateChain_frame pc s e true _ (by omega)]
  have ha : (interpolateTra (integrateChain pc s e true)
      ⟨1, (((integrateChain pc s e true).poseVector (e * 4)).inverse
        * (integrateChain pc s e true).closeVector n).translation⟩
      ((integrateChain pc s e true).closeVector n) n s e).1.absolutePose i
      = composeRel pc s i := by
    unfold absolutePose
    rw [interpolateTra_frame _ _ _ n s e _ (by omega)]
    exact integrateChain_true_absolutePose pc s e i h1 h2
  have he : (integrateChain pc s e true).poseVector (e * 4) = composeRel pc s e := by
    have e1 : e * 4 = 4 * e := by omega
    rw [e1]
    exact integrateChain_true_absolutePose pc s e e (by omega) (le_refl _)
  rw [hr, ha, he]
  show Affine3.mk _ _ = _
  have hc : (integrateChain pc s e true).closeVector n = Affine3.ofTranslation d := hD
  have ht : (integrateChain pc s e true).traInfoVector = pc.traInfoVector := rfl
  have hg : (integrateChain pc s e true).globalNormalizer = pc.globalNormalizer := rfl
  have hcl : (integrateChain pc s e true).traCloseInfoVector = pc.traCloseInfoVector := rfl
  rw [hc, ht, hg, hcl, hD, hAlin, Affine3.ofTranslation_inverse, Affine3.ofTranslation_mul,
    Affine3.ofTranslation_mul, Affine3.inverse_apply_linear_one]
  apply Affine3.ext
  · exact hlin i h1 h2
  · show (pc.relativePose i).translation + (-d + (_ + d)) = _ + _
    congr 1
    abel

/-- The chain after a two-pass closure that is not orientation-only, without scale
correction. -/
theorem closureBody_twopass (nu : Numerics K) (g : Globals) (n : Nat) (pc : PoseChain K)
    (prev : Nat) (hm : g.method = Method.TWOPASS)
    (hsim : (g.sim3_solution_space && !g.ignore_sim3_solution_space) = false)
    (ho : pc.traCloseInfoVector n < orientationOnlyThreshold) :
    ∃ pc2 : PoseChain K, SameButAbsolute pc2 pc ∧
      (∀ i, pc.startVector n < i → i ≤ pc.endVector n →
        pc2.absolutePose i = composeRel pc (pc.startVector n) i) ∧
      ∀ i, (closureBody nu g n (pc, prev)).1.relativePose i
        = (translationPassBlock nu
            (rotationPassBlock nu pc2
              ⟨((pc2.absolutePose (pc.endVector n)).inverse * pc2.closeVector n).linear, 0⟩ n
              (pc.startVector n) (pc.endVector n)).1 n
            (pc.startVector n) (pc.endVector n)).1.relativePose i := by
  have h1 := prefix_sameButAbsolute pc prev (pc.startVector n)
  unfold closureBody
  dsimp only
  generalize (if prev < pc.startVector n then integrateChain pc prev (pc.startVector n) false
      else pc) = pc1 at h1 ⊢
  have ho1 : orientationOnly pc1 n = false := by
    unfold orientationOnly
    rw [h1.traClose]
    simp [ho]
  refine ⟨integrateChain pc1 (pc.startVector n) (pc.endVector n) true,
    (integrateChain_sameButAbsolute pc1 _ _ true).trans h1, ?_, ?_⟩
  · intro i hi1 hi2
    rw [integrateChain_true_absolutePose pc1 _ _ i hi1 hi2]
    exact composeRel_congr pc pc1 _ _ (fun j _ _ => h1.slots _ (by omega))
  · intro i
    rw [ho1]
    have e1 : pc.endVector n * 4 = 4 * pc.endVector n := by omega
    unfold relativePose
    rw [deflateWeights_poseVector, integrateChain_frame _ _ _ false _ (by omega)]
    simp only [correctionBlock, hm, hsim, e1, absolutePose]
    simp

/-- One two-pass closure (no scale correction) on a rotation-free segment with a
pure-translation measured transform: pose `i` gets the share
`traInfo[i] / (globalNormalizer * (segment sum + closure weight))` of the translation
discrepancy. -/
theorem closureBody_twopass_translation (nu : Numerics K) (g : Globals) (n : Nat)
    (pc : PoseChain K) (prev : Nat) (d : Vector3 K)
    (hm : g.method = Method.TWOPASS)
    (hsim : (g.sim3_solution_space && !g.ignore_sim3_solution_space) = false)
    (ho : pc.traCloseInfoVector n < orientationOnlyThreshold)
    (hlin : ∀ i, pc.startVector n < i → i ≤ pc.endVector n → (pc.relativePose i).linear = 1)
    (hD : pc.closeVector n = Affine3.ofTranslation d)
    (hang : nu.angle 1 = 0) (hzero : ∀ v, nu.angleAxis 0 v = 1)
    (i : Nat) (h1 : pc.startVector n < i) (h2 : i ≤ pc.endVector n) :
    (closureBody nu g n (pc, prev)).1.relativePose i
      = Affine3.ofTranslation ((pc.relativePose i).translation
          + (pc.traInfoVector i / (pc.globalNormalizer *
              (blockSum pc.traInfoVector (pc.startVector n + 1)
                (pc.endVector n - pc.startVector n) + pc.traCloseInfoVector n)))
            • ((composeRel pc (pc.startVector n) (pc.endVector n)).inverse
                * pc.closeVector n).translation) := by
  obtain ⟨pc2, hs, habs, hshape⟩ := closureBody_twopass nu g n pc prev hm hsim ho
  have hAlin : ∀ j, pc.startVector n < j → j ≤ pc.endVector n →
      (pc2.absolutePose j).linear = 1 := by
    intro j hj1 hj2
    rw [habs j hj1 hj2]
    have e1 : j = pc.startVector n + (j - pc.startVector n) := by omega
    rw [e1]
    exact composeRel_linear_one pc _ _ (fun k hk1 hk2 => hlin k hk1 (by omega))
  have hD2 : pc2.closeVector n = Affine3.ofTranslation d := by rw [hs.close]; exact hD
  have hu : ((pc2.absolutePose (pc.endVector n)).inverse * pc2.closeVector n).linear = 1 := by
    rw [Affine3.mul_linear, hD2]
    show Affine3.inverse3 (pc2.absolutePose (pc.endVector n)).linear * 1 = 1
    rw [hAlin _ (by omega) (le_refl _), Affine3.inverse3_one, mul_one]
  have hrot : ∀ j, (rotationPassBlock nu pc2
      ⟨((pc2.absolutePose (pc.endVector n)).inverse * pc2.closeVector n).linear, 0⟩ n
      (pc.startVector n) (pc.endVector n)).1.relativePose j = pc.relativePose j := by
    intro j
    rw [hu, rotationPassBlock_translation_chain nu pc2 n _ _ d 0 hAlin hD2 hang hzero j]
    exact hs.relativePose_eq j
  rw [hshape, translationPassBlock_translation_chain nu
    (rotationPassBlock nu pc2
      ⟨((pc2.absolutePose (pc.endVector n)).inverse * pc2.closeVector n).linear, 0⟩ n
      (pc.startVector n) (pc.endVector n)).1 n _ _ d
    (fun j hj1 hj2 => by rw [hrot j]; exact hlin j hj1 hj2) hD2 i h1 h2, hrot i,
    composeRel_congr pc _ _ _ (fun j _ _ => hrot j)]
  show Affine3.ofTranslation (_ + (pc2.traInfoVector i / (pc2.globalNormalizer *
    (blockSum pc2.traInfoVector _ _ + pc2.traCloseInfoVector n)))
      • (_ * pc2.closeVector n).translation) = _
  rw [hs.traInfo, hs.normalizer, hs.traClose, hs.close]

theorem composeRel_one (pc : PoseChain K) : composeRel pc 0 1 = pc.relativePose 1 := by
  rw [composeRel_succ pc 0 0 (le_refl _), composeRel_self, one_mul]

theorem ofTranslation_ne_one (v : Vector3 K) (h : v 0 ≠ 0) : Affine3.ofTranslation v ≠ 1 := by
  intro hv
  apply h
  have h2 := congrArg (fun a : Affine3 K => a.translation 0) hv
  exact h2

/-- The relative pose 1 of `heavyClosureChain` after its one-pass closure. -/
theorem heavyClosureChain_corrected :
    (closureBody rationalNumerics ⟨Method.ONEPASS, false, false⟩ 0
      (heavyClosureChain, 0)).1.relativePose 1 = Affine3.ofTranslation ![4 / 3, 0, 0] := by
  have e1 : heavyClosureChain.closeVector 0 = Affine3.ofTranslation ![2, 0, 0] := rfl
  have e2 : composeRel heavyClosureChain (heavyClosureChain.startVector 0)
      (heavyClosureChain.endVector 0) = Affine3.ofTranslation ![1, 0, 0] :=
    (lineChain_composeRel 2 1 3 2 1 1 1).trans (by norm_num)
  have e3 : heavyClosureChain.relativePose 1 = Affine3.ofTranslation ![1, 0, 0] :=
    lineChain_relativePose 2 1 3 2 1 1 1
  have e4 : heavyClosureChain.traInfoVector 1 / motionTraNormalizer heavyClosureChain 0
      (heavyClosureChain.startVector 0) (heavyClosureChain.endVector 0) = 1 / 3 := by
    norm_num [heavyClosureChain, lineChain, motionTraNormalizer, blockSum]
  rw [closureBody_onepass_translation rationalNumerics ⟨Method.ONEPASS, false, false⟩ 0
      heavyClosureChain 0 ![2, 0, 0] rfl (by norm_num [orientationOnlyThreshold, heavyClosureChain, lineChain])
      (fun i _ _ => by rw [heavyClosureChain, lineChain_relativePose]; rfl) rfl rfl
      (fun _ => rfl) 1 (by decide) (by decide),
    e1, e2, e3, e4, Affine3.ofTranslation_inverse, Affine3.ofTranslation_mul,
    Affine3.ofTranslation_translation, Affine3.ofTranslation_translation]
  congr 1
  funext j
  fin_cases j <;> norm_num

/-- The relative pose 1 of `shortChain` after its two-pass closure. -/
theorem shortChain_corrected :
    (closureBody rationalNumerics ⟨Method.TWOPASS, false, false⟩ 0
      (shortChain, 0)).1.relativePose 1 = Affine3.ofTranslation ![3 / 2, 0, 0] := by
  have e1 : shortChain.closeVector 0 = Affine3.ofTranslation ![2, 0, 0] := rfl
  have e2 : composeRel shortChain (shortChain.startVector 0)
      (shortChain.endVector 0) = Affine3.ofTranslation ![1, 0, 0] :=
    (lineChain_composeRel 2 1 1 2 1 1 1).trans (by norm_num)
  have e3 : shortChain.relativePose 1 = Affine3.ofTranslation ![1, 0, 0] :=
    lineChain_relativePose 2 1 1 2 1 1 1
  have e4 : shortChain.traInfoVector 1 / (shortChain.globalNormalizer *
      (blockSum shortChain.traInfoVector (shortChain.startVector 0 + 1)
        (shortChain.endVector 0 - shortChain.startVector 0)
        + shortChain.traCloseInfoVector 0)) = 1 / 2 := by
    norm_num [shortChain, lineChain, blockSum]
  rw [closureBody_twopass_translation rationalNumerics ⟨Method.TWOPASS, false, false⟩ 0
      shortChain 0 ![2, 0, 0] rfl rfl (by norm_num [orientationOnlyThreshold, shortChain, lineChain])
      (fun i _ _ => by rw [shortChain, lineChain_relativePose]; rfl) rfl rfl
      (fun _ => rfl) 1 (by decide) (by decide),
    e1, e2, e3, e4, Affine3.ofTranslation_inverse, Affine3.ofTranslation_mul,
    Affine3.ofTranslation_translation, Affine3.ofTranslation_translation]
  congr 1
  funext j
  fin_cases j <;> norm_num

/-- C3 (counterexample): a one-pass closure of weight `3` on a segment of one pose of
weight `1` absorbs one third of the discrepancy, and a two-pass closure with every
weight `1` absorbs one half of it: after the correction, the residual
`absolutePose[end]⁻¹ * measuredClosure` of the re-integrated segment is the translation
`(2/3,0,0)`, respectively `(1/2,0,0)`, not the identity. -/
theorem closure_discrepancy_not_absorbed :
    (((integrateChain (closureBody rationalNumerics ⟨Method.ONEPASS, false, false⟩ 0
        (heavyClosureChain, 0)).1 0 1 true).absolutePose 1).inverse
          * heavyClosureChain.closeVector 0 = Affine3.ofTranslation ![2 / 3, 0, 0] ∧
      ((integrateChain (closureBody rationalNumerics ⟨Method.ONEPASS, false, false⟩ 0
        (heavyClosureChain, 0)).1 0 1 true).absolutePose 1).inverse
          * heavyClosureChain.closeVector 0 ≠ 1) ∧
    (((integrateChain (closureBody rationalNumerics ⟨Method.TWOPASS, false, false⟩ 0
        (shortChain, 0)).1 0 1 true).absolutePose 1).inverse
          * shortChain.closeVector 0 = Affine3.ofTranslation ![1 / 2, 0, 0] ∧
      ((integrateChain (closureBody rationalNumerics ⟨Method.TWOPASS, false, false⟩ 0
        (shortChain, 0)).1 0 1 true).absolutePose 1).inverse
          * shortChain.closeVector 0 ≠ 1) := by
  have d1 : heavyClosureChain.closeVector 0 = Affine3.ofTranslation ![2, 0, 0] := rfl
  have d2 : shortChain.closeVector 0 = Affine3.ofTranslation ![2, 0, 0] := rfl
  have h1 : ((integrateChain (closureBody rationalNumerics ⟨Method.ONEPASS, false, false⟩ 0
        (heavyClosureChain, 0)).1 0 1 true).absolutePose 1).inverse
          * heavyClosureChain.closeVector 0 = Affine3.ofTranslation ![2 / 3, 0, 0] := by
    rw [integrateChain_true_absolutePose _ 0 1 1 (by decide) (by decide), composeRel_one,
      heavyClosureChain_corrected, d1, Affine3.ofTranslation_inverse,
      Affine3.ofTranslation_mul]
    congr 1
    funext j
    fin_cases j <;> norm_num
  have h2 : ((integrateChain (closureBody rationalNumerics ⟨Method.TWOPASS, false, false⟩ 0
        (shortChain, 0)).1 0 1 true).absolutePose 1).inverse
          * shortChain.closeVector 0 = Affine3.ofTranslation ![1 / 2, 0, 0] := by
    rw [integrateChain_true_absolutePose _ 0 1 1 (by decide) (by decide), composeRel_one,
      shortChain_corrected, d2, Affine3.ofTranslation_inverse,
      Affine3.ofTranslation_mul]
    congr 1
    funext j
    fin_cases j <;> norm_num
  refine ⟨⟨h1, ?_⟩, ⟨h2, ?_⟩⟩
  · rw [h1]
    exact ofTranslation_ne_one _ (by norm_num)
  · rw [h2]
    exact ofTranslation_ne_one _ (by norm_num)

/-- The discrepancy of the scenario chain has identity rotation. -/
theorem scenarioChain_discrepancy_linear :
    ((composeRel scenarioChain (scenarioChain.startVector 0)
      (scenarioChain.endVector 0)).inverse * scenarioChain.closeVector 0).linear = 1 := by
  have e1 : scenarioChain.closeVector 0 = Affine3.ofTranslation ![9 / 2, 0, 0] := rfl
  have e2 : composeRel scenarioChain (scenarioChain.startVector 0)
      (scenarioChain.endVector 0) = Affine3.ofTranslation ![((4 : ℕ) : ℚ), 0, 0] :=
    lineChain_composeRel 5 1 1 (9 / 2) 1 1 4
  rw [e1, e2, Affine3.ofTranslation_inverse, Affine3.ofTranslation_mul]
  rfl

/-- Witness of C3 (amended) on the scenario chain: the weights `1` of the four poses
sum to the normalizer `1 * (3 + 1)`, and the residual after the one-pass closure is the
identity. -/
theorem onepass_closure_absorbed_witness :
    ((integrateChain (closureBody rationalNumerics ⟨Method.ONEPASS, false, false⟩ 0
        (scenarioChain, 0)).1 0 4 true).absolutePose 4).inverse
          * scenarioChain.closeVector 0 = 1 :=
  onepass_closure_absorbed rationalNumerics ⟨Method.ONEPASS, false, false⟩ 0 scenarioChain 0
    rfl (by norm_num [orientationOnlyThreshold, scenarioChain, lineChain]) (by decide)
    (fun i _ _ => by
      rw [scenarioChain, lineChain_relativePose]
      exact Affine3.ofTranslation_det_ne_zero _)
    (Affine3.ofTranslation_det_ne_zero _) (fun _ => rfl)
    (fun _ => by
      show (1 : Matrix3 ℚ).det ≠ 0
      rw [Matrix.det_one]
      exact one_ne_zero)
    (by
      rw [scenarioChain_discrepancy_linear]
      rfl)
    (by norm_num [scenarioChain, lineChain, blockSum, motionTraNormalizer,
      Finset.sum_range_succ])
    (by norm_num [scenarioChain, lineChain, blockSum, motionTraNormalizer,
      Finset.sum_range_succ])
    (by norm_num [scenarioChain, lineChain, blockSum, motionRotNormalizer,
      Finset.sum_range_succ])
    (by norm_num [scenarioChain, lineChain, blockSum, motionRotNormalizer,
      Finset.sum_range_succ])

/-! ## Frame and idempotence of the integration -/

/-- C11: `integrateChain(start, end, identity)`, for both values of `identity`, writes
only `absolutePose[start+1..end]`: every relative pose, every update slot, every
reserved slot, every weight, the scale factors, the closure data, and every absolute
pose `i` with `i <= start` or `end < i` keep their pre-call values. -/
theorem integrateChain_writes_only_segment (pc : PoseChain K) (start end_ : Nat)
    (aidentity : Bool) :
    (∀ i, (integrateChain pc start end_ aidentity).relativePose i = pc.relativePose i) ∧
    (∀ i, (integrateChain pc start end_ aidentity).scratchUpdate i = pc.scratchUpdate i) ∧
    (∀ i, (integrateChain pc start end_ aidentity).reservedSlot i = pc.reservedSlot i) ∧
    (∀ i, i ≤ start ∨ end_ < i →
      (integrateChain pc start end_ aidentity).absolutePose i = pc.absolutePose i) ∧
    (integrateChain pc start end_ aidentity).rotInfoVector = pc.rotInfoVector ∧
    (integrateChain pc start end_ aidentity).traInfoVector = pc.traInfoVector ∧
    (integrateChain pc start end_ aidentity).scaleInfoVector = pc.scaleInfoVector ∧
    (integrateChain pc start end_ aidentity).scaleVector = pc.scaleVector ∧
    (integrateChain pc start end_ aidentity).closeVector = pc.closeVector ∧
    (integrateChain pc start end_ aidentity).scaleCloseFactor = pc.scaleCloseFactor ∧
    (integrateChain pc start end_ aidentity).scaleNormalizer = pc.scaleNormalizer :=
  ⟨fun i => integrateChain_frame pc start end_ aidentity _ (by omega),
    fun i => integrateChain_frame pc start end_ aidentity _ (by omega),
    fun i => integrateChain_frame pc start end_ aidentity _ (by omega),
    fun i hi => integrateChain_frame pc start end_ aidentity _ (by omega),
    rfl, rfl, rfl, rfl, rfl, rfl, rfl⟩

/-- The absolute poses that `integrateChain` computes, for both modes: the start pose
it integrates from (the identity in identity mode) composed with the relative poses. -/
theorem integrateChain_absolutePose_eq (pc : PoseChain K) (s e : Nat) (b : Bool) (i : Nat)
    (h1 : s < i) (h2 : i ≤ e) :
    (integrateChain pc s e b).absolutePose i
      = (if b then 1 else pc.absolutePose s) * composeRel pc s i := by
  cases b
  · exact integrateChain_false_absolutePose pc s e i h1 h2
  · rw [integrateChain_true_absolutePose pc s e i h1 h2]
    simp

theorem integrateChain_poseVector_idem (pc : PoseChain K) (s e : Nat) (b : Bool) :
    (integrateChain (integrateChain pc s e b) s e b).poseVector
      = (integrateChain pc s e b).poseVector := by
  funext x
  by_cases hx : x % 4 ≠ 0 ∨ x < 4 * (s + 1) ∨ 4 * e < x
  · exact integrateChain_frame _ s e b x hx
  · obtain ⟨i, rfl⟩ : ∃ i, x = 4 * i := ⟨x / 4, by omega⟩
    have h1 : s < i := by omega
    have h2 : i ≤ e := by omega
    have ha := integrateChain_absolutePose_eq (integrateChain pc s e b) s e b i h1 h2
    have hb := integrateChain_absolutePose_eq pc s e b i h1 h2
    unfold absolutePose at ha hb
    rw [ha, hb]
    congr 1
    · cases b
      · exact integrateChain_frame pc s e false _ (by omega)
      · rfl
    · exact composeRel_congr pc _ s i (fun j _ _ => integrateChain_relativePose pc s e b j)

/-- C12: `integrateChain` is idempotent: running `integrateChain(start, end, identity)`
twice in a row gives exactly the chain state of running it once. -/
theorem integrateChain_idempotent (pc : PoseChain K) (start end_ : Nat) (aidentity : Bool) :
    integrateChain (integrateChain pc start end_ aidentity) start end_ aidentity
      = integrateChain pc start end_ aidentity := by
  have h := integrateChain_poseVector_idem pc start end_ aidentity
  have e1 : integrateChain (integrateChain pc start end_ aidentity) start end_ aidentity
      = { integrateChain pc start end_ aidentity with
          poseVector := (integrateChain (integrateChain pc start end_ aidentity) start end_
            aidentity).poseVector } := rfl
  rw [e1, h]

/-! ## Change of basis followed by the update -/

/-- C13: `cobChain(start, end, BOTH)` followed by `updateChain(start, end, BOTH)` leaves,
for every pose `i` of `start+1 .. end`, `scratchUpdate[i] = A⁻¹ * s * A` and
`relativePose[i] = r * A⁻¹ * s * A`, with `A` the absolute pose `i` and `s`, `r` the
pre-call update and relative pose `i`; the relative poses and updates outside the
segment, all absolute poses and all reserved slots are unchanged. -/
theorem cob_update_both (nu : Numerics K) (pc : PoseChain K) (start end_ : Nat) :
    (∀ i, start < i → i ≤ end_ →
      (updateChain nu (cobChain pc start end_ Channel.BOTH) start end_
          Channel.BOTH).scratchUpdate i
        = (pc.absolutePose i).inverse * pc.scratchUpdate i * pc.absolutePose i ∧
      (updateChain nu (cobChain pc start end_ Channel.BOTH) start end_
          Channel.BOTH).relativePose i
        = pc.relativePose i * (pc.absolutePose i).inverse * pc.scratchUpdate i
            * pc.absolutePose i) ∧
    (∀ i, i ≤ start ∨ end_ < i →
      (updateChain nu (cobChain pc start end_ Channel.BOTH) start end_
          Channel.BOTH).scratchUpdate i = pc.scratchUpdate i ∧
      (updateChain nu (cobChain pc start end_ Channel.BOTH) start end_
          Channel.BOTH).relativePose i = pc.relativePose i) ∧
    (∀ i, (updateChain nu (cobChain pc start end_ Channel.BOTH) start end_
          Channel.BOTH).absolutePose i = pc.absolutePose i) ∧
    (∀ i, (updateChain nu (cobChain pc start end_ Channel.BOTH) start end_
          Channel.BOTH).reservedSlot i = pc.reservedSlot i) := by
  have hframe : ∀ x, x % 4 = 0 ∨ x % 4 = 2 ∨ x < 4 * (start + 1) ∨ 4 * end_ + 3 < x →
      (updateChain nu (cobChain pc start end_ Channel.BOTH) start end_
          Channel.BOTH).poseVector x = pc.poseVector x := by
    intro x hx
    rw [updateChain_any_frame nu _ start end_ _ x (by omega),
      cobChain_frame pc start end_ _ x (by omega)]
  refine ⟨fun i h1 h2 => ⟨?_, ?_⟩, fun i hi => ⟨hframe _ (by omega), hframe _ (by omega)⟩,
    fun i => hframe _ (by omega), fun i => hframe _ (by omega)⟩
  · unfold scratchUpdate
    rw [updateChain_any_frame nu _ start end_ _ _ (by omega)]
    have h := cobChain_both_scratch pc start end_ i h1 h2
    unfold scratchUpdate at h
    rw [h, mul_assoc]
  · rw [updateChain_both_relativePose nu _ start end_ i h1 h2,
      cobChain_both_scratch pc start end_ i h1 h2]
    have hr : (cobChain pc start end_ Channel.BOTH).relativePose i = pc.relativePose i :=
      cobChain_frame pc start end_ _ _ (by omega)
    rw [hr]
    simp only [mul_assoc]

/-- Witness of C13 on the scenario chain, segment `[0,4]`, pose 2. -/
theorem cob_update_both_witness :
    (updateChain rationalNumerics (cobChain scenarioChain 0 4 Channel.BOTH) 0 4
        Channel.BOTH).relativePose 2
      = scenarioChain.relativePose 2 * (scenarioChain.absolutePose 2).inverse
          * scenarioChain.scratchUpdate 2 * scenarioChain.absolutePose 2 :=
  ((cob_update_both rationalNumerics scenarioChain 0 4).1 2 (by decide) (by decide)).2

theorem inverse_apply_zero_translation (m : Matrix3 K) (v : Vector3 K) :
    (Affine3.mk m 0).inverse.apply v = (Affine3.inverse3 m).mulVec v := by
  show (Affine3.inverse3 m).mulVec v + -((Affine3.inverse3 m).mulVec 0) = _
  rw [Matrix.mulVec_zero, neg_zero, add_zero]

/-- The relative pose after `cobChain` and `updateChain` with `TRANSLATION`. -/
theorem cob_update_translation_relativePose (nu : Numerics K) (pc : PoseChain K)
    (s e i : Nat) (h1 : s < i) (h2 : i ≤ e) :
    (updateChain nu (cobChain pc s e Channel.TRANSLATION) s e
        Channel.TRANSLATION).relativePose i
      = ⟨(pc.relativePose i).linear,
          (pc.relativePose i).translation
            + (Affine3.inverse3 (pc.absolutePose i).linear).mulVec
                (pc.scratchUpdate i).translation⟩ := by
  rw [updateChain_translation_relativePose nu _ s e i h1 h2,
    cobChain_translation_scratch pc s e i h1 h2, inverse_apply_zero_translation]
  have hr : (cobChain pc s e Channel.TRANSLATION).relativePose i = pc.relativePose i :=
    cobChain_frame pc s e _ _ (by omega)
  rw [hr]

/-- C14: `cobChain(start, end, TRANSLATION)` followed by
`updateChain(start, end, TRANSLATION)` leaves, for every pose `i` of `start+1 .. end`,
the translation of `relativePose[i]` equal to its old value plus `R⁻¹ * t`, with `R`
the linear part of `absolutePose[i]` (`R⁻¹` the cofactor inverse of the program) and
`t` the old translation of `scratchUpdate[i]`; the rotation part of `relativePose[i]`
is unchanged, and a chain that differs only in the translations of its absolute poses
gets the same relative poses. -/
theorem cob_update_translation (nu : Numerics K) (pc pc2 : PoseChain K)
    (start end_ : Nat) :
    (∀ i, start < i → i ≤ end_ →
      ((updateChain nu (cobChain pc start end_ Channel.TRANSLATION) start end_
          Channel.TRANSLATION).relativePose i).translation
        = (pc.relativePose i).translation
            + (Affine3.inverse3 (pc.absolutePose i).linear).mulVec
                (pc.scratchUpdate i).translation ∧
      ((updateChain nu (cobChain pc start end_ Channel.TRANSLATION) start end_
          Channel.TRANSLATION).relativePose i).linear = (pc.relativePose i).linear) ∧
    ((∀ x, x % 4 ≠ 0 → pc2.poseVector x = pc.poseVector x) →
      (∀ i, (pc2.absolutePose i).linear = (pc.absolutePose i).linear) →
      ∀ i, start < i → i ≤ end_ →
        (updateChain nu (cobChain pc2 start end_ Channel.TRANSLATION) start end_
          Channel.TRANSLATION).relativePose i
        = (updateChain nu (cobChain pc start end_ Channel.TRANSLATION) start end_
          Channel.TRANSLATION).relativePose i) := by
  refine ⟨fun i h1 h2 => ?_, fun hx hl i h1 h2 => ?_⟩
  · rw [cob_update_translation_relativePose nu pc start end_ i h1 h2]
    exact ⟨rfl, rfl⟩
  · rw [cob_update_translation_relativePose nu pc start end_ i h1 h2,
      cob_update_translation_relativePose nu pc2 start end_ i h1 h2, hl i]
    unfold relativePose scratchUpdate
    rw [hx _ (by omega), hx _ (by omega)]

/-- Witness of C14: the scenario chain and the same chain with another translation of
the cached `absolutePose[1]` get the same relative pose 1 on the segment `[0,4]`. -/
theorem cob_update_translation_witness :
    (updateChain rationalNumerics (cobChain shiftedScenarioChain 0 4 Channel.TRANSLATION)
        0 4 Channel.TRANSLATION).relativePose 1
      = (updateChain rationalNumerics (cobChain scenarioChain 0 4 Channel.TRANSLATION)
        0 4 Channel.TRANSLATION).relativePose 1 :=
  (cob_update_translation rationalNumerics scenarioChain shiftedScenarioChain 0 4).2
    (fun x hx => by
      show Function.update scenarioChain.poseVector (4 * 1) _ x = scenarioChain.poseVector x
      exact Function.update_noteq (by omega) _ _)
    (fun i => by
      show (Function.update scenarioChain.poseVector (4 * 1) _ (4 * i)).linear
        = (scenarioChain.poseVector (4 * i)).linear
      by_cases hi : 4 * i = 4 * 1
      · rw [hi, Function.update_same]
        rfl
      · rw [Function.update_noteq hi])
    1 (by decide) (by decide)

/-! ## The joint and the single-channel normalizers -/

theorem blockSum_last (v : Nat → K) (s e : Nat) (h : s < e) :
    blockSum v (s + 1) (e - s) = blockSum v (s + 1) ((e - s) - 1) + v e := by
  have e1 : e - s = ((e - s) - 1) + 1 := by omega
  have e2 : s + 1 + ((e - s) - 1) = e := by omega
  rw [e1, blockSum_succ, e2]
  simp

theorem interpolateTra_scratch_normalizer (pc : PoseChain K) (u d : Affine3 K)
    (n s e i : Nat) (h1 : s < i) (h2 : i ≤ e) :
    (interpolateTra pc u d n s e).1.scratchUpdate i
      = d * Affine3.ofTranslation
          ((pc.traInfoVector i / singleTraNormalizer pc n s e) • u.translation)
        * d.inverse :=
  interpolateTra_scratch pc u d n s e i h1 h2

theorem interpolateRot_scratch_normalizer (nu : Numerics K) (pc : PoseChain K)
    (u d : Affine3 K) (n s e i : Nat) (h1 : s < i) (h2 : i ≤ e) :
    (interpolateRot nu pc u d n s e).1.scratchUpdate i
      = d * Affine3.ofLinear
          (nu.angleAxis (nu.angle u.linear * (pc.rotInfoVector i / singleRotNormalizer pc n s e))
            (nu.axis u.linear)) * d.inverse :=
  interpolateRot_scratch nu pc u d n s e i h1 h2

/-- C15 (the code on the scenario chain, weights `1`, closure weights `1`, segment
`[0,4]`): `interpolateTra` and `interpolateRot` return the normalizer `1/5`, while
`interpolateMotion` returns `1/4` in both entries, so the single-channel and the joint
normalizers are not the same. -/
theorem single_and_joint_normalizers_differ :
    (interpolateTra scenarioChain 1 1 0 0 4).2 0 = 1 / 5 ∧
    (interpolateMotion rationalNumerics scenarioChain 1 1 0 0 4).2 0 = 1 / 4 ∧
    (interpolateRot rationalNumerics scenarioChain 1 1 0 0 4).2 1 = 1 / 5 ∧
    (interpolateMotion rationalNumerics scenarioChain 1 1 0 0 4).2 1 = 1 / 4 ∧
    (interpolateTra scenarioChain 1 1 0 0 4).2 0
      ≠ (interpolateMotion rationalNumerics scenarioChain 1 1 0 0 4).2 0 ∧
    (interpolateRot rationalNumerics scenarioChain 1 1 0 0 4).2 1
      ≠ (interpolateMotion rationalNumerics scenarioChain 1 1 0 0 4).2 1 := by
  have h1 : (interpolateTra scenarioChain 1 1 0 0 4).2 0 = 1 / 5 := by
    show 1 / (1 + blockSum scenarioChain.traInfoVector (0 + 1) (4 - 0)
      / scenarioChain.traCloseInfoVector 0) = 1 / 5
    norm_num [scenarioChain, lineChain, blockSum, Finset.sum_range_succ]
  have h2 : (interpolateMotion rationalNumerics scenarioChain 1 1 0 0 4).2 0 = 1 / 4 := by
    show 1 / (1 + blockSum scenarioChain.traInfoVector (0 + 1) ((4 - 0) - 1)
      / scenarioChain.traCloseInfoVector 0) = 1 / 4
    norm_num [scenarioChain, lineChain, blockSum, Finset.sum_range_succ]
  have h3 : (interpolateRot rationalNumerics scenarioChain 1 1 0 0 4).2 1 = 1 / 5 := by
    show 1 / (1 + blockSum scenarioChain.rotInfoVector (0 + 1) (4 - 0)
      / scenarioChain.rotCloseInfoVector 0) = 1 / 5
    norm_num [scenarioChain, lineChain, blockSum, Finset.sum_range_succ]
  have h4 : (interpolateMotion rationalNumerics scenarioChain 1 1 0 0 4).2 1 = 1 / 4 := by
    show 1 / (1 + blockSum scenarioChain.rotInfoVector (0 + 1) ((4 - 0) - 1)
      / scenarioChain.rotCloseInfoVector 0) = 1 / 4
    norm_num [scenarioChain, lineChain, blockSum, Finset.sum_range_succ]
  refine ⟨h1, h2, h3, h4, ?_, ?_⟩
  · rw [h1, h2]
    norm_num
  · rw [h3, h4]
    norm_num

/-- The block lengths of the three interpolations compared: for a segment
`start < end`, the translation normalizer returned by `interpolateTra` is `1/(1+S/c)` with `S` the sum of the translation weights of the
poses `start+1 .. end`, the entry 0 returned by `interpolateMotion` is `1/(1+S'/c)`
with `S' = S - traInfo[end]` the sum over `start+1 .. end-1`, and the per-pose
fractions divide by `globalNormalizer * (S + c)`, respectively
`globalNormalizer * (S' + c)`; the same holds for the rotation channel with
`interpolateRot` and the entry 1. So the single-channel and the joint normalizers and
fractions are the same when the weight of the pose `end` is `0` in that channel. -/
theorem single_and_joint_normalizers (nu : Numerics K) (pc : PoseChain K)
    (aupdate adesired : Affine3 K) (aclosure astart aend : Nat) (hse : astart < aend) :
    ((interpolateTra pc aupdate adesired aclosure astart aend).2 0
        = 1 / (1 + (blockSum pc.traInfoVector (astart + 1) ((aend - astart) - 1)
            + pc.traInfoVector aend) / pc.traCloseInfoVector aclosure) ∧
      (interpolateMotion nu pc aupdate adesired aclosure astart aend).2 0
        = 1 / (1 + blockSum pc.traInfoVector (astart + 1) ((aend - astart) - 1)
            / pc.traCloseInfoVector aclosure) ∧
      singleTraNormalizer pc aclosure astart aend
        = motionTraNormalizer pc aclosure astart aend
          + pc.globalNormalizer * pc.traInfoVector aend) ∧
    ((interpolateRot nu pc aupdate adesired aclosure astart aend).2 1
        = 1 / (1 + (blockSum pc.rotInfoVector (astart + 1) ((aend - astart) - 1)
            + pc.rotInfoVector aend) / pc.rotCloseInfoVector aclosure) ∧
      (interpolateMotion nu pc aupdate adesired aclosure astart aend).2 1
        = 1 / (1 + blockSum pc.rotInfoVector (astart + 1) ((aend - astart) - 1)
            / pc.rotCloseInfoVector aclosure) ∧
      singleRotNormalizer pc aclosure astart aend
        = motionRotNormalizer pc aclosure astart aend
          + pc.globalNormalizer * pc.rotInfoVector aend) ∧
    (pc.traInfoVector aend = 0 →
      (interpolateTra pc aupdate adesired aclosure astart aend).2 0
        = (interpolateMotion nu pc aupdate adesired aclosure astart aend).2 0 ∧
      ∀ i, pc.traInfoVector i / singleTraNormalizer pc aclosure astart aend
        = pc.traInfoVector i / motionTraNormalizer pc aclosure astart aend) ∧
    (pc.rotInfoVector aend = 0 →
      (interpolateRot nu pc aupdate adesired aclosure astart aend).2 1
        = (interpolateMotion nu pc aupdate adesired aclosure astart aend).2 1 ∧
      ∀ i, pc.rotInfoVector i / singleRotNormalizer pc aclosure astart aend
        = pc.rotInfoVector i / motionRotNormalizer pc aclosure astart aend) := by
  have ht : (interpolateTra pc aupdate adesired aclosure astart aend).2 0
      = 1 / (1 + (blockSum pc.traInfoVector (astart + 1) ((aend - astart) - 1)
          + pc.traInfoVector aend) / pc.traCloseInfoVector aclosure) := by
    rw [← blockSum_last pc.traInfoVector astart aend hse]
    rfl
  have hr : (interpolateRot nu pc aupdate adesired aclosure astart aend).2 1
      = 1 / (1 + (blockSum pc.rotInfoVector (astart + 1) ((aend - astart) - 1)
          + pc.rotInfoVector aend) / pc.rotCloseInfoVector aclosure) := by
    rw [← blockSum_last pc.rotInfoVector astart aend hse]
    rfl
  have hzt : singleTraNormalizer pc aclosure astart aend
      = motionTraNormalizer pc aclosure astart aend
        + pc.globalNormalizer * pc.traInfoVector aend := by
    unfold singleTraNormalizer motionTraNormalizer
    rw [blockSum_last pc.traInfoVector astart aend hse]
    ring
  have hzr : singleRotNormalizer pc aclosure astart aend
      = motionRotNormalizer pc aclosure astart aend
        + pc.globalNormalizer * pc.rotInfoVector aend := by
    unfold singleRotNormalizer motionRotNormalizer
    rw [blockSum_last pc.rotInfoVector astart aend hse]
    ring
  refine ⟨⟨ht, rfl, hzt⟩, ⟨hr, rfl, hzr⟩, fun h0 => ⟨?_, fun i => ?_⟩,
    fun h0 => ⟨?_, fun i => ?_⟩⟩
  · rw [ht, h0, add_zero]
    rfl
  · rw [hzt, h0, mul_zero, add_zero]
  · rw [hr, h0, add_zero]
    rfl
  · rw [hzr, h0, mul_zero, add_zero]

/-! ## Segments without weight -/

theorem blockSum_eq_zero (v : Nat → K) (i len : Nat)
    (h : ∀ j, i ≤ j → j < i + len → v j = 0) : blockSum v i len = 0 := by
  rw [blockSum_const v i len 0 h, mul_zero]

theorem motionBlockRows_nonneg (s e : Nat) (h : s < e) : 0 ≤ motionBlockRows s e := by
  unfold motionBlockRows
  omega

theorem conj_one (d : Affine3 K) (hd : d.linear.det ≠ 0) : d * 1 * d.inverse = 1 := by
  rw [mul_one, Affine3.mul_inverse_self d hd]

theorem partialUpdate_zero_weights (nu : Numerics K) (pc : PoseChain K) (u : Affine3 K)
    (n s e m : Nat) (hm : m ≤ e - s) (hzero : ∀ v, nu.angleAxis 0 v = 1)
    (ht : ∀ i, s < i → i ≤ e → pc.traInfoVector i = 0)
    (hr : ∀ i, s < i → i ≤ e → pc.rotInfoVector i = 0) :
    partialUpdate nu pc u n s e m = 1 := by
  unfold partialUpdate
  rw [blockSum_eq_zero _ (s + 1) m (fun j h1 h2 => by
      show pc.traInfoVector j / _ = 0
      rw [ht j (by omega) (by omega), zero_div]),
    blockSum_eq_zero _ (s + 1) m (fun j h1 h2 => by
      show pc.rotInfoVector j / _ = 0
      rw [hr j (by omega) (by omega), zero_div]),
    mul_zero, hzero, zero_smul]
  rfl

/-- The translation channel without weight. -/
theorem interpolateTra_zero_weights (nu : Numerics K) (pc : PoseChain K) (u d : Affine3 K)
    (n s e : Nat) (hd : d.linear.det ≠ 0)
    (ht : ∀ i, s < i → i ≤ e → pc.traInfoVector i = 0) :
    (interpolateTra pc u d n s e).2 0 = 1 ∧
    (∀ i, s < i → i ≤ e → (interpolateTra pc u d n s e).1.scratchUpdate i = 1) ∧
    (∀ i, (updateChain nu (cobChain (interpolateTra pc u d n s e).1 s e Channel.TRANSLATION)
        s e Channel.TRANSLATION).relativePose i = pc.relativePose i) := by
  have hs : ∀ i, s < i → i ≤ e → (interpolateTra pc u d n s e).1.scratchUpdate i = 1 := by
    intro i h1 h2
    rw [interpolateTra_scratch pc u d n s e i h1 h2, ht i h1 h2, zero_div, zero_smul,
      Affine3.ofTranslation_zero]
    exact conj_one d hd
  refine ⟨?_, hs, fun i => ?_⟩
  · show 1 / (1 + blockSum pc.traInfoVector (s + 1) (e - s) / pc.traCloseInfoVector n) = 1
    rw [blockSum_eq_zero _ _ _ (fun j h1 h2 => ht j (by omega) (by omega)), zero_div,
      add_zero, div_one]
  · by_cases hi : s < i ∧ i ≤ e
    · rw [cob_update_translation_relativePose nu _ s e i hi.1 hi.2, hs i hi.1 hi.2]
      have hr : (interpolateTra pc u d n s e).1.relativePose i = pc.relativePose i :=
        interpolateTra_frame pc u d n s e _ (by omega)
      rw [hr, Affine3.one_translation, Matrix.mulVec_zero, add_zero]
    · unfold relativePose
      rw [updateChain_any_frame nu _ s e _ _ (by omega), cobChain_frame _ s e _ _ (by omega),
        interpolateTra_frame pc u d n s e _ (by omega)]

/-- The rotation channel without weight. -/
theorem interpolateRot_zero_weights (nu : Numerics K) (pc : PoseChain K) (u d : Affine3 K)
    (n s e : Nat) (hd : d.linear.det ≠ 0)
    (hA : ∀ i, s < i → i ≤ e → (pc.absolutePose i).linear.det ≠ 0)
    (hzero : ∀ v, nu.angleAxis 0 v = 1)
    (hr : ∀ i, s < i → i ≤ e → pc.rotInfoVector i = 0) :
    (interpolateRot nu pc u d n s e).2 1 = 1 ∧
    (∀ i, s < i → i ≤ e → (interpolateRot nu pc u d n s e).1.scratchUpdate i = 1) ∧
    (∀ i, (updateChain nu (cobChain (interpolateRot nu pc u d n s e).1 s e Channel.ROTATION)
        s e Channel.ROTATION).relativePose i = pc.relativePose i) := by
  have hs : ∀ i, s < i → i ≤ e → (interpolateRot nu pc u d n s e).1.scratchUpdate i = 1 := by
    intro i h1 h2
    rw [interpolateRot_scratch nu pc u d n s e i h1 h2, hr i h1 h2, zero_div, mul_zero, hzero]
    exact conj_one d hd
  refine ⟨?_, hs, fun i => ?_⟩
  · show 1 / (1 + blockSum pc.rotInfoVector (s + 1) (e - s) / pc.rotCloseInfoVector n) = 1
    rw [blockSum_eq_zero _ _ _ (fun j h1 h2 => hr j (by omega) (by omega)), zero_div,
      add_zero, div_one]
  · by_cases hi : s < i ∧ i ≤ e
    · rw [updateChain_rotation_relativePose nu _ s e i hi.1 hi.2,
        cobChain_rotation_scratch _ s e i hi.1 hi.2, hs i hi.1 hi.2]
      have h1 : (cobChain (interpolateRot nu pc u d n s e).1 s e Channel.ROTATION).relativePose i
          = pc.relativePose i := by
        unfold relativePose
        rw [cobChain_frame _ s e _ _ (by omega), interpolateRot_frame nu pc u d n s e _ (by omega)]
      have h2 : (interpolateRot nu pc u d n s e).1.absolutePose i = pc.absolutePose i :=
        interpolateRot_frame nu pc u d n s e _ (by omega)
      rw [h1, h2]
      apply Affine3.ext
      · show (pc.relativePose i).linear *
          (Affine3.inverse3 (pc.absolutePose i).linear * 1 * (pc.absolutePose i).linear)
          = (pc.relativePose i).linear
        rw [mul_one, Affine3.inverse3_mul _ (hA i hi.1 hi.2), mul_one]
      · rfl
    · unfold relativePose
      rw [updateChain_any_frame nu _ s e _ _ (by omega), cobChain_frame _ s e _ _ (by omega),
        interpolateRot_frame nu pc u d n s e _ (by omega)]

/-- The joint interpolation without weight in both channels. -/
theorem interpolateMotion_zero_weights (nu : Numerics K) (pc : PoseChain K)
    (u d : Affine3 K) (n s e : Nat) (hd : d.linear.det ≠ 0)
    (hA : ∀ i, s < i → i ≤ e → (pc.absolutePose i).linear.det ≠ 0)
    (hzero : ∀ v, nu.angleAxis 0 v = 1)
    (ht : ∀ i, s < i → i ≤ e → pc.traInfoVector i = 0)
    (hr : ∀ i, s < i → i ≤ e → pc.rotInfoVector i = 0) :
    ((interpolateMotion nu pc u d n s e).2 0 = 1 ∧
      (interpolateMotion nu pc u d n s e).2 1 = 1) ∧
    (∀ i, s < i → i ≤ e → (interpolateMotion nu pc u d n s e).1.scratchUpdate i = 1) ∧
    (∀ i, (updateChain nu (cobChain (interpolateMotion nu pc u d n s e).1 s e Channel.BOTH)
        s e Channel.BOTH).relativePose i = pc.relativePose i) := by
  have hs : ∀ i, s < i → i ≤ e → (interpolateMotion nu pc u d n s e).1.scratchUpdate i = 1 := by
    intro i h1 h2
    obtain ⟨m, rfl⟩ : ∃ m, i = s + 1 + m := ⟨i - (s + 1), by omega⟩
    rw [interpolateMotion_scratch nu pc u d n s e m (by omega),
      partialUpdate_zero_weights nu pc u n s e m (by omega) hzero ht hr,
      partialUpdate_zero_weights nu pc u n s e (m + 1) (by omega) hzero ht hr,
      Affine3.inverse_mul_self _ Affine3.det_one_ne_zero, one_mul,
      Affine3.mul_inverse_self d hd]
  refine ⟨⟨?_, ?_⟩, hs, fun i => ?_⟩
  · show 1 / (1 + blockSum pc.traInfoVector (s + 1) ((e - s) - 1) / pc.traCloseInfoVector n) = 1
    rw [blockSum_eq_zero _ _ _ (fun j h1 h2 => ht j (by omega) (by omega)), zero_div,
      add_zero, div_one]
  · show 1 / (1 + blockSum pc.rotInfoVector (s + 1) ((e - s) - 1) / pc.rotCloseInfoVector n) = 1
    rw [blockSum_eq_zero _ _ _ (fun j h1 h2 => hr j (by omega) (by omega)), zero_div,
      add_zero, div_one]
  · by_cases hi : s < i ∧ i ≤ e
    · rw [updateChain_both_relativePose nu _ s e i hi.1 hi.2,
        cobChain_both_scratch _ s e i hi.1 hi.2, hs i hi.1 hi.2]
      have h1 : (cobChain (interpolateMotion nu pc u d n s e).1 s e Channel.BOTH).relativePose i
          = pc.relativePose i := by
        unfold relativePose
        rw [cobChain_frame _ s e _ _ (by omega),
          interpolateMotion_frame nu pc u d n s e _ (by omega)]
      have h2 : (interpolateMotion nu pc u d n s e).1.absolutePose i = pc.absolutePose i :=
        interpolateMotion_frame nu pc u d n s e _ (by omega)
      rw [h1, h2, one_mul, Affine3.inverse_mul_self _ (hA i hi.1 hi.2), mul_one]
    · unfold relativePose
      rw [updateChain_any_frame nu _ s e _ _ (by omega), cobChain_frame _ s e _ _ (by omega),
        interpolateMotion_frame nu pc u d n s e _ (by omega)]

/-- C16: a segment `start < end` whose weights are all `0`, with positive closure
weights and `globalNormalizer > 0`, invertible absolute poses and measured transform,
and the angle-axis conversion exact at angle `0`: no division by zero occurs (the
channel normalizers are nonzero and the row count of the block of `interpolateMotion`
is not negative), each of `interpolateTra`, `interpolateRot` and `interpolateMotion` (for
its channel, respectively both channels, without weight) sets `scratchUpdate[i]` to the
identity for every `i` of `start+1 .. end` and returns the blend normalizer `1`, and the
change of basis and update that follow leave every relative pose unchanged. -/
theorem zero_weight_segment_absorbs_nothing (nu : Numerics K) (pc : PoseChain K)
    (aupdate adesired : Affine3 K) (n start end_ : Nat) (hse : start < end_)
    (hd : adesired.linear.det ≠ 0)
    (hA : ∀ i, start < i → i ≤ end_ → (pc.absolutePose i).linear.det ≠ 0)
    (hzero : ∀ v, nu.angleAxis 0 v = 1)
    (hct : 0 < pc.traCloseInfoVector n) (hcr : 0 < pc.rotCloseInfoVector n)
    (hg : 0 < pc.globalNormalizer) :
    ((∀ i, start < i → i ≤ end_ → pc.traInfoVector i = 0) →
      singleTraNormalizer pc n start end_ ≠ 0 ∧
      (interpolateTra pc aupdate adesired n start end_).2 0 = 1 ∧
      (∀ i, start < i → i ≤ end_ →
        (interpolateTra pc aupdate adesired n start end_).1.scratchUpdate i = 1) ∧
      (∀ i, (updateChain nu
          (cobChain (interpolateTra pc aupdate adesired n start end_).1 start end_
            Channel.TRANSLATION) start end_ Channel.TRANSLATION).relativePose i
        = pc.relativePose i)) ∧
    ((∀ i, start < i → i ≤ end_ → pc.rotInfoVector i = 0) →
      singleRotNormalizer pc n start end_ ≠ 0 ∧
      (interpolateRot nu pc aupdate adesired n start end_).2 1 = 1 ∧
      (∀ i, start < i → i ≤ end_ →
        (interpolateRot nu pc aupdate adesired n start end_).1.scratchUpdate i = 1) ∧
      (∀ i, (updateChain nu
          (cobChain (interpolateRot nu pc aupdate adesired n start end_).1 start end_
            Channel.ROTATION) start end_ Channel.ROTATION).relativePose i
        = pc.relativePose i)) ∧
    ((∀ i, start < i → i ≤ end_ → pc.traInfoVector i = 0) →
      (∀ i, start < i → i ≤ end_ → pc.rotInfoVector i = 0) →
      0 ≤ motionBlockRows start end_ ∧
      motionTraNormalizer pc n start end_ ≠ 0 ∧ motionRotNormalizer pc n start end_ ≠ 0 ∧
      ((interpolateMotion nu pc aupdate adesired n start end_).2 0 = 1 ∧
        (interpolateMotion nu pc aupdate adesired n start end_).2 1 = 1) ∧
      (∀ i, start < i → i ≤ end_ →
        (interpolateMotion nu pc aupdate adesired n start end_).1.scratchUpdate i = 1) ∧
      (∀ i, (updateChain nu
          (cobChain (interpolateMotion nu pc aupdate adesired n start end_).1 start end_
            Channel.BOTH) start end_ Channel.BOTH).relativePose i
        = pc.relativePose i)) := by
  refine ⟨fun ht => ⟨?_, interpolateTra_zero_weights nu pc aupdate adesired n start end_ hd ht⟩,
    fun hr => ⟨?_, interpolateRot_zero_weights nu pc aupdate adesired n start end_ hd hA
      hzero hr⟩,
    fun ht hr => ⟨motionBlockRows_nonneg start end_ hse,
      ?_, ?_,
      interpolateMotion_zero_weights nu pc aupdate adesired n start end_ hd hA hzero ht hr⟩⟩
  · unfold singleTraNormalizer
    rw [blockSum_eq_zero _ _ _ (fun j h1 h2 => ht j (by omega) (by omega)), zero_add]
    exact ne_of_gt (mul_pos hg hct)
  · unfold singleRotNormalizer
    rw [blockSum_eq_zero _ _ _ (fun j h1 h2 => hr j (by omega) (by omega)), zero_add]
    exact ne_of_gt (mul_pos hg hcr)
  · unfold motionTraNormalizer
    rw [blockSum_eq_zero _ _ _ (fun j h1 h2 => ht j (by omega) (by omega)), zero_add]
    exact ne_of_gt (mul_pos hg hct)
  · unfold motionRotNormalizer
    rw [blockSum_eq_zero _ _ _ (fun j h1 h2 => hr j (by omega) (by omega)), zero_add]
    exact ne_of_gt (mul_pos hg hcr)

theorem lineChain_absolutePose (n : Nat) (w c d g : K) (anchor : Affine3 K) (i : Nat) :
    (lineChain n w c d g anchor).absolutePose i = anchor := by
  have h1 : ¬ (4 * i) % 4 = 1 := by omega
  have h2 : (4 * i) % 4 = 0 := by omega
  simp [absolutePose, lineChain, h2]

/-- Witness of C16 on the scenario chain without pose weights: after the joint
interpolation, `cobChain` and `updateChain` leave the relative pose 2 unchanged. -/
theorem zero_weight_segment_absorbs_nothing_witness :
    (updateChain rationalNumerics
        (cobChain (interpolateMotion rationalNumerics zeroWeightChain 1
          (Affine3.ofTranslation ![9 / 2, 0, 0]) 0 0 4).1 0 4 Channel.BOTH) 0 4
        Channel.BOTH).relativePose 2 = zeroWeightChain.relativePose 2 :=
  ((zero_weight_segment_absorbs_nothing rationalNumerics zeroWeightChain 1
    (Affine3.ofTranslation ![9 / 2, 0, 0]) 0 0 4 (by decide)
    (Affine3.ofTranslation_det_ne_zero _)
    (fun i _ _ => by
      rw [zeroWeightChain, lineChain_absolutePose]
      exact Affine3.det_one_ne_zero)
    (fun _ => rfl) zero_lt_one zero_lt_one zero_lt_one).2.2
    (fun _ _ _ => rfl) (fun _ _ _ => rfl)).2.2.2.2.2 2

/-! ## The one-pass correction law -/

theorem partialUpdate_eq (nu : Numerics K) (pc : PoseChain K) (u : Affine3 K)
    (n s e m : Nat) :
    partialUpdate nu pc u n s e m
      = Affine3.ofTranslationLinear
          ((blockSum pc.traInfoVector (s + 1) m / motionTraNormalizer pc n s e) • u.translation)
          (nu.angleAxis
            (nu.angle u.linear *
              (blockSum pc.rotInfoVector (s + 1) m / motionRotNormalizer pc n s e))
            (nu.axis u.linear)) := by
  unfold partialUpdate
  rw [blockSum_div, blockSum_div]

/-- C17 (one-pass correction law): let `A_i` be the identity-mode absolute poses of the
segment before the correction, `D` the measured closure, `U = A_end⁻¹ * D` with
translation `t` and angle-axis `(θ, axis)`, and
`a_m = Translation(t * s_m) * Rotation(θ * r_m, axis)` with `s_m` the sum of the
translation weights of the poses `start+1 .. start+m` over `traNormalizer` and `r_m` the
same for the rotation weights. With invertible relative poses and closure, invertible
angle-axis rotations about `axis` and the identity at angle `0`: after
`interpolateMotion`, `cobChain(BOTH)` and `updateChain(BOTH)`, integrating again from
the identity gives `A'_i = D * a_(i-start) * D⁻¹ * A_i` for every `i` of
`start+1 .. end`; and when the angle-axis conversion of `U` is exact and the weights of
the segment sum to the nonzero normalizers in both channels (`s_end = r_end = 1`),
`A'_end = D`. -/
theorem onepass_correction_law (nu : Numerics K) (pc : PoseChain K) (n start end_ : Nat)
    (hse : start < end_)
    (hrel : ∀ i, start < i → i ≤ end_ → (pc.relativePose i).linear.det ≠ 0)
    (hD : (pc.closeVector n).linear.det ≠ 0)
    (hzero : ∀ v, nu.angleAxis 0 v = 1)
    (hdet : ∀ x, (nu.angleAxis x (nu.axis
      (((integrateChain pc start end_ true).absolutePose end_).inverse
        * pc.closeVector n).linear)).det ≠ 0) :
    (∀ m, partialUpdate nu pc
        (((integrateChain pc start end_ true).absolutePose end_).inverse * pc.closeVector n)
        n start end_ m
      = Affine3.ofTranslationLinear
          ((blockSum pc.traInfoVector (start + 1) m / motionTraNormalizer pc n start end_)
            • (((integrateChain pc start end_ true).absolutePose end_).inverse
                * pc.closeVector n).translation)
          (nu.angleAxis
            (nu.angle (((integrateChain pc start end_ true).absolutePose end_).inverse
                * pc.closeVector n).linear *
              (blockSum pc.rotInfoVector (start + 1) m / motionRotNormalizer pc n start end_))
            (nu.axis (((integrateChain pc start end_ true).absolutePose end_).inverse
                * pc.closeVector n).linear))) ∧
    (∀ i, start < i → i ≤ end_ →
      (integrateChain
        (onePassBlock nu (integrateChain pc start end_ true)
          (((integrateChain pc start end_ true).absolutePose end_).inverse * pc.closeVector n)
          n start end_).1 start end_ true).absolutePose i
      = pc.closeVector n
          * partialUpdate nu pc
              (((integrateChain pc start end_ true).absolutePose end_).inverse
                * pc.closeVector n) n start end_ (i - start)
          * (pc.closeVector n).inverse
          * (integrateChain pc start end_ true).absolutePose i) ∧
    (nu.angleAxis
        (nu.angle (((integrateChain pc start end_ true).absolutePose end_).inverse
          * pc.closeVector n).linear)
        (nu.axis (((integrateChain pc start end_ true).absolutePose end_).inverse
          * pc.closeVector n).linear)
      = (((integrateChain pc start end_ true).absolutePose end_).inverse
          * pc.closeVector n).linear →
      blockSum pc.traInfoVector (start + 1) (end_ - start)
        = motionTraNormalizer pc n start end_ →
      motionTraNormalizer pc n start end_ ≠ 0 →
      blockSum pc.rotInfoVector (start + 1) (end_ - start)
        = motionRotNormalizer pc n start end_ →
      motionRotNormalizer pc n start end_ ≠ 0 →
      (integrateChain
        (onePassBlock nu (integrateChain pc start end_ true)
          (((integrateChain pc start end_ true).absolutePose end_).inverse * pc.closeVector n)
          n start end_).1 start end_ true).absolutePose end_
      = pc.closeVector n) := by
  have habs : ∀ i, start < i → i ≤ end_ →
      (integrateChain pc start end_ true).absolutePose i
        = composeRel (integrateChain pc start end_ true) start i := by
    intro i h1 h2
    rw [integrateChain_true_absolutePose pc start end_ i h1 h2]
    exact (composeRel_congr pc _ start i
      (fun j _ _ => integrateChain_relativePose pc start end_ true j)).symm
  have hrel2 : ∀ i, start < i → i ≤ end_ →
      ((integrateChain pc start end_ true).relativePose i).linear.det ≠ 0 := by
    intro i h1 h2
    rw [integrateChain_relativePose]
    exact hrel i h1 h2
  refine ⟨fun m => partialUpdate_eq nu pc _ n start end_ m, fun i h1 h2 => ?_,
    fun hround htra htra0 hrot hrot0 => ?_⟩
  · rw [integrateChain_true_absolutePose _ start end_ i h1 h2, habs i h1 h2]
    have e1 : i = start + (i - start) := by omega
    have h := onePassBlock_composeRel nu (integrateChain pc start end_ true)
      (((integrateChain pc start end_ true).absolutePose end_).inverse * pc.closeVector n)
      n start end_ habs hrel2 hD (fun m _ => hdet _)
      (partialUpdate_zero nu _ _ n start end_ hzero) (i - start) (by omega)
    rw [← e1] at h
    exact h
  · rw [integrateChain_true_absolutePose _ start end_ end_ hse (le_refl _)]
    exact onePassBlock_meets_closure nu (integrateChain pc start end_ true) n start end_ hse
      habs hrel2 hD hzero hdet hround htra htra0 hrot hrot0

/-- The identity-mode discrepancy of the scenario chain has identity rotation. -/
theorem scenarioChain_integrated_discrepancy_linear :
    (((integrateChain scenarioChain 0 4 true).absolutePose 4).inverse
      * scenarioChain.closeVector 0).linear = 1 := by
  have e1 : scenarioChain.closeVector 0 = Affine3.ofTranslation ![9 / 2, 0, 0] := rfl
  have e2 : composeRel scenarioChain 0 4 = Affine3.ofTranslation ![((4 : ℕ) : ℚ), 0, 0] :=
    lineChain_composeRel 5 1 1 (9 / 2) 1 1 4
  rw [integrateChain_true_absolutePose scenarioChain 0 4 4 (by decide) (by decide), e1, e2,
    Affine3.ofTranslation_inverse, Affine3.ofTranslation_mul]
  rfl

/-- Witness of C17 on the scenario chain: the weights `1` of the four poses sum to
the normalizer `1 * (3 + 1)` in both channels, and the identity-mode absolute pose 4
after the one-pass correction is the measured closure. -/
theorem onepass_correction_law_witness :
    (integrateChain
      (onePassBlock rationalNumerics (integrateChain scenarioChain 0 4 true)
        (((integrateChain scenarioChain 0 4 true).absolutePose 4).inverse
          * scenarioChain.closeVector 0) 0 0 4).1 0 4 true).absolutePose 4
      = scenarioChain.closeVector 0 :=
  (onepass_correction_law rationalNumerics scenarioChain 0 0 4 (by decide)
    (fun i _ _ => by
      rw [scenarioChain, lineChain_relativePose]
      exact Affine3.ofTranslation_det_ne_zero _)
    (Affine3.ofTranslation_det_ne_zero _) (fun _ => rfl)
    (fun _ => by
      show (1 : Matrix3 ℚ).det ≠ 0
      rw [Matrix.det_one]
      exact one_ne_zero)).2.2
    (by
      rw [scenarioChain_integrated_discrepancy_linear]
      rfl)
    (by norm_num [scenarioChain, lineChain, blockSum, motionTraNormalizer,
      Finset.sum_range_succ])
    (by norm_num [scenarioChain, lineChain, blockSum, motionTraNormalizer,
      Finset.sum_range_succ])
    (by norm_num [scenarioChain, lineChain, blockSum, motionRotNormalizer,
      Finset.sum_range_succ])
    (by norm_num [scenarioChain, lineChain, blockSum, motionRotNormalizer,
      Finset.sum_range_succ])

/-! ## Locality of the corrections -/

theorem deflateWeights_startVector (pc : PoseChain K) (s e : Nat) (v : Vector3 K)
    (oo : Bool) : (deflateWeights pc s e v oo).startVector = pc.startVector := by
  unfold deflateWeights
  split_ifs <;> rfl

theorem deflateWeights_endVector (pc : PoseChain K) (s e : Nat) (v : Vector3 K)
    (oo : Bool) : (deflateWeights pc s e v oo).endVector = pc.endVector := by
  unfold deflateWeights
  split_ifs <;> rfl

theorem deflateWeights_scaleVector (pc : PoseChain K) (s e : Nat) (v : Vector3 K)
    (oo : Bool) : (deflateWeights pc s e v oo).scaleVector = pc.scaleVector := by
  unfold deflateWeights
  split_ifs <;> rfl

theorem correctionBlock_startVector (nu : Numerics K) (g : Globals) (pc : PoseChain K)
    (u : Affine3 K) (n s e : Nat) (oo : Bool) :
    (correctionBlock nu g pc u n s e oo).1.startVector = pc.startVector := by
  unfold correctionBlock
  split_ifs <;> rfl

theorem correctionBlock_endVector (nu : Numerics K) (g : Globals) (pc : PoseChain K)
    (u : Affine3 K) (n s e : Nat) (oo : Bool) :
    (correctionBlock nu g pc u n s e oo).1.endVector = pc.endVector := by
  unfold correctionBlock
  split_ifs <;> rfl

theorem scaleCorrect_scaleVector_frame (nu : Numerics K) (pc : PoseChain K) (n s e i : Nat)
    (h : i ≤ s ∨ e < i) : (scaleCorrect nu pc n s e).scaleVector i = pc.scaleVector i :=
  updateScaleLoop_scale_frame nu _ s (e - s) _ i (by omega)

/-- The correction of a closure `(s, e)` writes no scale factor outside `s+1 .. e`. -/
theorem correctionBlock_scaleVector_frame (nu : Numerics K) (g : Globals)
    (pc : PoseChain K) (u : Affine3 K) (n s e : Nat) (oo : Bool) (i : Nat)
    (h : i ≤ s ∨ e < i) :
    (correctionBlock nu g pc u n s e oo).1.scaleVector i = pc.scaleVector i := by
  unfold correctionBlock
  split_ifs
  · rfl
  · exact scaleCorrect_scaleVector_frame nu _ n s e i h
  · rfl
  · rfl

/-- One closure keeps the closure ranges, writes no reserved slot, and writes no
relative pose and no scale factor outside the poses `start+1 .. end` of the closure. -/
theorem closureBody_local (nu : Numerics K) (g : Globals) (n : Nat)
    (s : PoseChain K × Nat) :
    (closureBody nu g n s).1.startVector = s.1.startVector ∧
    (closureBody nu g n s).1.endVector = s.1.endVector ∧
    (∀ x, x % 4 = 2 ∨ (x % 4 ≠ 0 ∧ (x < 4 * (s.1.startVector n + 1)
        ∨ 4 * s.1.endVector n + 3 < x)) →
      (closureBody nu g n s).1.poseVector x = s.1.poseVector x) ∧
    (∀ i, i ≤ s.1.startVector n ∨ s.1.endVector n < i →
      (closureBody nu g n s).1.scaleVector i = s.1.scaleVector i) := by
  obtain ⟨pc, prev⟩ := s
  obtain ⟨pc2, u, hs, hshape⟩ := closureBody_shape nu g n pc prev
  refine ⟨?_, ?_, ?_, ?_⟩
  · unfold closureBody
    dsimp only
    rw [deflateWeights_startVector]
    show (correctionBlock nu g _ _ n _ _ _).1.startVector = _
    rw [correctionBlock_startVector]
    show (if prev < pc.startVector n then integrateChain pc prev (pc.startVector n) false
      else pc).startVector = _
    split_ifs <;> rfl
  · unfold closureBody
    dsimp only
    rw [deflateWeights_endVector]
    show (correctionBlock nu g _ _ n _ _ _).1.endVector = _
    rw [correctionBlock_endVector]
    show (if prev < pc.startVector n then integrateChain pc prev (pc.startVector n) false
      else pc).endVector = _
    split_ifs <;> rfl
  · intro x hx
    dsimp only at hx ⊢
    rw [hshape, deflateWeights_poseVector, integrateChain_frame _ _ _ false x (by omega),
      correctionBlock_frame nu g pc2 u n _ _ _ x (by omega)]
    exact hs.slots x (by omega)
  · intro i hi
    dsimp only at hi ⊢
    rw [hshape, deflateWeights_scaleVector]
    show (correctionBlock nu g pc2 u n _ _ _).1.scaleVector i = _
    rw [correctionBlock_scaleVector_frame nu g pc2 u n _ _ _ i hi, hs.scale]

/-- The closure loop after `m` closures: the closure ranges are those of the initial
chain, no reserved slot is written, and a pose outside the ranges of the closures
`0 .. m-1` has its initial relative pose and scale factor. -/
theorem closureLoop_local (nu : Numerics K) (g : Globals) (pc : PoseChain K) (m : Nat) :
    (forPoses (closureBody nu g) 0 m (pc, 0)).1.startVector = pc.startVector ∧
    (forPoses (closureBody nu g) 0 m (pc, 0)).1.endVector = pc.endVector ∧
    (∀ x, x % 4 = 2 →
      (forPoses (closureBody nu g) 0 m (pc, 0)).1.poseVector x = pc.poseVector x) ∧
    (∀ i, (∀ n, n < m → ¬ (pc.startVector n < i ∧ i ≤ pc.endVector n)) →
      (forPoses (closureBody nu g) 0 m (pc, 0)).1.relativePose i = pc.relativePose i ∧
      (forPoses (closureBody nu g) 0 m (pc, 0)).1.scaleVector i = pc.scaleVector i) := by
  induction m with
  | zero => exact ⟨rfl, rfl, fun _ _ => rfl, fun _ _ => ⟨rfl, rfl⟩⟩
  | succ m ih =>
    obtain ⟨ih1, ih2, ih3, ih4⟩ := ih
    rw [forPoses_succ, Nat.zero_add]
    obtain ⟨h1, h2, h3, h4⟩ := closureBody_local nu g m (forPoses (closureBody nu g) 0 m (pc, 0))
    rw [ih1, ih2] at h3 h4
    refine ⟨h1.trans ih1, h2.trans ih2, fun x hx => (h3 x (Or.inl hx)).trans (ih3 x hx),
      fun i hi => ?_⟩
    have hm := hi m (Nat.lt_succ_self m)
    have hprev := ih4 i (fun n hn => hi n (Nat.lt_succ_of_lt hn))
    constructor
    · unfold relativePose
      rw [h3 _ (Or.inr ⟨by omega, by omega⟩)]
      exact hprev.1
    · rw [h4 i (by omega)]
      exact hprev.2

/-- C18: `copSLAM`, for every closure list and both methods, leaves the reserved slot
of every pose unchanged, and leaves `relativePose[i]` and `scaleFactor[i]` unchanged
for every index `i` (the unused `relativePose[0]` included) that lies in no closure's
range `start+1 .. end`. -/
theorem copSLAM_corrections_local (nu : Numerics K) (g : Globals) (pc : PoseChain K) :
    (∀ i, (copSLAM nu g pc).reservedSlot i = pc.reservedSlot i) ∧
    (∀ i, (∀ n, n < pc.nclosures → ¬ (pc.startVector n < i ∧ i ≤ pc.endVector n)) →
      (copSLAM nu g pc).relativePose i = pc.relativePose i ∧
      (copSLAM nu g pc).scaleVector i = pc.scaleVector i) := by
  obtain ⟨_, _, h3, h4⟩ := closureLoop_local nu g pc pc.nclosures
  unfold copSLAM
  dsimp only
  refine ⟨fun i => ?_, fun i hi => ⟨?_, ?_⟩⟩
  · unfold reservedSlot
    rw [integrateChain_frame _ _ _ false _ (by omega)]
    exact h3 _ (by omega)
  · rw [integrateChain_relativePose]
    exact (h4 i hi).1
  · exact (h4 i hi).2

/-- Witness of C18 on the scenario chain (one closure `(0,4)`): the relative pose and
the scale factor of pose 0 are unchanged. -/
theorem copSLAM_corrections_local_witness :
    (copSLAM rationalNumerics ⟨Method.TWOPASS, true, false⟩ scenarioChain).relativePose 0
      = scenarioChain.relativePose 0 ∧
    (copSLAM rationalNumerics ⟨Method.TWOPASS, true, false⟩ scenarioChain).scaleVector 0
      = scenarioChain.scaleVector 0 :=
  (copSLAM_corrections_local rationalNumerics ⟨Method.TWOPASS, true, false⟩
    scenarioChain).2 0 (fun _ _ h => absurd h.1 (Nat.not_lt_zero _))

/-! ## Degenerate segments -/

end PoseChain

end CopSlam
